import Mathlib

/-!
Graph-to-OpenAPI transformation (`internal/controller/helpers.go`)

A shallow embedding of `parameterSchema` and `buildOpenAPI`, followed by the
properties proved about them.

Conventions of the embedding:

* Go maps are association lists with unique keys (`GoMap`); a store replaces the
  value of a present key in place and appends an absent one.  Every statement
  about a map goes through `GoMap.get?`, `GoMap.keys` or the length, never
  through the order of the entries.
* Go slices handed down the recursion are immutable lists.  `newParams` and
  `allParams` are explicit copies in the source; `segments` is appended to in
  place, but the slot written by a call is read only by that call and its
  descendants before a sibling overwrites it, so the sequential traversal never
  observes the sharing.
* The recursion of `dfs` has no visited-set, so it is modelled with a recursion
  budget (`fuel`); running out of budget is the outcome `Fault.stackExhausted`.
  A lookup `idToSegment[n.ID]` that misses yields a nil pointer whose field is
  read on the next line; that is the outcome `Fault.nilDereference`.
* `strings.ToLower` is a library function; it is a parameter `toLower` of the
  model, so every theorem holds for whatever function it is.
-/

namespace sharedpb

/-- Modelled from the spec: the enum `sharedpb.ParameterType` is declared in the
external proto package.  The two constants the code switches on are kept by name;
`unspecified` is the zero value and `unrecognized n` any other enum number. -/
inductive ParameterType
  | unspecified
  | PARAMETER_TYPE_INTEGER
  | PARAMETER_TYPE_UUID
  | unrecognized (n : Int)
  deriving DecidableEq, Repr

/-- Modelled from the spec: the message `sharedpb.Parameter`, used both for a
`Param` segment and for a query parameter (`parameterSchema` takes either). -/
structure Parameter where
  Id : String
  Name : String
  Type_ : ParameterType
  Example : String
  deriving DecidableEq, Repr

/-- Modelled from the spec: the message behind `PathSegment_Static`. -/
structure StaticSegment where
  Id : String
  Name : String
  deriving DecidableEq, Repr

/-- Modelled from the spec: the message `sharedpb.PathSegment` with its oneof
field `Segment`; `unset` is the message whose oneof carries neither variant. -/
inductive PathSegment
  | Static (s : StaticSegment)
  | Param (p : Parameter)
  | unset
  deriving DecidableEq, Repr

/-- Modelled from the spec: the message `sharedpb.Edge`. -/
structure Edge where
  From : String
  To : String
  deriving DecidableEq, Repr

/-- Modelled from the spec: the message `sharedpb.Operation`; status codes are
machine integers, rendered in decimal by the code. -/
structure Operation where
  Id : String
  PathSegmentId : String
  Method : String
  QueryParameters : List Parameter
  StatusCodes : List Int
  deriving DecidableEq, Repr

/-- Modelled from the spec: the message `sharedpb.APIGraph`. -/
structure APIGraph where
  Segments : List PathSegment
  Edges : List Edge
  Operations : List Operation
  deriving DecidableEq, Repr

end sharedpb

namespace Controller

open sharedpb (ParameterType PathSegment Edge Operation APIGraph)

/-! ## Go maps -/

/-- A Go map as an association list with unique keys. -/
abbrev GoMap (κ ν : Type) := List (κ × ν)

namespace GoMap

variable {κ ν : Type} [DecidableEq κ]

/-- The lookup `m[k]` with its presence flag. -/
def get? : GoMap κ ν → κ → Option ν
  | [], _ => none
  | (k', v) :: m, k => if k' = k then some v else get? m k

/-- The store `m[k] = v`. -/
def set : GoMap κ ν → κ → ν → GoMap κ ν
  | [], k, v => [(k, v)]
  | (k', v') :: m, k, v => if k' = k then (k, v) :: m else (k', v') :: set m k v

/-- The lookup `m[k]` that yields the zero value `d` for an absent key. -/
def getD (m : GoMap κ ν) (k : κ) (d : ν) : ν :=
  (m.get? k).getD d

/-- The keys present in the map. -/
def keys (m : GoMap κ ν) : List κ :=
  m.map Prod.fst

end GoMap

/-! ## Output types -/

/-- The struct `Schema`; an empty `Format` is omitted on output. -/
structure Schema where
  Type_ : String
  Format : String
  deriving DecidableEq, Repr

/-- The struct `Parameter` of the output document. -/
structure Parameter where
  Name : String
  In : String
  Required : Bool
  Schema : Schema
  Example : String
  deriving DecidableEq, Repr

/-- The struct `Path`: one operation entry.  The values of `Responses` are
always `map[string]string` objects in this code. -/
structure Path where
  Summary : String
  Parameters : List Parameter
  Responses : GoMap String (GoMap String String)
  deriving DecidableEq, Repr

/-- The struct `OpenAPI`. -/
structure OpenAPI where
  OpenAPI : String
  Info : GoMap String String
  Paths : GoMap String (GoMap String Path)
  deriving DecidableEq, Repr

/-- The ways a run of `buildOpenAPI` can end without returning. -/
inductive Fault
  | nilDereference
  | stackExhausted
  deriving DecidableEq, Repr

deriving instance DecidableEq for Except

/-! ## `parameterSchema` -/

/-- The function `parameterSchema`: a switch on `param.Type` with a default. -/
def parameterSchema (param : sharedpb.Parameter) : Schema :=
  match param.Type_ with
  | .PARAMETER_TYPE_INTEGER => { Type_ := "integer", Format := "" }
  | .PARAMETER_TYPE_UUID => { Type_ := "string", Format := "uuid" }
  | _ => { Type_ := "string", Format := "" }

/-! ## `buildOpenAPI` -/

/-- A `for ... range` loop over `xs` whose body may fault: the state is threaded
through the iterations and the first fault ends the loop. -/
def forEach {σ α : Type} (f : σ → α → Except Fault σ) : σ → List α → Except Fault σ
  | s, [] => .ok s
  | s, a :: as =>
    match f s a with
    | .ok s' => forEach f s' as
    | .error e => .error e

/-- The id read by the type switch over a segment's oneof; when neither case
matches, `id` keeps its zero value. -/
def segmentId : PathSegment → String
  | .Static s => s.Id
  | .Param p => p.Id
  | .unset => ""

/-- The loop filling `idToSegment`; a segment with an unset oneof is skipped. -/
def buildIdToSegment (segments : List PathSegment) : GoMap String PathSegment :=
  segments.foldl (fun m s =>
    match s with
    | .Static st => m.set st.Id s
    | .Param p => m.set p.Id s
    | .unset => m) []

/-- The loop filling `graphMap`: `graphMap[e.From] = append(graphMap[e.From], e.To)`. -/
def buildGraphMap (edges : List Edge) : GoMap String (List String) :=
  edges.foldl (fun m e => m.set e.From (m.getD e.From [] ++ [e.To])) []

/-- The loop filling `opsBySegment`. -/
def buildOpsBySegment (ops : List Operation) : GoMap String (List Operation) :=
  ops.foldl (fun m op => m.set op.PathSegmentId (m.getD op.PathSegmentId [] ++ [op])) []

/-- The loop filling `used`: `used[e.To] = true`. -/
def buildUsed (edges : List Edge) : GoMap String Bool :=
  edges.foldl (fun m e => m.set e.To true) []

/-- The rendering `fmt.Sprintf("%d", status)`: decimal digits, with a leading
minus sign for a negative number. -/
def sprintfD : Int → String
  | .ofNat n => Nat.repr n
  | .negSucc n => "-" ++ Nat.repr (n + 1)

/-- The rendering `fmt.Sprintf("{%s}", name)`. -/
def sprintfBraces (name : String) : String :=
  "\x7b" ++ name ++ "\x7d"

/-- The parameter appended for a `Param` segment. -/
def pathParameter (p : sharedpb.Parameter) : Parameter :=
  { Name := p.Name, In := "path", Required := true,
    Schema := parameterSchema p, Example := p.Example }

/-- The parameter appended for a query parameter of an operation. -/
def queryParameter (qp : sharedpb.Parameter) : Parameter :=
  { Name := qp.Name, In := "query", Required := false,
    Schema := parameterSchema qp, Example := qp.Example }

/-- The value `allParams` of an operation: a copy of `newParams`, then one
append per query parameter. -/
def allParams (newParams : List Parameter) (op : Operation) : List Parameter :=
  op.QueryParameters.foldl (fun acc qp => acc ++ [queryParameter qp]) newParams

/-- The object stored for every status code. -/
def responseObject : GoMap String String :=
  [("description", "response")]

/-- The value `resp` of an operation: one store per status code. -/
def buildResponses (op : Operation) : GoMap String (GoMap String String) :=
  op.StatusCodes.foldl (fun resp status => resp.set (sprintfD status) responseObject) []

/-- The entry stored for an operation. -/
def opEntry (newParams : List Parameter) (op : Operation) : Path :=
  { Summary := op.Id, Parameters := allParams newParams op, Responses := buildResponses op }

/-- The store `paths[path][strings.ToLower(op.Method)] = Path{...}`. -/
def storeEntry (toLower : String → String) (path : String) (newParams : List Parameter)
    (paths : GoMap String (GoMap String Path)) (op : Operation) :
    GoMap String (GoMap String Path) :=
  paths.set path ((paths.getD path []).set (toLower op.Method) (opEntry newParams op))

/-- The path part of a segment and the parameters it adds to the inherited ones. -/
def segmentPart : PathSegment → String
  | .Static s => s.Name
  | .Param p => sprintfBraces p.Name
  | .unset => ""

/-- The value `newParams` of a call: a copy of the inherited parameters, with one
more for a `Param` segment. -/
def segmentParams (inheritedParams : List Parameter) : PathSegment → List Parameter
  | .Param p => inheritedParams ++ [pathParameter p]
  | _ => inheritedParams

/-- The full path `"/" + strings.Join(segments, "/")`. -/
def fullPath (segments : List String) : String :=
  "/" ++ "/".intercalate segments

/-- The block run when `opsBySegment[n.ID]` is present: create `paths[path]` if
it is absent, then store one entry per operation. -/
def emitOps (toLower : String → String) (segments : List String) (newParams : List Parameter)
    (ops : List Operation) (paths : GoMap String (GoMap String Path)) :
    GoMap String (GoMap String Path) :=
  let path := fullPath segments
  let paths := if (paths.get? path).isSome then paths else paths.set path []
  ops.foldl (storeEntry toLower path newParams) paths

/-- The closure `dfs`, with the maps it captures as arguments and the map `paths`
it mutates threaded through.  `fuel` bounds the recursion depth. -/
def dfs (toLower : String → String) (idToSegment : GoMap String PathSegment)
    (graphMap : GoMap String (List String)) (opsBySegment : GoMap String (List Operation)) :
    Nat → String → List String → List Parameter → GoMap String (GoMap String Path) →
      Except Fault (GoMap String (GoMap String Path))
  | 0, _, _, _, _ => .error .stackExhausted
  | fuel + 1, id, segments, inheritedParams, paths =>
    match idToSegment.get? id with
    | none => .error .nilDereference
    | some seg =>
      let newParams := segmentParams inheritedParams seg
      let segments := segments ++ [segmentPart seg]
      let paths :=
        match opsBySegment.get? id with
        | some ops => emitOps toLower segments newParams ops paths
        | none => paths
      forEach (fun paths child =>
        dfs toLower idToSegment graphMap opsBySegment fuel child segments newParams paths)
        paths (graphMap.getD id [])

/-- The loop starting `dfs` from every segment whose id is not in `used`. -/
def runRoots (toLower : String → String) (fuel : Nat) (graph : APIGraph) :
    Except Fault (GoMap String (GoMap String Path)) :=
  let idToSegment := buildIdToSegment graph.Segments
  let graphMap := buildGraphMap graph.Edges
  let opsBySegment := buildOpsBySegment graph.Operations
  let used := buildUsed graph.Edges
  forEach (fun paths s =>
    if used.getD (segmentId s) false then .ok paths
    else dfs toLower idToSegment graphMap opsBySegment fuel (segmentId s) [] [] paths)
    [] graph.Segments

/-- The function `buildOpenAPI`.  A returned value is the pair of the document
pointer and the error; the code has a single return statement, with a nil error. -/
def buildOpenAPI (toLower : String → String) (fuel : Nat) (graph : APIGraph) :
    Except Fault (Option OpenAPI × Option String) :=
  match runRoots toLower fuel graph with
  | .error f => .error f
  | .ok paths =>
    .ok (some { OpenAPI := "3.0.0",
                Info := [("title", "Generated API"), ("version", "1.0.0")],
                Paths := paths }, none)

/-- An ASCII lower-casing, used to instantiate `toLower` on concrete inputs; it
agrees with `strings.ToLower` on ASCII strings. -/
def asciiLower (s : String) : String :=
  String.mk (s.data.map Char.toLower)

/-! ## The sequence of stores -/

/-- One execution of the store `paths[path][strings.ToLower(op.Method)] = ...`:
the full path and the value of `newParams` at that point, and the operation. -/
structure Visit where
  path : String
  newParams : List Parameter
  op : Operation
  deriving DecidableEq, Repr

/-- The stores of one call of `dfs` for the operations of its own segment, in
the order of the loop over `ops`. -/
def ownVisits (segments : List String) (newParams : List Parameter)
    (ops : Option (List Operation)) : List Visit :=
  match ops with
  | some ops => ops.map (fun op => { path := fullPath segments, newParams := newParams, op := op })
  | none => []

/-- Appending the stores of a nested call to those logged so far; a fault of the
nested call is the fault of the whole. -/
def collect {ω : Type} (acc : List ω) : Except Fault (List ω) → Except Fault (List ω)
  | .ok ws => .ok (acc ++ ws)
  | .error e => .error e

/-- The stores executed by a call of `dfs`, in execution order: those of the
segment itself, then those of each child's call in the order of `graphMap[n.ID]`. -/
def dfsVisits (idToSegment : GoMap String PathSegment)
    (graphMap : GoMap String (List String)) (opsBySegment : GoMap String (List Operation)) :
    Nat → String → List String → List Parameter → Except Fault (List Visit)
  | 0, _, _, _ => .error .stackExhausted
  | fuel + 1, id, segments, inheritedParams =>
    match idToSegment.get? id with
    | none => .error .nilDereference
    | some seg =>
      let newParams := segmentParams inheritedParams seg
      let segments := segments ++ [segmentPart seg]
      forEach (fun acc child =>
        collect acc (dfsVisits idToSegment graphMap opsBySegment fuel child segments newParams))
        (ownVisits segments newParams (opsBySegment.get? id)) (graphMap.getD id [])

/-- The stores executed by a run of `buildOpenAPI`, in execution order: the
calls of `dfs` from the roots, in the order of the segment list. -/
def visits (fuel : Nat) (graph : APIGraph) : Except Fault (List Visit) :=
  let idToSegment := buildIdToSegment graph.Segments
  let graphMap := buildGraphMap graph.Edges
  let opsBySegment := buildOpsBySegment graph.Operations
  let used := buildUsed graph.Edges
  forEach (fun acc s =>
    collect acc
      (if used.getD (segmentId s) false then .ok []
       else dfsVisits idToSegment graphMap opsBySegment fuel (segmentId s) [] []))
    [] graph.Segments

/-- The effect of one store on `paths`. -/
def applyVisit (toLower : String → String) (paths : GoMap String (GoMap String Path))
    (v : Visit) : GoMap String (GoMap String Path) :=
  storeEntry toLower v.path v.newParams paths v.op

/-- The entry `paths[path][method]`, when both keys are present. -/
def lookupEntry (paths : GoMap String (GoMap String Path)) (path method : String) :
    Option Path :=
  (paths.get? path).bind (fun methods => methods.get? method)

/-- A visit is the last store to its path and method in the sequence `vs`. -/
def LastStore (toLower : String → String) (vs : List Visit) (v : Visit) : Prop :=
  ∃ pre post, vs = pre ++ v :: post ∧
    ∀ w ∈ post, ¬ (w.path = v.path ∧ toLower w.op.Method = toLower v.op.Method)

/-! ## Graph shapes -/

/-- The edge relation of a graph on segment ids. -/
def EdgeRel (graph : APIGraph) (a b : String) : Prop :=
  ({ From := a, To := b } : Edge) ∈ graph.Edges

instance (graph : APIGraph) (a b : String) : Decidable (EdgeRel graph a b) := by
  unfold EdgeRel; infer_instance

/-- A graph whose segments are all `Static` or `Param` with unique ids and whose
edges form a forest over the listed segments: every edge endpoint is a listed
segment, each segment has at most one incoming edge, and no cycle exists. -/
structure Forest (graph : APIGraph) : Prop where
  uniqueIds : (graph.Segments.map segmentId).Nodup
  variants : ∀ s ∈ graph.Segments, s ≠ PathSegment.unset
  endpoints : ∀ e ∈ graph.Edges,
    e.From ∈ graph.Segments.map segmentId ∧ e.To ∈ graph.Segments.map segmentId
  oneIncoming : (graph.Edges.map Edge.To).Nodup
  acyclic : ∀ id, ¬ Relation.TransGen (EdgeRel graph) id id

/-- A chain of listed segments from a root (a segment that is no edge's `to`)
along edges down to the segment `s`. -/
def RootChain (graph : APIGraph) (c : List PathSegment) (s : PathSegment) : Prop :=
  List.Chain' (fun a b => EdgeRel graph (segmentId a) (segmentId b)) c ∧
    (∀ x ∈ c, x ∈ graph.Segments) ∧
    (∃ r, c.head? = some r ∧ segmentId r ∉ graph.Edges.map Edge.To) ∧
    c.getLast? = some s

/-- The path parts of a chain: the name of a `Static` segment, the name in
braces of a `Param` segment. -/
def chainParts (c : List PathSegment) : List String :=
  c.map (fun s =>
    match s with
    | .Static st => st.Name
    | .Param p => "\x7b" ++ p.Name ++ "\x7d"
    | .unset => "")

/-- The path parameters of a chain: one per `Param` segment, in chain order. -/
def chainPathParams (c : List PathSegment) : List Parameter :=
  c.filterMap (fun s =>
    match s with
    | .Param p =>
      some { Name := p.Name, In := "path", Required := true,
             Schema := parameterSchema p, Example := p.Example }
    | _ => none)

/-- The mapped query parameters of an operation, in declared order. -/
def mappedQueryParams (op : Operation) : List Parameter :=
  op.QueryParameters.map (fun qp =>
    { Name := qp.Name, In := "query", Required := false,
      Schema := parameterSchema qp, Example := qp.Example })

/-- The number read back from a list of decimal digit characters. -/
def digitsValue (cs : List Char) : Nat :=
  cs.foldl (fun a c => 10 * a + (c.toNat - 48)) 0

/-! ## Concrete graphs -/

/-- The empty graph. -/
def emptyGraph : APIGraph :=
  { Segments := [], Edges := [], Operations := [] }

/-- The chain `users -> {id} -> orders` with one `GET` operation on `orders`. -/
def chainGraph : APIGraph :=
  { Segments := [.Static ⟨"s1", "users"⟩, .Param ⟨"p1", "id", .PARAMETER_TYPE_UUID, "abc"⟩,
      .Static ⟨"s2", "orders"⟩],
    Edges := [⟨"s1", "p1"⟩, ⟨"p1", "s2"⟩],
    Operations := [⟨"op", "s2", "GET", [], [200]⟩] }

/-- Two roots named `users`, each with a `GET` operation. -/
def collisionGraph : APIGraph :=
  { Segments := [.Static ⟨"a", "users"⟩, .Static ⟨"b", "users"⟩],
    Edges := [],
    Operations := [⟨"op1", "a", "GET", [⟨"", "q", .PARAMETER_TYPE_INTEGER, "1"⟩], [200]⟩,
      ⟨"op2", "b", "GET", [], [404]⟩] }

/-- A root `users` whose operation declares a query parameter, with a child
`orders` whose operation declares none and answers with two status codes. -/
def queryGraph : APIGraph :=
  { Segments := [.Static ⟨"s", "users"⟩, .Static ⟨"d", "orders"⟩],
    Edges := [⟨"s", "d"⟩],
    Operations := [⟨"list", "s", "GET", [⟨"", "q", .unspecified, "x"⟩], [200]⟩,
      ⟨"sub", "d", "GET", [], [200, 404]⟩] }

/-- The document returned for `chainGraph`. -/
def chainDoc : OpenAPI :=
  { OpenAPI := "3.0.0",
    Info := [("title", "Generated API"), ("version", "1.0.0")],
    Paths := [("/users/\x7bid\x7d/orders", [("get",
      { Summary := "op",
        Parameters := [{ Name := "id", In := "path", Required := true,
                         Schema := { Type_ := "string", Format := "uuid" }, Example := "abc" }],
        Responses := [("200", [("description", "response")])] })])] }

/-- The document returned for `collisionGraph`. -/
def collisionDoc : OpenAPI :=
  { OpenAPI := "3.0.0",
    Info := [("title", "Generated API"), ("version", "1.0.0")],
    Paths := [("/users", [("get",
      { Summary := "op2", Parameters := [],
        Responses := [("404", [("description", "response")])] })])] }

/-- The document returned for `queryGraph`. -/
def queryDoc : OpenAPI :=
  { OpenAPI := "3.0.0",
    Info := [("title", "Generated API"), ("version", "1.0.0")],
    Paths := [("/users", [("get",
        { Summary := "list",
          Parameters := [{ Name := "q", In := "query", Required := false,
                           Schema := { Type_ := "string", Format := "" }, Example := "x" }],
          Responses := [("200", [("description", "response")])] })]),
      ("/users/orders", [("get",
        { Summary := "sub", Parameters := [],
          Responses := [("200", [("description", "response")]),
                        ("404", [("description", "response")])] })])] }

/-- One segment `a` and the edge `a -> x` to an id that is not listed. -/
def danglingGraph : APIGraph :=
  { Segments := [.Static ⟨"a", "users"⟩],
    Edges := [⟨"a", "x"⟩],
    Operations := [] }

/-- Two segments `a` and `b` with the edges `a -> b` and `b -> a`. -/
def cycleGraph : APIGraph :=
  { Segments := [.Static ⟨"a", "users"⟩, .Static ⟨"b", "orders"⟩],
    Edges := [⟨"a", "b"⟩, ⟨"b", "a"⟩],
    Operations := [⟨"op", "a", "GET", [], [200]⟩] }

/-- A root `r` above the cycle `a -> b -> a`. -/
def rootedCycleGraph : APIGraph :=
  { Segments := [.Static ⟨"r", "api"⟩, .Static ⟨"a", "users"⟩, .Static ⟨"b", "orders"⟩],
    Edges := [⟨"r", "a"⟩, ⟨"a", "b"⟩, ⟨"b", "a"⟩],
    Operations := [] }

/-- The document with an empty paths map. -/
def emptyDoc : OpenAPI :=
  { OpenAPI := "3.0.0",
    Info := [("title", "Generated API"), ("version", "1.0.0")],
    Paths := [] }

/-- The segments of `chainGraph`, from the root down. -/
def chainSegments : List PathSegment :=
  [.Static ⟨"s1", "users"⟩, .Param ⟨"p1", "id", .PARAMETER_TYPE_UUID, "abc"⟩,
    .Static ⟨"s2", "orders"⟩]

/-- The operation of `chainGraph`. -/
def chainOp : Operation :=
  ⟨"op", "s2", "GET", [], [200]⟩

/-- A rank of the segment ids of `chainGraph` that grows along its edges. -/
def chainRank (id : String) : Nat :=
  if id = "s1" then 0 else if id = "p1" then 1 else 2

/-- The graph made of the segments, edges and operations of `g₁` followed by
those of `g₂`. -/
def joinGraphs (g₁ g₂ : APIGraph) : APIGraph :=
  { Segments := g₁.Segments ++ g₂.Segments,
    Edges := g₁.Edges ++ g₂.Edges,
    Operations := g₁.Operations ++ g₂.Operations }

/-- A tree: the root `users` with a child `{id}`, and a `GET` on each. -/
def usersTree : APIGraph :=
  { Segments := [.Static ⟨"u", "users"⟩, .Param ⟨"i", "id", .PARAMETER_TYPE_INTEGER, "7"⟩],
    Edges := [⟨"u", "i"⟩],
    Operations := [⟨"listUsers", "u", "GET", [], [200]⟩, ⟨"getUser", "i", "GET", [], [200, 404]⟩] }

/-- A tree with the single root `orders` and a `POST` on it. -/
def ordersTree : APIGraph :=
  { Segments := [.Static ⟨"o", "orders"⟩],
    Edges := [],
    Operations := [⟨"addOrder", "o", "POST", [], [201]⟩] }

/-- A rank of the segment ids of `usersTree` that grows along its edge. -/
def usersRank (id : String) : Nat :=
  if id = "u" then 0 else 1

/-- The document returned for `usersTree`. -/
def usersDoc : OpenAPI :=
  { OpenAPI := "3.0.0",
    Info := [("title", "Generated API"), ("version", "1.0.0")],
    Paths := [("/users", [("get",
        { Summary := "listUsers", Parameters := [],
          Responses := [("200", [("description", "response")])] })]),
      ("/users/\x7bid\x7d", [("get",
        { Summary := "getUser",
          Parameters := [{ Name := "id", In := "path", Required := true,
                           Schema := { Type_ := "integer", Format := "" }, Example := "7" }],
          Responses := [("200", [("description", "response")]),
                        ("404", [("description", "response")])] })])] }

/-- The document returned for `ordersTree`. -/
def ordersDoc : OpenAPI :=
  { OpenAPI := "3.0.0",
    Info := [("title", "Generated API"), ("version", "1.0.0")],
    Paths := [("/orders", [("post",
      { Summary := "addOrder", Parameters := [],
        Responses := [("201", [("description", "response")])] })])] }

/-- One segment `a` and one `GET` operation attached to the unlisted id `x`. -/
def orphanGraph : APIGraph :=
  { Segments := [.Static ⟨"a", "users"⟩],
    Edges := [],
    Operations := [⟨"op", "x", "GET", [], [200]⟩] }

/-- The graph with the operations attached to unlisted segment ids left out. -/
def withoutOrphans (graph : APIGraph) : APIGraph :=
  { Segments := graph.Segments,
    Edges := graph.Edges,
    Operations := graph.Operations.filter
      (fun op => op.PathSegmentId ∈ graph.Segments.map segmentId) }

/-! ## The sequence of calls -/

/-- One call of `dfs`: the node it is called on, as the struct `Node` with its
chain of `Parent` links written as the list of ids from the root down. -/
structure Call where
  parents : List String
  id : String
  deriving DecidableEq, Repr

/-- The calls of `dfs` made by a call of `dfs`, itself included, in execution
order; the recursion depth of a call is the length of its chain of parents
plus one. -/
def dfsCalls (idToSegment : GoMap String PathSegment) (graphMap : GoMap String (List String)) :
    Nat → List String → String → Except Fault (List Call)
  | 0, _, _ => .error .stackExhausted
  | fuel + 1, parents, id =>
    match idToSegment.get? id with
    | none => .error .nilDereference
    | some _ =>
      forEach (fun acc child =>
        collect acc (dfsCalls idToSegment graphMap fuel (parents ++ [id]) child))
        [{ parents := parents, id := id }] (graphMap.getD id [])

/-- The calls of `dfs` made by a run of `buildOpenAPI`, in execution order. -/
def calls (fuel : Nat) (graph : APIGraph) : Except Fault (List Call) :=
  let idToSegment := buildIdToSegment graph.Segments
  let graphMap := buildGraphMap graph.Edges
  let used := buildUsed graph.Edges
  forEach (fun acc s =>
    collect acc
      (if used.getD (segmentId s) false then .ok []
       else dfsCalls idToSegment graphMap fuel [] (segmentId s)))
    [] graph.Segments

/-- A path of listed segment ids along edges that starts at a root. -/
def RootPath (graph : APIGraph) (l : List String) : Prop :=
  List.Chain' (EdgeRel graph) l ∧ (∀ x ∈ l, x ∈ graph.Segments.map segmentId) ∧
    ∀ r, l.head? = some r → r ∉ graph.Edges.map Edge.To

/-- One segment `t` named `users` with a `GET` operation, and the single edge
`x -> t` from an id that is not listed. -/
def hiddenGraph : APIGraph :=
  { Segments := [.Static ⟨"t", "users"⟩],
    Edges := [⟨"x", "t"⟩],
    Operations := [⟨"op", "t", "GET", [], [200]⟩] }

/-- The graph `hiddenGraph` with a second segment `a` and the edge `a -> y` to an
id that is not listed. -/
def hiddenFaultGraph : APIGraph :=
  { Segments := [.Static ⟨"t", "users"⟩, .Static ⟨"a", "orders"⟩],
    Edges := [⟨"x", "t"⟩, ⟨"a", "y"⟩],
    Operations := [⟨"op", "t", "GET", [], [200]⟩] }

/-- The graph without the copies of the edge `e`. -/
def withoutEdge (graph : APIGraph) (e : Edge) : APIGraph :=
  { Segments := graph.Segments,
    Edges := graph.Edges.filter (fun e' => e' ≠ e),
    Operations := graph.Operations }

/-! ## The visiting order in the words of the spec -/

/-- The segment an id stands for: the last listed segment with that id. -/
def segmentOf (graph : APIGraph) (id : String) : Option PathSegment :=
  (graph.Segments.filter (fun s => s ≠ PathSegment.unset ∧ segmentId s = id)).getLast?

/-- The children of a segment: the `to` ids of the edges from it, in edge-list
order. -/
def childrenOf (graph : APIGraph) (id : String) : List String :=
  (graph.Edges.filter (fun e => e.From = id)).map Edge.To

/-- The operations of a segment: those attached to it, in operation-list order. -/
def operationsOf (graph : APIGraph) (id : String) : List Operation :=
  graph.Operations.filter (fun op => op.PathSegmentId = id)

/-- The roots: the listed segments whose id is no edge's `to`, in segment-list
order. -/
def rootsOf (graph : APIGraph) : List PathSegment :=
  graph.Segments.filter (fun s => segmentId s ∉ graph.Edges.map Edge.To)

/-- The depth-first descent of the spec from one segment: first the operations of
the segment in operation-list order, then each child in edge-list order, with
everything below a child before the next child. -/
def descend (graph : APIGraph) :
    Nat → String → List String → List Parameter → Except Fault (List Visit)
  | 0, _, _, _ => .error .stackExhausted
  | fuel + 1, id, segments, inheritedParams =>
    match segmentOf graph id with
    | none => .error .nilDereference
    | some seg =>
      forEach (fun acc child =>
        collect acc (descend graph fuel child (segments ++ [segmentPart seg])
          (segmentParams inheritedParams seg)))
        ((operationsOf graph id).map (fun op =>
          { path := fullPath (segments ++ [segmentPart seg]),
            newParams := segmentParams inheritedParams seg, op := op }))
        (childrenOf graph id)

/-- The visiting order of the spec: the descents from the roots, in segment-list
order. -/
def visitOrder (fuel : Nat) (graph : APIGraph) : Except Fault (List Visit) :=
  forEach (fun acc s => collect acc (descend graph fuel (segmentId s) [] [])) []
    (rootsOf graph)

/-- A root `api` with two operations whose methods agree up to case, and two
children both named `users`, each with a `GET` operation. -/
def orderGraph : APIGraph :=
  { Segments := [.Static ⟨"r", "api"⟩, .Static ⟨"a", "users"⟩, .Static ⟨"b", "users"⟩],
    Edges := [⟨"r", "a"⟩, ⟨"r", "b"⟩],
    Operations := [⟨"op1", "r", "GET", [], [200]⟩, ⟨"op2", "r", "get", [], [204]⟩,
      ⟨"opA", "a", "GET", [], [200]⟩, ⟨"opB", "b", "GET", [], [404]⟩] }

/-- The document returned for `orderGraph`. -/
def orderDoc : OpenAPI :=
  { OpenAPI := "3.0.0",
    Info := [("title", "Generated API"), ("version", "1.0.0")],
    Paths := [("/api", [("get",
        { Summary := "op2", Parameters := [],
          Responses := [("204", [("description", "response")])] })]),
      ("/api/users", [("get",
        { Summary := "opB", Parameters := [],
          Responses := [("404", [("description", "response")])] })])] }

/-- The stores of a run on `orderGraph`, in the visiting order of the spec. -/
def orderVisits : List Visit :=
  [{ path := "/api", newParams := [], op := ⟨"op1", "r", "GET", [], [200]⟩ },
   { path := "/api", newParams := [], op := ⟨"op2", "r", "get", [], [204]⟩ },
   { path := "/api/users", newParams := [], op := ⟨"opA", "a", "GET", [], [200]⟩ },
   { path := "/api/users", newParams := [], op := ⟨"opB", "b", "GET", [], [404]⟩ }]

/-- The stores executed by one call of `dfs` for its own segment: one per
operation grouped under its id, at the path made of the parts of the segments
looked up along its chain of parents and itself, with the parameters accumulated
along that chain. -/
def callVisits (idToSegment : GoMap String PathSegment)
    (opsBySegment : GoMap String (List Operation)) (c : Call) : List Visit :=
  ownVisits
    (((c.parents ++ [c.id]).filterMap (fun id => idToSegment.get? id)).map segmentPart)
    (((c.parents ++ [c.id]).filterMap (fun id => idToSegment.get? id)).foldl segmentParams [])
    (opsBySegment.get? c.id)

/-- The calls of a run on `chainGraph`, in execution order. -/
def chainCalls : List Call :=
  [⟨[], "s1"⟩, ⟨["s1"], "p1"⟩, ⟨["s1", "p1"], "s2"⟩]

/-! ## Lemmas on Go maps -/

namespace GoMap

variable {κ ν : Type} [DecidableEq κ]

theorem get?_set_self (m : GoMap κ ν) (k : κ) (v : ν) : (m.set k v).get? k = some v := by
  induction m with
  | nil => simp [set, get?]
  | cons kv m ih =>
    obtain ⟨k', v'⟩ := kv
    by_cases h : k' = k <;> simp [set, get?, h, ih]

theorem get?_set_ne (m : GoMap κ ν) {k k' : κ} (v : ν) (h : k ≠ k') :
    (m.set k v).get? k' = m.get? k' := by
  induction m with
  | nil => simp [set, get?, h]
  | cons kv m ih =>
    obtain ⟨k₁, v₁⟩ := kv
    by_cases h₁ : k₁ = k
    · subst h₁; simp [set, get?, h]
    · by_cases h₂ : k₁ = k'
      · subst h₂; simp [set, get?, h₁]
      · simp [set, get?, h₁, h₂, ih]

theorem get?_set (m : GoMap κ ν) (k k' : κ) (v : ν) :
    (m.set k v).get? k' = if k = k' then some v else m.get? k' := by
  by_cases h : k = k'
  · subst h; simp [get?_set_self]
  · simp [h, get?_set_ne]

theorem set_set (m : GoMap κ ν) (k : κ) (v v' : ν) : (m.set k v).set k v' = m.set k v' := by
  induction m with
  | nil => simp [set]
  | cons kv m ih =>
    obtain ⟨k₁, v₁⟩ := kv
    by_cases h₁ : k₁ = k <;> simp [set, h₁, ih]

theorem get?_eq_none_iff (m : GoMap κ ν) (k : κ) : m.get? k = none ↔ k ∉ m.keys := by
  induction m with
  | nil => simp [get?, keys]
  | cons kv m ih =>
    obtain ⟨k₁, v₁⟩ := kv
    by_cases h₁ : k₁ = k
    · subst h₁; simp [get?, keys]
    · have h₂ : ¬ k = k₁ := fun h => h₁ h.symm
      simpa [get?, keys, h₁, h₂] using ih

theorem isSome_get?_iff (m : GoMap κ ν) (k : κ) : (m.get? k).isSome ↔ k ∈ m.keys := by
  rw [← not_iff_not, ← get?_eq_none_iff]
  cases m.get? k <;> simp

theorem keys_set (m : GoMap κ ν) (k : κ) (v : ν) :
    (m.set k v).keys = if k ∈ m.keys then m.keys else m.keys ++ [k] := by
  induction m with
  | nil => simp [set, keys]
  | cons kv m ih =>
    obtain ⟨k₁, v₁⟩ := kv
    by_cases h₁ : k₁ = k
    · subst h₁; simp [set, keys]
    · have h₂ : ¬ k = k₁ := fun h => h₁ h.symm
      simp only [keys] at ih
      by_cases h₃ : k ∈ List.map Prod.fst m <;> simp [set, keys, h₁, h₂, h₃, ih]

theorem mem_keys_set (m : GoMap κ ν) (k k' : κ) (v : ν) :
    k' ∈ (m.set k v).keys ↔ k' = k ∨ k' ∈ m.keys := by
  rw [keys_set]
  by_cases h : k ∈ m.keys
  · simp only [h, if_true]
    constructor
    · exact Or.inr
    · rintro (rfl | h') <;> assumption
  · simp [h, or_comm]

theorem nodup_keys_set (m : GoMap κ ν) (k : κ) (v : ν) (h : m.keys.Nodup) :
    (m.set k v).keys.Nodup := by
  rw [keys_set]
  by_cases hk : k ∈ m.keys
  · simpa [hk] using h
  · simp only [hk, if_false]
    exact List.Nodup.append h (List.nodup_singleton k) (by simpa using hk)

theorem length_set (m : GoMap κ ν) (k : κ) (v : ν) :
    (m.set k v).length = if k ∈ m.keys then m.length else m.length + 1 := by
  have h := congrArg List.length (keys_set m k v)
  simp only [keys, List.length_map] at h ⊢
  by_cases hk : k ∈ List.map Prod.fst m
  · simpa [hk] using h
  · simpa [hk] using h

theorem mem_of_get? (m : GoMap κ ν) (k : κ) (v : ν) (h : m.get? k = some v) : (k, v) ∈ m := by
  induction m with
  | nil => simp [get?] at h
  | cons kv m ih =>
    obtain ⟨k₁, v₁⟩ := kv
    by_cases h₁ : k₁ = k
    · subst h₁; simp [get?] at h; simp [h]
    · simp [get?, h₁] at h; simp [ih h]

theorem get?_of_mem (m : GoMap κ ν) (hn : m.keys.Nodup) (k : κ) (v : ν) (h : (k, v) ∈ m) :
    m.get? k = some v := by
  induction m with
  | nil => simp at h
  | cons kv m ih =>
    obtain ⟨k₁, v₁⟩ := kv
    simp only [keys, List.map_cons, List.nodup_cons, List.mem_map, Prod.exists,
      exists_and_right, exists_eq_right, not_exists] at hn
    rcases List.mem_cons.mp h with h | h
    · cases h; simp [get?]
    · have h₁ : k₁ ≠ k := by
        rintro rfl
        exact hn.1 v h
      simp only [get?, h₁, if_false]
      exact ih hn.2 h

end GoMap

/-! ## The traversal as a sequence of stores -/

theorem forEach_append {σ α : Type} (f : σ → α → Except Fault σ) (s : σ) (xs ys : List α) :
    forEach f s (xs ++ ys) =
      match forEach f s xs with
      | .ok s' => forEach f s' ys
      | .error e => .error e := by
  induction xs generalizing s with
  | nil => simp [forEach]
  | cons a xs ih =>
    simp only [List.cons_append, forEach]
    cases f s a with
    | ok s' => simpa using ih s'
    | error e => rfl

/-- A loop whose body is the replay of a logged list of stores is the replay of
the concatenated logs. -/
theorem forEach_replay {σ α ω : Type} (ap : σ → ω → σ) (f : σ → α → Except Fault σ)
    (g : α → Except Fault (List ω)) (xs : List α)
    (h : ∀ a ∈ xs, ∀ s, f s a = (g a).map (fun ws => ws.foldl ap s)) (s₀ : σ) (acc : List ω) :
    forEach f (acc.foldl ap s₀) xs =
      (forEach (fun acc a => collect acc (g a)) acc xs).map (fun ws => ws.foldl ap s₀) := by
  induction xs generalizing acc with
  | nil => simp [forEach, Except.map]
  | cons a xs ih =>
    have ha := h a (List.mem_cons_self a xs) (acc.foldl ap s₀)
    have ih' := fun acc' => ih (fun b hb => h b (List.mem_cons_of_mem a hb)) acc'
    simp only [forEach, ha]
    cases hg : g a with
    | error e => simp [Except.map, collect]
    | ok ws =>
      simp only [Except.map, collect]
      rw [← List.foldl_append]
      exact ih' (acc ++ ws)

theorem emitOps_eq_foldl (toLower : String → String) (segments : List String)
    (newParams : List Parameter) (ops : List Operation) (hops : ops ≠ [])
    (paths : GoMap String (GoMap String Path)) :
    emitOps toLower segments newParams ops paths =
      (ownVisits segments newParams (some ops)).foldl (applyVisit toLower) paths := by
  have hfold : ∀ (l : List Operation) (q : GoMap String (GoMap String Path)),
      l.foldl (storeEntry toLower (fullPath segments) newParams) q =
        (l.map (fun op => ({ path := fullPath segments, newParams := newParams, op := op } :
          Visit))).foldl (applyVisit toLower) q := by
    intro l
    induction l with
    | nil => intro q; rfl
    | cons op l ih => intro q; simp only [List.foldl_cons, List.map_cons, applyVisit]; exact ih _
  simp only [emitOps, ownVisits, hfold]
  cases hsome : paths.get? (fullPath segments) with
  | some methods => simp
  | none =>
    cases ops with
    | nil => exact absurd rfl hops
    | cons op ops =>
      simp only [Option.isSome_none, Bool.false_eq_true, if_false, List.map_cons,
        List.foldl_cons, applyVisit, storeEntry, GoMap.getD, GoMap.get?_set_self, hsome,
        Option.getD_some, Option.getD_none, GoMap.set_set]

theorem dfs_eq_replay (toLower : String → String) (idToSegment : GoMap String PathSegment)
    (graphMap : GoMap String (List String)) (opsBySegment : GoMap String (List Operation))
    (hops : ∀ id ops, opsBySegment.get? id = some ops → ops ≠ []) :
    ∀ (fuel : Nat) (id : String) (segments : List String) (inheritedParams : List Parameter)
      (paths : GoMap String (GoMap String Path)),
      dfs toLower idToSegment graphMap opsBySegment fuel id segments inheritedParams paths =
        (dfsVisits idToSegment graphMap opsBySegment fuel id segments inheritedParams).map
          (fun vs => vs.foldl (applyVisit toLower) paths) := by
  intro fuel
  induction fuel with
  | zero => intro id segments inh paths; simp [dfs, dfsVisits, Except.map]
  | succ fuel ih =>
    intro id segments inh paths
    simp only [dfs, dfsVisits]
    cases hseg : idToSegment.get? id with
    | none => simp [Except.map]
    | some seg =>
      simp only
      have hpaths : (match opsBySegment.get? id with
          | some ops => emitOps toLower (segments ++ [segmentPart seg])
              (segmentParams inh seg) ops paths
          | none => paths) =
          (ownVisits (segments ++ [segmentPart seg]) (segmentParams inh seg)
            (opsBySegment.get? id)).foldl (applyVisit toLower) paths := by
        cases hop : opsBySegment.get? id with
        | none => simp [ownVisits]
        | some ops => exact emitOps_eq_foldl toLower _ _ ops (hops id ops hop) paths
      rw [hpaths]
      exact forEach_replay (applyVisit toLower) _
        (fun child => dfsVisits idToSegment graphMap opsBySegment fuel child
          (segments ++ [segmentPart seg]) (segmentParams inh seg)) _
        (fun child _ s => ih child _ _ s) paths _

/-! ## The lookup maps built from the graph -/

/-- Lookup in a map filled by `m[key x] = append(m[key x], val x)` over `xs`. -/
theorem get?_group {α β : Type} (key : α → String) (val : α → β) (xs : List α) (k : String) :
    (xs.foldl (fun m x => GoMap.set m (key x) (GoMap.getD m (key x) [] ++ [val x]))
        ([] : GoMap String (List β))).get? k =
      if (xs.filter (fun x => key x = k)).isEmpty then none
      else some ((xs.filter (fun x => key x = k)).map val) := by
  induction xs using List.reverseRecOn with
  | nil => simp [GoMap.get?]
  | append_singleton xs x ih =>
    simp only [List.foldl_append, List.foldl_cons, List.foldl_nil, GoMap.get?_set,
      List.filter_append, List.filter_cons, List.filter_nil]
    simp only [GoMap.getD] at ih ⊢
    by_cases hk : key x = k
    · subst hk
      simp only [if_true, decide_True, ih]
      cases hf : xs.filter (fun y => key y = key x) <;> simp
    · simp only [hk, if_false, decide_False, List.append_nil, ih]
      simp

theorem graphMap_getD (edges : List Edge) (id : String) :
    (buildGraphMap edges).getD id [] = (edges.filter (fun e => e.From = id)).map Edge.To := by
  have h := get?_group Edge.From Edge.To edges id
  simp only [GoMap.getD, buildGraphMap] at h ⊢
  rw [h]
  cases hf : edges.filter (fun e => e.From = id) <;> simp

theorem mem_graphMap_getD (edges : List Edge) (id child : String) :
    child ∈ (buildGraphMap edges).getD id [] ↔ ({ From := id, To := child } : Edge) ∈ edges := by
  rw [graphMap_getD]
  simp only [List.mem_map, List.mem_filter, decide_eq_true_eq]
  constructor
  · rintro ⟨e, ⟨he, hfrom⟩, hto⟩
    obtain ⟨f, t⟩ := e
    simp only at hfrom hto
    subst hfrom hto
    exact he
  · intro h
    exact ⟨_, ⟨h, rfl⟩, rfl⟩

theorem opsBySegment_get? (ops : List Operation) (id : String) :
    (buildOpsBySegment ops).get? id =
      if (ops.filter (fun op => op.PathSegmentId = id)).isEmpty then none
      else some (ops.filter (fun op => op.PathSegmentId = id)) := by
  have h := get?_group Operation.PathSegmentId (fun op => op) ops id
  simpa [buildOpsBySegment] using h

theorem opsBySegment_ne_nil (ops : List Operation) (id : String) (l : List Operation)
    (h : (buildOpsBySegment ops).get? id = some l) : l ≠ [] := by
  rw [opsBySegment_get?] at h
  cases hf : ops.filter (fun op => op.PathSegmentId = id) with
  | nil => simp [hf] at h
  | cons a as =>
    simp only [hf, List.isEmpty_cons, Bool.false_eq_true, if_false, Option.some.injEq] at h
    simp [← h]

theorem opsBySegment_mem (ops : List Operation) (id : String) (l : List Operation)
    (h : (buildOpsBySegment ops).get? id = some l) (op : Operation) :
    op ∈ l ↔ op ∈ ops ∧ op.PathSegmentId = id := by
  rw [opsBySegment_get?] at h
  by_cases hf : (ops.filter (fun op => op.PathSegmentId = id)).isEmpty
  · simp [hf] at h
  · simp only [hf, Bool.false_eq_true, if_false, Option.some.injEq] at h
    subst h
    simp

theorem opsBySegment_get?_of_mem (ops : List Operation) (op : Operation) (h : op ∈ ops) :
    ∃ l, (buildOpsBySegment ops).get? op.PathSegmentId = some l ∧ op ∈ l := by
  rw [opsBySegment_get?]
  have hmem : op ∈ ops.filter (fun o => o.PathSegmentId = op.PathSegmentId) := by
    simp [h]
  cases hf : ops.filter (fun o => o.PathSegmentId = op.PathSegmentId) with
  | nil => simp [hf] at hmem
  | cons a as => exact ⟨a :: as, by simp, hf ▸ hmem⟩

theorem used_getD (edges : List Edge) (id : String) :
    (buildUsed edges).getD id false = true ↔ id ∈ edges.map Edge.To := by
  unfold buildUsed
  induction edges using List.reverseRecOn with
  | nil => simp [GoMap.getD, GoMap.get?]
  | append_singleton es e ih =>
    simp only [List.foldl_append, List.foldl_cons, List.foldl_nil, GoMap.getD, GoMap.get?_set,
      List.map_append, List.map_cons, List.map_nil, List.mem_append, List.mem_singleton]
    by_cases h : e.To = id
    · simp [h]
    · have h' : ¬ id = e.To := fun hh => h hh.symm
      simp only [h, if_false, h', or_false]
      exact ih

/-- One iteration of the loop filling `idToSegment`. -/
theorem idToSegment_step (m : GoMap String PathSegment) (s : PathSegment) (id : String) :
    (match s with
      | .Static st => m.set st.Id s
      | .Param p => m.set p.Id s
      | .unset => m).get? id =
      if s ≠ .unset ∧ segmentId s = id then some s else m.get? id := by
  cases s with
  | Static st => simp [GoMap.get?_set, segmentId]
  | Param p => simp [GoMap.get?_set, segmentId]
  | unset => simp

theorem idToSegment_get?_some (segments : List PathSegment) (id : String) (seg : PathSegment)
    (h : (buildIdToSegment segments).get? id = some seg) :
    seg ∈ segments ∧ segmentId seg = id ∧ seg ≠ .unset := by
  unfold buildIdToSegment at h
  induction segments using List.reverseRecOn with
  | nil => simp [GoMap.get?] at h
  | append_singleton xs s ih =>
    rw [List.foldl_append, List.foldl_cons, List.foldl_nil, idToSegment_step] at h
    by_cases hs : s ≠ .unset ∧ segmentId s = id
    · rw [if_pos hs] at h
      cases h
      exact ⟨by simp, hs.2, hs.1⟩
    · rw [if_neg hs] at h
      obtain ⟨h₁, h₂⟩ := ih h
      exact ⟨by simp [h₁], h₂⟩

theorem idToSegment_get?_of_mem (segments : List PathSegment)
    (hnodup : (segments.map segmentId).Nodup) (seg : PathSegment) (hmem : seg ∈ segments)
    (hset : seg ≠ .unset) : (buildIdToSegment segments).get? (segmentId seg) = some seg := by
  unfold buildIdToSegment
  induction segments using List.reverseRecOn with
  | nil => simp at hmem
  | append_singleton xs s ih =>
    rw [List.foldl_append, List.foldl_cons, List.foldl_nil, idToSegment_step]
    rw [List.map_append, List.nodup_append] at hnodup
    obtain ⟨hxs, -, hdisj⟩ := hnodup
    rcases List.mem_append.mp hmem with h | h
    · have hne : segmentId s ≠ segmentId seg := by
        intro heq
        exact hdisj (List.mem_map_of_mem segmentId h) (by simp [heq])
      simp only [hne, and_false, if_false]
      exact ih hxs h
    · simp only [List.mem_singleton] at h
      subst h
      simp [hset]

/-! ## Looking up an entry after a sequence of stores -/

theorem lookupEntry_applyVisit (toLower : String → String)
    (paths : GoMap String (GoMap String Path)) (v : Visit) (p m : String) :
    lookupEntry (applyVisit toLower paths v) p m =
      if v.path = p ∧ toLower v.op.Method = m then some (opEntry v.newParams v.op)
      else lookupEntry paths p m := by
  simp only [lookupEntry, applyVisit, storeEntry, GoMap.get?_set]
  by_cases hp : v.path = p
  · subst hp
    simp only [if_true, Option.some_bind, GoMap.get?_set, true_and]
    by_cases hm : toLower v.op.Method = m
    · simp [hm]
    · simp only [hm, if_false, GoMap.getD]
      cases paths.get? v.path <;> simp [GoMap.get?]
  · simp [hp]

theorem lookupEntry_foldl_of_last (toLower : String → String) (pre post : List Visit) (v : Visit)
    (hpost : ∀ w ∈ post, ¬ (w.path = v.path ∧ toLower w.op.Method = toLower v.op.Method))
    (paths : GoMap String (GoMap String Path)) :
    lookupEntry ((pre ++ v :: post).foldl (applyVisit toLower) paths) v.path
      (toLower v.op.Method) = some (opEntry v.newParams v.op) := by
  rw [List.foldl_append, List.foldl_cons]
  generalize List.foldl (applyVisit toLower) paths pre = q
  have hv : lookupEntry (applyVisit toLower q v) v.path (toLower v.op.Method) =
      some (opEntry v.newParams v.op) := by
    simp [lookupEntry_applyVisit]
  generalize applyVisit toLower q v = q' at hv
  induction post generalizing q' with
  | nil => exact hv
  | cons w post ih =>
    apply ih (fun u hu => hpost u (List.mem_cons_of_mem w hu))
    rw [lookupEntry_applyVisit, if_neg (hpost w (List.mem_cons_self w post))]
    exact hv

theorem lookupEntry_foldl_some (toLower : String → String) (vs : List Visit)
    (paths : GoMap String (GoMap String Path)) (p m : String) (e : Path)
    (h : lookupEntry (vs.foldl (applyVisit toLower) paths) p m = some e) :
    (∃ v, LastStore toLower vs v ∧ v.path = p ∧ toLower v.op.Method = m ∧
        e = opEntry v.newParams v.op) ∨
      ((∀ w ∈ vs, ¬ (w.path = p ∧ toLower w.op.Method = m)) ∧ lookupEntry paths p m = some e) := by
  induction vs generalizing paths with
  | nil => exact Or.inr ⟨by simp, h⟩
  | cons w vs ih =>
    rw [List.foldl_cons] at h
    rcases ih _ h with ⟨v, ⟨pre, post, hsplit, hpost⟩, hp, hm, he⟩ | ⟨hno, hlook⟩
    · exact Or.inl ⟨v, ⟨w :: pre, post, by simp [hsplit], hpost⟩, hp, hm, he⟩
    · rw [lookupEntry_applyVisit] at hlook
      by_cases hw : w.path = p ∧ toLower w.op.Method = m
      · rw [if_pos hw] at hlook
        refine Or.inl ⟨w, ⟨[], vs, rfl, ?_⟩, hw.1, hw.2, (Option.some.inj hlook).symm⟩
        intro u hu hclash
        exact hno u hu ⟨hclash.1.trans hw.1, hclash.2.trans hw.2⟩
      · rw [if_neg hw] at hlook
        refine Or.inr ⟨?_, hlook⟩
        intro u hu
        rcases List.mem_cons.mp hu with rfl | hu
        · exact hw
        · exact hno u hu

theorem lookupEntry_nil (p m : String) :
    lookupEntry ([] : GoMap String (GoMap String Path)) p m = none := rfl

/-! ## Decimal rendering -/

theorem digitChar_value (k : Nat) (h : k < 10) : (Nat.digitChar k).toNat - 48 = k := by
  interval_cases k <;> rfl

theorem digitChar_ne_minus (k : Nat) (h : k < 10) : Nat.digitChar k ≠ '-' := by
  interval_cases k <;> decide

theorem toDigitsCore_spec (fuel : Nat) : ∀ (n : Nat) (ds : List Char), n < fuel →
    ∃ xs, Nat.toDigitsCore 10 fuel n ds = xs ++ ds ∧ digitsValue xs = n ∧ xs ≠ [] ∧
      ∀ c ∈ xs, c ≠ '-' := by
  induction fuel with
  | zero => intro n ds h; omega
  | succ fuel ih =>
    intro n ds h
    have hmod : n % 10 < 10 := Nat.mod_lt n (by decide)
    simp only [Nat.toDigitsCore]
    by_cases h0 : n / 10 = 0
    · refine ⟨[Nat.digitChar (n % 10)], by simp [h0], ?_, by simp, ?_⟩
      · have hn : n % 10 = n := Nat.mod_eq_of_lt (by omega)
        have hv := digitChar_value _ hmod
        simp only [digitsValue, List.foldl_cons, List.foldl_nil, hv]
        omega
      · intro c hc
        simp only [List.mem_singleton] at hc
        exact hc ▸ digitChar_ne_minus _ hmod
    · obtain ⟨xs, hxs, hval, -, hminus⟩ := ih (n / 10) (Nat.digitChar (n % 10) :: ds) (by omega)
      refine ⟨xs ++ [Nat.digitChar (n % 10)], by simp [h0, hxs], ?_, by simp, ?_⟩
      · unfold digitsValue at hval ⊢
        rw [List.foldl_append, hval]
        simp only [List.foldl_cons, List.foldl_nil, digitChar_value _ hmod]
        omega
      · intro c hc
        rcases List.mem_append.mp hc with hc | hc
        · exact hminus c hc
        · simp only [List.mem_singleton] at hc
          exact hc ▸ digitChar_ne_minus _ hmod

theorem repr_spec (n : Nat) :
    ∃ xs, Nat.repr n = String.mk xs ∧ digitsValue xs = n ∧ xs ≠ [] ∧ ∀ c ∈ xs, c ≠ '-' := by
  obtain ⟨xs, hxs, hrest⟩ := toDigitsCore_spec (n + 1) n [] (by omega)
  refine ⟨xs, ?_, hrest⟩
  simp [Nat.repr, Nat.toDigits, hxs, List.asString]

theorem repr_injective (n m : Nat) (h : Nat.repr n = Nat.repr m) : n = m := by
  obtain ⟨xs, hxs, hval, -⟩ := repr_spec n
  obtain ⟨ys, hys, hval', -⟩ := repr_spec m
  rw [hxs, hys] at h
  have : xs = ys := congrArg String.data h
  rw [← hval, ← hval', this]

theorem repr_ne_minus (n m : Nat) : Nat.repr n ≠ "-" ++ Nat.repr m := by
  obtain ⟨xs, hxs, -, hne, hminus⟩ := repr_spec n
  obtain ⟨ys, hys, -⟩ := repr_spec m
  rw [hxs, hys]
  intro h
  have h' : xs = '-' :: ys := by
    have := congrArg String.data h
    simpa using this
  cases xs with
  | nil => exact hne rfl
  | cons c cs =>
    have hc : c = '-' := by
      have := congrArg List.head? h'
      simpa using this
    exact hminus c (by simp) hc

theorem sprintfD_injective (a b : Int) (h : sprintfD a = sprintfD b) : a = b := by
  cases a with
  | ofNat n =>
    cases b with
    | ofNat m => simp only [sprintfD] at h; rw [repr_injective n m h]
    | negSucc m => exact absurd h (repr_ne_minus n (m + 1))
  | negSucc n =>
    cases b with
    | ofNat m => exact absurd h.symm (repr_ne_minus m (n + 1))
    | negSucc m =>
      simp only [sprintfD] at h
      have h' : Nat.repr (n + 1) = Nat.repr (m + 1) := by
        have := congrArg String.data h
        simp only [String.data_append, List.append_cancel_left_eq] at this
        exact String.ext this
      have := repr_injective _ _ h'
      have : n = m := by omega
      rw [this]

/-! ## Shape of the store sequence -/

theorem collect_ok {ω : Type} (acc l : List ω) : collect acc (.ok l) = .ok (acc ++ l) := rfl

theorem collect_error {ω : Type} (acc : List ω) (e : Fault) :
    collect acc (.error e) = .error e := rfl

theorem forEach_collect_ok {α ω : Type} (g : α → Except Fault (List ω)) (xs : List α)
    (acc r : List ω) (h : forEach (fun acc a => collect acc (g a)) acc xs = .ok r) :
    ∃ rest, r = acc ++ rest ∧
      (∀ v ∈ rest, ∃ a ∈ xs, ∃ l, g a = .ok l ∧ v ∈ l) ∧
      (∀ a ∈ xs, ∃ l, g a = .ok l ∧ ∀ v ∈ l, v ∈ rest) ∧
      ∀ acc', forEach (fun acc a => collect acc (g a)) acc' xs = .ok (acc' ++ rest) := by
  induction xs generalizing acc r with
  | nil =>
    simp only [forEach, Except.ok.injEq] at h
    exact ⟨[], by simp [h], by simp, by simp, by simp [forEach]⟩
  | cons a xs ih =>
    simp only [forEach] at h
    cases hg : g a with
    | error e => simp [hg, collect_error] at h
    | ok l =>
      simp only [hg, collect_ok] at h
      obtain ⟨rest, hr, hsub, hsup, hall⟩ := ih _ _ h
      refine ⟨l ++ rest, by simp [hr], ?_, ?_, ?_⟩
      · intro v hv
        rcases List.mem_append.mp hv with hv | hv
        · exact ⟨a, List.mem_cons_self a xs, l, hg, hv⟩
        · obtain ⟨b, hb, l', hl', hv'⟩ := hsub v hv
          exact ⟨b, List.mem_cons_of_mem a hb, l', hl', hv'⟩
      · intro b hb
        rcases List.mem_cons.mp hb with rfl | hb
        · exact ⟨l, hg, fun v hv => List.mem_append_left rest hv⟩
        · obtain ⟨l', hl', hv'⟩ := hsup b hb
          exact ⟨l', hl', fun v hv => List.mem_append_right l (hv' v hv)⟩
      · intro acc'
        simp only [forEach, hg, collect_ok]
        rw [hall (acc' ++ l)]
        simp

theorem forEach_collect_total {α ω : Type} (g : α → Except Fault (List ω)) (xs : List α)
    (h : ∀ a ∈ xs, ∃ l, g a = .ok l) (acc : List ω) :
    ∃ r, forEach (fun acc a => collect acc (g a)) acc xs = .ok r := by
  induction xs generalizing acc with
  | nil => exact ⟨acc, rfl⟩
  | cons a xs ih =>
    obtain ⟨l, hl⟩ := h a (List.mem_cons_self a xs)
    simp only [forEach, hl, collect_ok]
    exact ih (fun b hb => h b (List.mem_cons_of_mem a hb)) _

theorem forEach_collect_congr {α ω : Type} (g g' : α → Except Fault (List ω)) (xs : List α)
    (h : ∀ a ∈ xs, ∀ l, g a = .ok l → g' a = .ok l) (acc r : List ω)
    (hr : forEach (fun acc a => collect acc (g a)) acc xs = .ok r) :
    forEach (fun acc a => collect acc (g' a)) acc xs = .ok r := by
  induction xs generalizing acc with
  | nil => exact hr
  | cons a xs ih =>
    simp only [forEach] at hr ⊢
    cases hg : g a with
    | error e => simp [hg, collect_error] at hr
    | ok l =>
      rw [h a (List.mem_cons_self a xs) l hg]
      simp only [hg, collect_ok] at hr ⊢
      exact ih (fun b hb => h b (List.mem_cons_of_mem a hb)) _ hr

theorem runRoots_eq_replay (toLower : String → String) (fuel : Nat) (graph : APIGraph) :
    runRoots toLower fuel graph =
      (visits fuel graph).map (fun vs => vs.foldl (applyVisit toLower) []) := by
  unfold runRoots visits
  refine forEach_replay (applyVisit toLower) _
    (fun s => if (buildUsed graph.Edges).getD (segmentId s) false then .ok []
      else dfsVisits (buildIdToSegment graph.Segments) (buildGraphMap graph.Edges)
        (buildOpsBySegment graph.Operations) fuel (segmentId s) [] []) graph.Segments ?_ [] []
  intro s _ paths
  by_cases hu : (buildUsed graph.Edges).getD (segmentId s) false = true
  · simp [hu, Except.map]
  · simp only [hu, if_false]
    exact dfs_eq_replay toLower _ _ _ (opsBySegment_ne_nil graph.Operations) fuel _ _ _ paths

theorem buildOpenAPI_ok_iff (toLower : String → String) (fuel : Nat) (graph : APIGraph)
    (r : Option OpenAPI × Option String) :
    buildOpenAPI toLower fuel graph = .ok r ↔
      ∃ vs, visits fuel graph = .ok vs ∧
        r = (some { OpenAPI := "3.0.0",
                    Info := [("title", "Generated API"), ("version", "1.0.0")],
                    Paths := vs.foldl (applyVisit toLower) [] }, none) := by
  unfold buildOpenAPI
  rw [runRoots_eq_replay]
  cases hv : visits fuel graph with
  | error e => simp [Except.map]
  | ok vs =>
    simp only [Except.map, Except.ok.injEq, exists_eq_left']
    exact eq_comm

theorem buildOpenAPI_doc (toLower : String → String) (fuel : Nat) (graph : APIGraph)
    (doc : OpenAPI) (h : buildOpenAPI toLower fuel graph = .ok (some doc, none)) :
    ∃ vs, visits fuel graph = .ok vs ∧ doc.Paths = vs.foldl (applyVisit toLower) [] := by
  obtain ⟨vs, hvs, hr⟩ := (buildOpenAPI_ok_iff toLower fuel graph _).mp h
  refine ⟨vs, hvs, ?_⟩
  simp only [Prod.mk.injEq, Option.some.injEq, and_true] at hr
  rw [hr]

theorem segmentParams_pathParameter (inh : List Parameter) (seg : PathSegment)
    (h : ∀ q ∈ inh, ∃ p, q = pathParameter p) :
    ∀ q ∈ segmentParams inh seg, ∃ p, q = pathParameter p := by
  cases seg with
  | Static st => simpa [segmentParams] using h
  | unset => simpa [segmentParams] using h
  | Param p =>
    intro q hq
    simp only [segmentParams, List.mem_append, List.mem_singleton] at hq
    rcases hq with hq | hq
    · exact h q hq
    · exact ⟨p, hq⟩

theorem mem_ownVisits (segments : List String) (newParams : List Parameter)
    (ops : Option (List Operation)) (v : Visit) :
    v ∈ ownVisits segments newParams ops ↔
      ∃ l op, ops = some l ∧ op ∈ l ∧
        v = { path := fullPath segments, newParams := newParams, op := op } := by
  cases ops with
  | none => simp [ownVisits]
  | some l =>
    simp only [ownVisits, List.mem_map, Option.some.injEq]
    constructor
    · rintro ⟨op, hop, rfl⟩; exact ⟨l, op, rfl, hop, rfl⟩
    · rintro ⟨l', op, rfl, hop, rfl⟩; exact ⟨op, hop, rfl⟩

/-- Every store of a call of `dfs` is for an operation grouped under some segment
id, and its `newParams` are path parameters when the inherited ones are. -/
theorem dfsVisits_sound (idToSegment : GoMap String PathSegment)
    (graphMap : GoMap String (List String)) (opsBySegment : GoMap String (List Operation)) :
    ∀ (fuel : Nat) (id : String) (segments : List String) (inh : List Parameter)
      (vs : List Visit),
      dfsVisits idToSegment graphMap opsBySegment fuel id segments inh = .ok vs →
      ∀ v ∈ vs, (∃ sid l, opsBySegment.get? sid = some l ∧ v.op ∈ l) ∧
        ((∀ q ∈ inh, ∃ p, q = pathParameter p) → ∀ q ∈ v.newParams, ∃ p, q = pathParameter p) := by
  intro fuel
  induction fuel with
  | zero => intro id segments inh vs h; simp [dfsVisits] at h
  | succ fuel ih =>
    intro id segments inh vs h v hv
    simp only [dfsVisits] at h
    cases hseg : idToSegment.get? id with
    | none => simp [hseg] at h
    | some seg =>
      simp only [hseg] at h
      obtain ⟨rest, hr, hsub, -, -⟩ := forEach_collect_ok _ _ _ _ h
      rw [hr] at hv
      rcases List.mem_append.mp hv with hv | hv
      · obtain ⟨l, op, hl, hop, rfl⟩ := (mem_ownVisits _ _ _ _).mp hv
        exact ⟨⟨id, l, hl, hop⟩, fun hinh => segmentParams_pathParameter inh seg hinh⟩
      · obtain ⟨child, -, l, hl, hvl⟩ := hsub v hv
        obtain ⟨h₁, h₂⟩ := ih child _ _ l hl v hvl
        exact ⟨h₁, fun hinh => h₂ (segmentParams_pathParameter inh seg hinh)⟩

/-- Every store of a run is for an operation of the graph, with path parameters
as its `newParams`. -/
theorem visits_sound (fuel : Nat) (graph : APIGraph) (vs : List Visit)
    (h : visits fuel graph = .ok vs) :
    ∀ v ∈ vs, v.op ∈ graph.Operations ∧ ∀ q ∈ v.newParams, ∃ p, q = pathParameter p := by
  intro v hv
  unfold visits at h
  obtain ⟨rest, hr, hsub, -, -⟩ := forEach_collect_ok _ _ _ _ h
  rw [hr, List.nil_append] at hv
  obtain ⟨s, -, l, hl, hvl⟩ := hsub v hv
  by_cases hu : (buildUsed graph.Edges).getD (segmentId s) false = true
  · simp only [hu, if_true, Except.ok.injEq] at hl
    rw [← hl] at hvl
    simp at hvl
  · simp only [hu, if_false] at hl
    obtain ⟨⟨sid, ops, hops, hop⟩, hparams⟩ := dfsVisits_sound _ _ _ fuel _ _ _ l hl v hvl
    exact ⟨((opsBySegment_mem graph.Operations sid ops hops v.op).mp hop).1,
      hparams (by simp)⟩

theorem allParams_eq (newParams : List Parameter) (op : Operation) :
    allParams newParams op = newParams ++ mappedQueryParams op := by
  unfold allParams mappedQueryParams
  generalize op.QueryParameters = qs
  induction qs generalizing newParams with
  | nil => simp
  | cons q qs ih =>
    rw [List.foldl_cons, ih]
    simp [queryParameter]

theorem filter_query_allParams (newParams : List Parameter) (op : Operation)
    (h : ∀ q ∈ newParams, ∃ p, q = pathParameter p) :
    (allParams newParams op).filter (fun q => q.In = "query") = mappedQueryParams op := by
  rw [allParams_eq, List.filter_append]
  have h₁ : newParams.filter (fun q => q.In = "query") = [] := by
    rw [List.filter_eq_nil_iff]
    intro q hq
    obtain ⟨p, rfl⟩ := h q hq
    simp [pathParameter]
  have h₂ : (mappedQueryParams op).filter (fun q => q.In = "query") = mappedQueryParams op := by
    rw [List.filter_eq_self]
    intro q hq
    simp only [mappedQueryParams, List.mem_map] at hq
    obtain ⟨qp, -, rfl⟩ := hq
    simp
  rw [h₁, h₂, List.nil_append]

/-! ## Responses and key uniqueness -/

theorem GoMap.mem_set {κ ν : Type} [DecidableEq κ] (m : GoMap κ ν) (k : κ) (v : ν)
    (x : κ × ν) (h : x ∈ GoMap.set m k v) : x = (k, v) ∨ x ∈ m := by
  induction m with
  | nil => simpa [GoMap.set] using h
  | cons kv m ih =>
    obtain ⟨k₁, v₁⟩ := kv
    by_cases h₁ : k₁ = k
    · simp only [GoMap.set, h₁, if_true, List.mem_cons] at h
      rcases h with h | h
      · exact Or.inl h
      · exact Or.inr (List.mem_cons_of_mem _ h)
    · simp only [GoMap.set, h₁, if_false, List.mem_cons] at h
      rcases h with h | h
      · exact Or.inr (h ▸ List.mem_cons_self _ _)
      · rcases ih h with h | h
        · exact Or.inl h
        · exact Or.inr (List.mem_cons_of_mem _ h)

theorem responses_spec (codes : List Int) :
    (∀ k, k ∈ GoMap.keys (codes.foldl
        (fun resp status => GoMap.set resp (sprintfD status) responseObject) []) ↔
      k ∈ codes.map sprintfD) ∧
    (GoMap.keys (codes.foldl
        (fun resp status => GoMap.set resp (sprintfD status) responseObject) [])).Nodup ∧
    ∀ x ∈ codes.foldl (fun resp status => GoMap.set resp (sprintfD status) responseObject) [],
      x.2 = responseObject := by
  induction codes using List.reverseRecOn with
  | nil => simp [GoMap.keys]
  | append_singleton cs c ih =>
    obtain ⟨hkeys, hnodup, hvals⟩ := ih
    simp only [List.foldl_append, List.foldl_cons, List.foldl_nil]
    refine ⟨?_, GoMap.nodup_keys_set _ _ _ hnodup, ?_⟩
    · intro k
      rw [GoMap.mem_keys_set, hkeys]
      simp [or_comm]
    · intro x hx
      rcases GoMap.mem_set _ _ _ x hx with rfl | hx
      · rfl
      · exact hvals x hx

theorem responses_length (codes : List Int) :
    (codes.foldl (fun resp status => GoMap.set resp (sprintfD status) responseObject)
      []).length = codes.dedup.length := by
  obtain ⟨hkeys, hnodup, -⟩ := responses_spec codes
  have hperm : List.Perm (GoMap.keys (codes.foldl
      (fun resp status => GoMap.set resp (sprintfD status) responseObject) []))
      (codes.dedup.map sprintfD) := by
    rw [List.perm_ext_iff_of_nodup hnodup
      ((List.nodup_dedup codes).map (fun a b => sprintfD_injective a b))]
    intro k
    rw [hkeys]
    simp
  have := hperm.length_eq
  simpa [GoMap.keys] using this

theorem applyVisit_keys (toLower : String → String) (paths : GoMap String (GoMap String Path))
    (v : Visit)
    (h : paths.keys.Nodup ∧ ∀ p inner, paths.get? p = some inner → inner.keys.Nodup) :
    (applyVisit toLower paths v).keys.Nodup ∧
      ∀ p inner, (applyVisit toLower paths v).get? p = some inner → inner.keys.Nodup := by
  refine ⟨GoMap.nodup_keys_set _ _ _ h.1, ?_⟩
  intro p inner hp
  simp only [applyVisit, storeEntry, GoMap.get?_set] at hp
  by_cases hpath : v.path = p
  · simp only [hpath, if_true, Option.some.injEq] at hp
    rw [← hp]
    apply GoMap.nodup_keys_set
    simp only [GoMap.getD]
    cases hq : paths.get? p with
    | none => simp [GoMap.keys]
    | some inner' => exact h.2 p inner' hq
  · simp only [hpath, if_false] at hp
    exact h.2 p inner hp

theorem foldl_applyVisit_keys (toLower : String → String) (vs : List Visit) :
    (vs.foldl (applyVisit toLower) []).keys.Nodup ∧
      ∀ p inner, (vs.foldl (applyVisit toLower) []).get? p = some inner → inner.keys.Nodup := by
  have hgen : ∀ (q : GoMap String (GoMap String Path)),
      (q.keys.Nodup ∧ ∀ p inner, q.get? p = some inner → inner.keys.Nodup) →
      ((vs.foldl (applyVisit toLower) q).keys.Nodup ∧
        ∀ p inner, (vs.foldl (applyVisit toLower) q).get? p = some inner → inner.keys.Nodup) := by
    induction vs with
    | nil => intro q hq; exact hq
    | cons v vs ih => intro q hq; exact ih _ (applyVisit_keys toLower q v hq)
  exact hgen [] ⟨by simp [GoMap.keys], by simp [GoMap.get?]⟩

/-- Every entry of a returned document is the entry of the last store to its
path and method. -/
theorem entry_is_last_store (toLower : String → String) (fuel : Nat) (graph : APIGraph)
    (doc : OpenAPI) (h : buildOpenAPI toLower fuel graph = .ok (some doc, none))
    (p m : String) (e : Path) (he : lookupEntry doc.Paths p m = some e) :
    ∃ vs v, visits fuel graph = .ok vs ∧ LastStore toLower vs v ∧ v.path = p ∧
      toLower v.op.Method = m ∧ e = opEntry v.newParams v.op := by
  obtain ⟨vs, hvs, hpaths⟩ := buildOpenAPI_doc toLower fuel graph doc h
  rw [hpaths] at he
  rcases lookupEntry_foldl_some toLower vs [] p m e he with ⟨v, hlast, hp, hm, hv⟩ | ⟨-, hnil⟩
  · exact ⟨vs, v, hvs, hlast, hp, hm, hv⟩
  · simp [lookupEntry_nil] at hnil

theorem LastStore.mem {toLower : String → String} {vs : List Visit} {v : Visit}
    (h : LastStore toLower vs v) : v ∈ vs := by
  obtain ⟨pre, post, rfl, -⟩ := h
  simp

/-! ## Properties of `parameterSchema` and of a returned document -/

/-- C6: `parameterSchema` is a total function of the parameter's type: the INTEGER
type gives type "integer" without format, the UUID type gives type "string" with
format "uuid", every other type value (the unspecified zero value and any
unrecognized number included) gives type "string" without format; hence every
schema of every parameter in a returned document has type "integer" or "string"
and format "uuid" or none. -/
theorem parameterSchema_total :
    (∀ param : sharedpb.Parameter,
      (param.Type_ = .PARAMETER_TYPE_INTEGER →
        parameterSchema param = { Type_ := "integer", Format := "" }) ∧
      (param.Type_ = .PARAMETER_TYPE_UUID →
        parameterSchema param = { Type_ := "string", Format := "uuid" }) ∧
      (param.Type_ ≠ .PARAMETER_TYPE_INTEGER → param.Type_ ≠ .PARAMETER_TYPE_UUID →
        parameterSchema param = { Type_ := "string", Format := "" }) ∧
      (param.Type_ = .unspecified → parameterSchema param = { Type_ := "string", Format := "" }) ∧
      (∀ n, param.Type_ = .unrecognized n →
        parameterSchema param = { Type_ := "string", Format := "" })) ∧
    (∀ (toLower : String → String) (fuel : Nat) (graph : APIGraph) (doc : OpenAPI),
      buildOpenAPI toLower fuel graph = .ok (some doc, none) →
      ∀ p m e, lookupEntry doc.Paths p m = some e → ∀ q ∈ e.Parameters,
        (q.Schema.Type_ = "integer" ∨ q.Schema.Type_ = "string") ∧
        (q.Schema.Format = "uuid" ∨ q.Schema.Format = "")) := by
  have hrange : ∀ param : sharedpb.Parameter,
      ((parameterSchema param).Type_ = "integer" ∨ (parameterSchema param).Type_ = "string") ∧
      ((parameterSchema param).Format = "uuid" ∨ (parameterSchema param).Format = "") := by
    intro param
    unfold parameterSchema
    cases param.Type_ <;> simp
  refine ⟨?_, ?_⟩
  · intro param
    unfold parameterSchema
    refine ⟨?_, ?_, ?_, ?_, ?_⟩
    · intro h; rw [h]
    · intro h; rw [h]
    · intro h₁ h₂
      cases ht : param.Type_ with
      | PARAMETER_TYPE_INTEGER => exact absurd ht h₁
      | PARAMETER_TYPE_UUID => exact absurd ht h₂
      | unspecified => rfl
      | unrecognized n => rfl
    · intro h; rw [h]
    · intro n h; rw [h]
  · intro toLower fuel graph doc h p m e he q hq
    obtain ⟨vs, v, hvs, hlast, -, -, rfl⟩ := entry_is_last_store toLower fuel graph doc h p m e he
    simp only [opEntry, allParams_eq, List.mem_append] at hq
    rcases hq with hq | hq
    · obtain ⟨sp, rfl⟩ := (visits_sound fuel graph vs hvs v hlast.mem).2 q hq
      exact hrange sp
    · simp only [mappedQueryParams, List.mem_map] at hq
      obtain ⟨qp, -, rfl⟩ := hq
      exact hrange qp

/-- C10: the document assembly never fails: whenever `buildOpenAPI` returns, the
error is nil and the document has version "3.0.0", the info entries title
"Generated API" and version "1.0.0" and nothing else, and as paths the map
accumulated by the traversal; on the graph without segments, edges and operations
it returns, with an empty paths map. -/
theorem buildOpenAPI_never_fails (toLower : String → String) (fuel : Nat) (graph : APIGraph) :
    (∀ r, buildOpenAPI toLower fuel graph = .ok r →
      r.2 = none ∧ ∃ doc, r.1 = some doc ∧ doc.OpenAPI = "3.0.0" ∧
        doc.Info = [("title", "Generated API"), ("version", "1.0.0")] ∧
        runRoots toLower fuel graph = .ok doc.Paths) ∧
    buildOpenAPI toLower fuel emptyGraph =
      .ok (some { OpenAPI := "3.0.0",
                  Info := [("title", "Generated API"), ("version", "1.0.0")],
                  Paths := [] }, none) := by
  refine ⟨?_, rfl⟩
  intro r h
  unfold buildOpenAPI at h
  cases hrun : runRoots toLower fuel graph with
  | error e => simp [hrun] at h
  | ok paths =>
    simp only [hrun, Except.ok.injEq] at h
    subst h
    exact ⟨rfl, _, rfl, rfl, rfl, rfl⟩

theorem buildOpenAPI_never_fails_witness :
    buildOpenAPI asciiLower 3 chainGraph = .ok (some chainDoc, none) ∧
    ((some chainDoc, none) : Option OpenAPI × Option String).2 = none ∧
    ∃ doc, ((some chainDoc, none) : Option OpenAPI × Option String).1 = some doc ∧
      doc.OpenAPI = "3.0.0" ∧
      doc.Info = [("title", "Generated API"), ("version", "1.0.0")] ∧
      runRoots asciiLower 3 chainGraph = .ok doc.Paths :=
  ⟨by decide, (buildOpenAPI_never_fails asciiLower 3 chainGraph).1 _ (by decide)⟩

/-- C3: in a returned document the query parameters of every entry are, in order,
exactly the mapped query parameters of one operation of the graph whose id is the
entry's summary and whose lower-cased method is the method key, so no query
parameter of another operation appears; and the entry stored for an operation
that declares no query parameters has no parameter with in = "query", whatever
the operations of its ancestors declare. -/
theorem query_parameters_not_inherited (toLower : String → String) (fuel : Nat)
    (graph : APIGraph) (doc : OpenAPI)
    (h : buildOpenAPI toLower fuel graph = .ok (some doc, none)) :
    (∀ p m e, lookupEntry doc.Paths p m = some e →
      ∃ op ∈ graph.Operations, op.Id = e.Summary ∧ toLower op.Method = m ∧
        e.Parameters.filter (fun q => q.In = "query") = mappedQueryParams op) ∧
    ∃ vs, visits fuel graph = .ok vs ∧
      ∀ v ∈ vs, v.op.QueryParameters = [] →
        ∀ q ∈ (opEntry v.newParams v.op).Parameters, q.In ≠ "query" := by
  refine ⟨?_, ?_⟩
  · intro p m e he
    obtain ⟨vs, v, hvs, hlast, -, hm, rfl⟩ := entry_is_last_store toLower fuel graph doc h p m e he
    obtain ⟨hop, hparams⟩ := visits_sound fuel graph vs hvs v hlast.mem
    exact ⟨v.op, hop, rfl, hm, filter_query_allParams v.newParams v.op hparams⟩
  · obtain ⟨vs, hvs, -⟩ := buildOpenAPI_doc toLower fuel graph doc h
    refine ⟨vs, hvs, ?_⟩
    intro v hv hq q hmem
    obtain ⟨-, hparams⟩ := visits_sound fuel graph vs hvs v hv
    simp only [opEntry, allParams_eq, mappedQueryParams, hq, List.map_nil, List.append_nil]
      at hmem
    obtain ⟨sp, rfl⟩ := hparams q hmem
    simp [pathParameter]

theorem query_parameters_not_inherited_witness :
    buildOpenAPI asciiLower 2 queryGraph = .ok (some queryDoc, none) ∧
    ∃ op ∈ queryGraph.Operations, op.Id = "sub" ∧ asciiLower op.Method = "get" ∧
      ([] : List Parameter).filter (fun q => q.In = "query") = mappedQueryParams op :=
  ⟨by decide,
    (query_parameters_not_inherited asciiLower 2 queryGraph queryDoc (by decide)).1
      "/users/orders" "get"
      { Summary := "sub", Parameters := [],
        Responses := [("200", [("description", "response")]),
                      ("404", [("description", "response")])] } (by decide)⟩

/-- C4: for every entry of a returned document there is an operation of the graph
that produced it, and the keys of the entry's responses map are exactly the
decimal renderings of that operation's status codes, without repetition, so the
number of response entries is the number of distinct status codes (the rendering
is injective); every value is the object with the single pair description =
"response".  Status codes [200, 404] give the two keys "200" and "404", and no
status codes give the empty map. -/
theorem responses_keyed_by_status_codes (toLower : String → String) (fuel : Nat)
    (graph : APIGraph) (doc : OpenAPI)
    (h : buildOpenAPI toLower fuel graph = .ok (some doc, none))
    (p m : String) (e : Path) (he : lookupEntry doc.Paths p m = some e) :
    ∃ op ∈ graph.Operations, e.Summary = op.Id ∧ toLower op.Method = m ∧
      (∀ k, k ∈ e.Responses.keys ↔ k ∈ op.StatusCodes.map sprintfD) ∧
      e.Responses.keys.Nodup ∧
      e.Responses.length = op.StatusCodes.dedup.length ∧
      (∀ a b : Int, sprintfD a = sprintfD b → a = b) ∧
      (∀ x ∈ e.Responses, x.2 = [("description", "response")]) ∧
      (op.StatusCodes = [200, 404] → e.Responses.keys = ["200", "404"]) ∧
      (op.StatusCodes = [] → e.Responses = []) := by
  obtain ⟨vs, v, hvs, hlast, -, hm, rfl⟩ := entry_is_last_store toLower fuel graph doc h p m e he
  obtain ⟨hop, -⟩ := visits_sound fuel graph vs hvs v hlast.mem
  obtain ⟨hkeys, hnodup, hvals⟩ := responses_spec v.op.StatusCodes
  refine ⟨v.op, hop, rfl, hm, hkeys, hnodup, responses_length v.op.StatusCodes,
    sprintfD_injective, hvals, ?_, ?_⟩
  · intro hc
    simp only [opEntry, buildResponses, hc]
    decide
  · intro hc
    simp only [opEntry, buildResponses, hc]
    rfl

theorem responses_keyed_by_status_codes_witness :
    buildOpenAPI asciiLower 2 queryGraph = .ok (some queryDoc, none) ∧
    ∃ op ∈ queryGraph.Operations, "sub" = op.Id ∧ asciiLower op.Method = "get" ∧
      (∀ k, k ∈ GoMap.keys [("200", [("description", "response")]),
          ("404", [("description", "response")])] ↔ k ∈ op.StatusCodes.map sprintfD) ∧
      (GoMap.keys [("200", [("description", "response")]),
          ("404", [("description", "response")])]).Nodup ∧
      2 = op.StatusCodes.dedup.length ∧
      (∀ a b : Int, sprintfD a = sprintfD b → a = b) ∧
      (∀ x ∈ [("200", [("description", "response")]), ("404", [("description", "response")])],
        x.2 = [("description", "response")]) ∧
      (op.StatusCodes = [200, 404] → GoMap.keys [("200", [("description", "response")]),
          ("404", [("description", "response")])] = ["200", "404"]) ∧
      (op.StatusCodes = [] → [("200", [("description", "response")]),
          ("404", [("description", "response")])] = []) :=
  ⟨by decide,
    responses_keyed_by_status_codes asciiLower 2 queryGraph queryDoc (by decide)
      "/users/orders" "get"
      { Summary := "sub", Parameters := [],
        Responses := [("200", [("description", "response")]),
                      ("404", [("description", "response")])] } (by decide)⟩

/-! ## Runs that do not return -/

/-- A call of `dfs` on a segment id of a set `Bad`, each member of which either
misses in `idToSegment` or has a child in `Bad`, returns at no recursion budget. -/
theorem dfsVisits_bad (idToSegment : GoMap String PathSegment)
    (graphMap : GoMap String (List String)) (opsBySegment : GoMap String (List Operation))
    (Bad : String → Prop)
    (hbad : ∀ n, Bad n → idToSegment.get? n = none ∨ ∃ c ∈ graphMap.getD n [], Bad c) :
    ∀ (fuel : Nat) (n : String) (segments : List String) (inh : List Parameter)
      (vs : List Visit), Bad n →
      dfsVisits idToSegment graphMap opsBySegment fuel n segments inh ≠ .ok vs := by
  intro fuel
  induction fuel with
  | zero => intro n segments inh vs _ h; simp [dfsVisits] at h
  | succ fuel ih =>
    intro n segments inh vs hn h
    simp only [dfsVisits] at h
    cases hseg : idToSegment.get? n with
    | none => simp [hseg] at h
    | some seg =>
      simp only [hseg] at h
      rcases hbad n hn with hnone | ⟨c, hc, hcbad⟩
      · simp [hseg] at hnone
      · obtain ⟨rest, -, -, hsup, -⟩ := forEach_collect_ok _ _ _ _ h
        obtain ⟨l, hl, -⟩ := hsup c hc
        exact ih c _ _ l hcbad hl

/-- A run whose traversal starts from a root in such a set returns nothing. -/
theorem buildOpenAPI_bad (toLower : String → String) (graph : APIGraph) (Bad : String → Prop)
    (hbad : ∀ n, Bad n → (buildIdToSegment graph.Segments).get? n = none ∨
      ∃ c, EdgeRel graph n c ∧ Bad c)
    (s : PathSegment) (hs : s ∈ graph.Segments)
    (hroot : segmentId s ∉ graph.Edges.map Edge.To) (hsbad : Bad (segmentId s))
    (fuel : Nat) (r : Option OpenAPI × Option String) :
    buildOpenAPI toLower fuel graph ≠ .ok r := by
  intro h
  obtain ⟨vs, hvs, -⟩ := (buildOpenAPI_ok_iff toLower fuel graph r).mp h
  unfold visits at hvs
  obtain ⟨rest, -, -, hsup, -⟩ := forEach_collect_ok _ _ _ _ hvs
  obtain ⟨l, hl, -⟩ := hsup s hs
  have hu : ¬ (buildUsed graph.Edges).getD (segmentId s) false = true := by
    rw [used_getD]; exact hroot
  simp only [hu, if_false] at hl
  refine dfsVisits_bad _ _ _ Bad ?_ fuel _ _ _ l hsbad hl
  intro n hn
  rcases hbad n hn with h₁ | ⟨c, hc, hcb⟩
  · exact Or.inl h₁
  · exact Or.inr ⟨c, (mem_graphMap_getD graph.Edges n c).mpr hc, hcb⟩

theorem idToSegment_get?_none (segments : List PathSegment) (id : String)
    (h : id ∉ segments.map segmentId) : (buildIdToSegment segments).get? id = none := by
  cases hget : (buildIdToSegment segments).get? id with
  | none => rfl
  | some seg =>
    obtain ⟨hmem, hid, -⟩ := idToSegment_get?_some segments id seg hget
    exact absurd (hid ▸ List.mem_map_of_mem segmentId hmem) h

/-- A run on a graph without roots calls `dfs` never and returns empty paths. -/
theorem buildOpenAPI_no_roots (toLower : String → String) (graph : APIGraph)
    (h : ∀ s ∈ graph.Segments, segmentId s ∈ graph.Edges.map Edge.To) (fuel : Nat) :
    buildOpenAPI toLower fuel graph = .ok (some emptyDoc, none) := by
  have hrun : runRoots toLower fuel graph = .ok [] := by
    unfold runRoots
    simp only
    generalize ([] : GoMap String (GoMap String Path)) = q
    have hall : ∀ l : List PathSegment, (∀ s ∈ l, segmentId s ∈ graph.Edges.map Edge.To) →
        forEach (fun paths s =>
          if (buildUsed graph.Edges).getD (segmentId s) false = true then .ok paths
          else dfs toLower (buildIdToSegment graph.Segments) (buildGraphMap graph.Edges)
            (buildOpsBySegment graph.Operations) fuel (segmentId s) [] [] paths) q l = .ok q := by
      intro l
      induction l with
      | nil => intro _; rfl
      | cons s l ih =>
        intro hl
        have hu := (used_getD graph.Edges (segmentId s)).mpr (hl s (List.mem_cons_self s l))
        simp only [forEach, hu, if_true]
        exact ih (fun x hx => hl x (List.mem_cons_of_mem s hx))
    exact hall graph.Segments h
  simp only [buildOpenAPI, hrun, emptyDoc]

theorem buildOpenAPI_error_nil (toLower : String → String) (fuel : Nat) (graph : APIGraph)
    (r : Option OpenAPI × Option String) (h : buildOpenAPI toLower fuel graph = .ok r) :
    r.2 = none ∧ ∃ doc, r.1 = some doc := by
  obtain ⟨vs, -, rfl⟩ := (buildOpenAPI_ok_iff toLower fuel graph r).mp h
  exact ⟨rfl, _, rfl⟩

/-! ## Malformed graphs -/

/-- C7, as stated, fails: on the graph with the one segment `a` and the edge
`a -> x` to an unlisted id, no run returns a malformed-graph error; every run deep
enough to reach the edge ends in the nil dereference at the missing lookup. -/
theorem dangling_edge_counterexample :
    ({ From := "a", To := "x" } : Edge) ∈ danglingGraph.Edges ∧
    "x" ∉ danglingGraph.Segments.map segmentId ∧
    (∀ fuel, buildOpenAPI asciiLower (fuel + 2) danglingGraph = .error .nilDereference) ∧
    ¬ ∃ fuel err, buildOpenAPI asciiLower fuel danglingGraph = .ok (none, some err) := by
  refine ⟨by decide, by decide, fun fuel => rfl, ?_⟩
  rintro ⟨fuel, err, h⟩
  have := (buildOpenAPI_error_nil asciiLower fuel danglingGraph _ h).1
  simp at this

/-- C7, amended: `buildOpenAPI` has no malformed-graph error, its error result is
nil whenever it returns; and on a graph with an edge whose `to` id is not the id
of a listed segment and whose `from` id is reached along edges from a root, it
returns neither a document nor an error at any recursion budget. -/
theorem dangling_edge_never_reported (toLower : String → String) (graph : APIGraph)
    (e : Edge) (he : e ∈ graph.Edges) (hto : e.To ∉ graph.Segments.map segmentId) :
    (∀ fuel r, buildOpenAPI toLower fuel graph = .ok r → r.2 = none ∧ ∃ doc, r.1 = some doc) ∧
    (∀ s ∈ graph.Segments, segmentId s ∉ graph.Edges.map Edge.To →
      Relation.ReflTransGen (EdgeRel graph) (segmentId s) e.From →
      ∀ fuel r, buildOpenAPI toLower fuel graph ≠ .ok r) := by
  refine ⟨fun fuel r h => buildOpenAPI_error_nil toLower fuel graph r h, ?_⟩
  intro s hs hroot hreach fuel r
  refine buildOpenAPI_bad toLower graph
    (fun n => n = e.To ∨ Relation.ReflTransGen (EdgeRel graph) n e.From) ?_ s hs hroot
    (Or.inr hreach) fuel r
  rintro n (rfl | hn)
  · exact Or.inl (idToSegment_get?_none graph.Segments e.To hto)
  · rcases Relation.ReflTransGen.cases_head hn with rfl | ⟨c, hc, hrest⟩
    · exact Or.inr ⟨e.To, he, Or.inl rfl⟩
    · exact Or.inr ⟨c, hc, Or.inr hrest⟩

theorem dangling_edge_never_reported_witness :
    ({ From := "a", To := "x" } : Edge) ∈ danglingGraph.Edges ∧
    "x" ∉ danglingGraph.Segments.map segmentId ∧
    ∀ fuel r, buildOpenAPI asciiLower fuel danglingGraph ≠ .ok r :=
  ⟨by decide, by decide,
    (dangling_edge_never_reported asciiLower danglingGraph ⟨"a", "x"⟩ (by decide) (by decide)).2
      (.Static ⟨"a", "users"⟩) (by decide) (by decide) Relation.ReflTransGen.refl⟩

/-- C8, as stated, fails: on the graph with the segments `a` and `b` and the edges
`a -> b` and `b -> a`, every run returns a document (with empty paths) and a nil
error, and none returns a malformed-graph error. -/
theorem cycle_counterexample :
    Relation.TransGen (EdgeRel cycleGraph) "a" "a" ∧
    (∀ fuel, buildOpenAPI asciiLower fuel cycleGraph = .ok (some emptyDoc, none)) ∧
    ¬ ∃ fuel err, buildOpenAPI asciiLower fuel cycleGraph = .ok (none, some err) := by
  refine ⟨?_, ?_, ?_⟩
  · exact Relation.TransGen.tail
      (Relation.TransGen.single (by decide : EdgeRel cycleGraph "a" "b")) (by decide)
  · exact buildOpenAPI_no_roots asciiLower cycleGraph (by decide)
  · rintro ⟨fuel, err, h⟩
    have := (buildOpenAPI_error_nil asciiLower fuel cycleGraph _ h).1
    simp at this

theorem forEach_collect_error {α ω : Type} (g : α → Except Fault (List ω)) (xs : List α)
    (acc : List ω) (e : Fault)
    (h : forEach (fun acc a => collect acc (g a)) acc xs = .error e) :
    ∃ a ∈ xs, g a = .error e := by
  induction xs generalizing acc with
  | nil => simp [forEach] at h
  | cons a xs ih =>
    simp only [forEach] at h
    cases hg : g a with
    | error e' =>
      simp only [hg, collect_error, Except.error.injEq] at h
      exact ⟨a, List.mem_cons_self a xs, by rw [hg, h]⟩
    | ok l =>
      simp only [hg, collect_ok] at h
      obtain ⟨b, hb, hgb⟩ := ih _ h
      exact ⟨b, List.mem_cons_of_mem a hb, hgb⟩

theorem idToSegment_get?_isSome (segments : List PathSegment)
    (hset : ∀ s ∈ segments, s ≠ PathSegment.unset) (id : String)
    (hid : id ∈ segments.map segmentId) :
    ((buildIdToSegment segments).get? id).isSome := by
  unfold buildIdToSegment
  induction segments using List.reverseRecOn with
  | nil => simp at hid
  | append_singleton xs s ih =>
    rw [List.foldl_append, List.foldl_cons, List.foldl_nil, idToSegment_step]
    by_cases hs : segmentId s = id
    · have hne : s ≠ PathSegment.unset := hset s (by simp)
      simp [hs, hne]
    · simp only [hs, and_false, if_false]
      apply ih (fun x hx => hset x (List.mem_append_left _ hx))
      simp only [List.map_append, List.map_cons, List.map_nil, List.mem_append,
        List.mem_singleton] at hid
      rcases hid with hid | hid
      · exact hid
      · exact absurd hid.symm hs

/-- A call of `dfs` inside a set of ids that all hit in `idToSegment` and that is
closed under the child lists never ends in a nil dereference. -/
theorem dfsVisits_no_nil (idToSegment : GoMap String PathSegment)
    (graphMap : GoMap String (List String)) (opsBySegment : GoMap String (List Operation))
    (S : String → Prop) (hI : ∀ id, S id → (idToSegment.get? id).isSome)
    (hcl : ∀ id, S id → ∀ c ∈ graphMap.getD id [], S c) :
    ∀ (fuel : Nat) (id : String) (segments : List String) (inh : List Parameter), S id →
      dfsVisits idToSegment graphMap opsBySegment fuel id segments inh ≠
        .error .nilDereference := by
  intro fuel
  induction fuel with
  | zero => intro id segments inh _ h; simp [dfsVisits] at h
  | succ fuel ih =>
    intro id segments inh hid h
    obtain ⟨seg, hseg⟩ := Option.isSome_iff_exists.mp (hI id hid)
    simp only [dfsVisits, hseg] at h
    obtain ⟨child, hchild, herr⟩ := forEach_collect_error _ _ _ _ h
    exact ih child _ _ (hcl id hid child hchild) herr

theorem buildOpenAPI_error_iff (toLower : String → String) (fuel : Nat) (graph : APIGraph)
    (e : Fault) :
    buildOpenAPI toLower fuel graph = .error e ↔ visits fuel graph = .error e := by
  unfold buildOpenAPI
  rw [runRoots_eq_replay]
  cases visits fuel graph with
  | error e' => simp [Except.map]
  | ok vs => simp [Except.map]

/-- On a graph whose segments all carry a variant and whose edges all point to
listed segments, no run ends in a nil dereference. -/
theorem buildOpenAPI_no_nil (toLower : String → String) (graph : APIGraph)
    (hset : ∀ s ∈ graph.Segments, s ≠ PathSegment.unset)
    (hto : ∀ e ∈ graph.Edges, e.To ∈ graph.Segments.map segmentId) (fuel : Nat) :
    buildOpenAPI toLower fuel graph ≠ .error .nilDereference := by
  intro h
  rw [buildOpenAPI_error_iff] at h
  unfold visits at h
  obtain ⟨s, hs, herr⟩ := forEach_collect_error _ _ _ _ h
  by_cases hu : (buildUsed graph.Edges).getD (segmentId s) false = true
  · simp [hu] at herr
  · simp only [hu, if_false] at herr
    refine dfsVisits_no_nil _ _ _ (fun id => id ∈ graph.Segments.map segmentId) ?_ ?_ fuel _ _ _
      (List.mem_map_of_mem segmentId hs) herr
    · intro id hid
      exact idToSegment_get?_isSome graph.Segments hset id hid
    · intro id _ c hc
      exact hto _ ((mem_graphMap_getD graph.Edges id c).mp hc)

/-- C8, amended: on a graph whose edges contain a cycle, `buildOpenAPI` never
returns a malformed-graph error (its error result is nil whenever it returns);
when the cycle is reached along edges from a root, nothing is returned at any
recursion budget; when moreover every segment carries a variant and every edge
points to a listed segment, the recursion is unbounded: the run exhausts every
recursion budget; when the graph has no root, the traversal is never started and
a document with empty paths is returned. -/
theorem cycle_never_reported (toLower : String → String) (graph : APIGraph) (c : String)
    (hc : Relation.TransGen (EdgeRel graph) c c) :
    (∀ fuel r, buildOpenAPI toLower fuel graph = .ok r → r.2 = none ∧ ∃ doc, r.1 = some doc) ∧
    (∀ s ∈ graph.Segments, segmentId s ∉ graph.Edges.map Edge.To →
      Relation.ReflTransGen (EdgeRel graph) (segmentId s) c →
      ∀ fuel r, buildOpenAPI toLower fuel graph ≠ .ok r) ∧
    (∀ s ∈ graph.Segments, segmentId s ∉ graph.Edges.map Edge.To →
      Relation.ReflTransGen (EdgeRel graph) (segmentId s) c →
      (∀ s' ∈ graph.Segments, s' ≠ PathSegment.unset) →
      (∀ e ∈ graph.Edges, e.To ∈ graph.Segments.map segmentId) →
      ∀ fuel, buildOpenAPI toLower fuel graph = .error .stackExhausted) ∧
    ((∀ s ∈ graph.Segments, segmentId s ∈ graph.Edges.map Edge.To) →
      ∀ fuel, buildOpenAPI toLower fuel graph = .ok (some emptyDoc, none)) := by
  have hnever : ∀ s ∈ graph.Segments, segmentId s ∉ graph.Edges.map Edge.To →
      Relation.ReflTransGen (EdgeRel graph) (segmentId s) c →
      ∀ fuel r, buildOpenAPI toLower fuel graph ≠ .ok r := by
    intro s hs hroot hreach fuel r
    refine buildOpenAPI_bad toLower graph
      (fun n => Relation.ReflTransGen (EdgeRel graph) n c) ?_ s hs hroot hreach fuel r
    intro n hn
    rcases Relation.ReflTransGen.cases_head hn with rfl | ⟨d, hd, hrest⟩
    · obtain ⟨d, hd, hrest⟩ := Relation.TransGen.head'_iff.mp hc
      exact Or.inr ⟨d, hd, hrest⟩
    · exact Or.inr ⟨d, hd, hrest⟩
  refine ⟨fun fuel r h => buildOpenAPI_error_nil toLower fuel graph r h, hnever, ?_,
    fun h fuel => buildOpenAPI_no_roots toLower graph h fuel⟩
  intro s hs hroot hreach hset hto fuel
  cases hrun : buildOpenAPI toLower fuel graph with
  | ok r => exact absurd hrun (hnever s hs hroot hreach fuel r)
  | error e =>
    cases e with
    | nilDereference => exact absurd hrun (buildOpenAPI_no_nil toLower graph hset hto fuel)
    | stackExhausted => rfl

theorem cycle_never_reported_witness :
    Relation.TransGen (EdgeRel rootedCycleGraph) "a" "a" ∧
    (∀ fuel r, buildOpenAPI asciiLower fuel rootedCycleGraph ≠ .ok r) ∧
    ∀ fuel, buildOpenAPI asciiLower fuel rootedCycleGraph = .error .stackExhausted :=
  ⟨Relation.TransGen.tail
      (Relation.TransGen.single (by decide : EdgeRel rootedCycleGraph "a" "b")) (by decide),
    (cycle_never_reported asciiLower rootedCycleGraph "a"
      (Relation.TransGen.tail
        (Relation.TransGen.single (by decide : EdgeRel rootedCycleGraph "a" "b"))
        (by decide))).2.1
      (.Static ⟨"r", "api"⟩) (by decide) (by decide)
      (Relation.ReflTransGen.single (by decide)),
    (cycle_never_reported asciiLower rootedCycleGraph "a"
      (Relation.TransGen.tail
        (Relation.TransGen.single (by decide : EdgeRel rootedCycleGraph "a" "b"))
        (by decide))).2.2.1
      (.Static ⟨"r", "api"⟩) (by decide) (by decide)
      (Relation.ReflTransGen.single (by decide)) (by decide) (by decide)⟩

/-! ## Termination on forests -/

theorem dfsVisits_succ (idToSegment : GoMap String PathSegment)
    (graphMap : GoMap String (List String)) (opsBySegment : GoMap String (List Operation)) :
    ∀ (fuel : Nat) (id : String) (segments : List String) (inh : List Parameter)
      (vs : List Visit),
      dfsVisits idToSegment graphMap opsBySegment fuel id segments inh = .ok vs →
      dfsVisits idToSegment graphMap opsBySegment (fuel + 1) id segments inh = .ok vs := by
  intro fuel
  induction fuel with
  | zero => intro id segments inh vs h; simp [dfsVisits] at h
  | succ fuel ih =>
    intro id segments inh vs h
    rw [dfsVisits] at h ⊢
    cases hseg : idToSegment.get? id with
    | none => simp [hseg] at h
    | some seg =>
      simp only [hseg] at h ⊢
      exact forEach_collect_congr _ _ _ (fun child _ l hl => ih child _ _ l hl) _ _ h

theorem dfsVisits_mono (idToSegment : GoMap String PathSegment)
    (graphMap : GoMap String (List String)) (opsBySegment : GoMap String (List Operation))
    (fuel fuel' : Nat) (hle : fuel ≤ fuel') (id : String) (segments : List String)
    (inh : List Parameter) (vs : List Visit)
    (h : dfsVisits idToSegment graphMap opsBySegment fuel id segments inh = .ok vs) :
    dfsVisits idToSegment graphMap opsBySegment fuel' id segments inh = .ok vs := by
  induction hle with
  | refl => exact h
  | step _ ih => exact dfsVisits_succ _ _ _ _ _ _ _ _ ih

theorem visits_mono (graph : APIGraph) (fuel fuel' : Nat) (hle : fuel ≤ fuel')
    (vs : List Visit) (h : visits fuel graph = .ok vs) : visits fuel' graph = .ok vs := by
  unfold visits at h ⊢
  refine forEach_collect_congr _ _ _ ?_ _ _ h
  intro s _ l hl
  by_cases hu : (buildUsed graph.Edges).getD (segmentId s) false = true
  · simpa [hu] using hl
  · simp only [hu, if_false] at hl ⊢
    exact dfsVisits_mono _ _ _ fuel fuel' hle _ _ _ l hl

/-- A chain along an acyclic relation repeats no element. -/
theorem chain_nodup {R : String → String → Prop} (hacyc : ∀ a, ¬ Relation.TransGen R a a)
    (l : List String) (h : List.Chain' R l) : l.Nodup := by
  have h₁ : List.Chain' (Relation.TransGen R) l :=
    List.Chain'.imp (fun a b hab => Relation.TransGen.single hab) h
  have h₂ : List.Pairwise (Relation.TransGen R) l := List.chain'_iff_pairwise.mp h₁
  refine List.Pairwise.imp ?_ h₂
  intro a b hab heq
  subst heq
  exact hacyc a hab

theorem mem_segmentIds (graph : APIGraph) (hf : Forest graph) (id : String)
    (h : id ∈ graph.Segments.map segmentId) :
    ∃ seg, seg ∈ graph.Segments ∧ segmentId seg = id ∧
      (buildIdToSegment graph.Segments).get? id = some seg := by
  obtain ⟨seg, hseg, rfl⟩ := List.mem_map.mp h
  exact ⟨seg, hseg, rfl,
    idToSegment_get?_of_mem graph.Segments hf.uniqueIds seg hseg (hf.variants seg hseg)⟩

/-- On a forest a call of `dfs` below a chain of ancestors returns when the
recursion budget covers the segments not yet on the chain. -/
theorem dfsVisits_terminates (graph : APIGraph) (hf : Forest graph) :
    ∀ (fuel : Nat) (anc : List String) (id : String) (segments : List String)
      (inh : List Parameter),
      List.Chain' (EdgeRel graph) (anc ++ [id]) →
      (∀ x ∈ anc ++ [id], x ∈ graph.Segments.map segmentId) →
      graph.Segments.length ≤ anc.length + fuel →
      ∃ vs, dfsVisits (buildIdToSegment graph.Segments) (buildGraphMap graph.Edges)
        (buildOpsBySegment graph.Operations) fuel id segments inh = .ok vs := by
  intro fuel
  induction fuel with
  | zero =>
    intro anc id segments inh hchain hmem hlen
    have hnodup := chain_nodup hf.acyclic _ hchain
    have hle := (List.subperm_of_subset hnodup hmem).length_le
    simp only [List.length_append, List.length_singleton, List.length_map] at hle
    omega
  | succ fuel ih =>
    intro anc id segments inh hchain hmem hlen
    obtain ⟨seg, -, -, hget⟩ := mem_segmentIds graph hf id (hmem id (by simp))
    simp only [dfsVisits, hget]
    apply forEach_collect_total
    intro child hchild
    have hedge : EdgeRel graph id child := (mem_graphMap_getD graph.Edges id child).mp hchild
    apply ih (anc ++ [id]) child
    · refine List.Chain'.append hchain (List.chain'_singleton child) ?_
      intro x hx y hy
      rw [List.getLast?_concat] at hx
      simp only [Option.mem_def, Option.some.injEq, List.head?_cons] at hx hy
      subst hx hy
      exact hedge
    · intro x hx
      rcases List.mem_append.mp hx with hx | hx
      · exact hmem x hx
      · simp only [List.mem_singleton] at hx
        subst hx
        exact (hf.endpoints _ hedge).2
    · simp only [List.length_append, List.length_singleton]
      omega

theorem visits_terminates (graph : APIGraph) (hf : Forest graph) :
    ∃ vs, ∀ fuel, graph.Segments.length ≤ fuel → visits fuel graph = .ok vs := by
  have h : ∃ vs, visits graph.Segments.length graph = .ok vs := by
    unfold visits
    apply forEach_collect_total
    intro s hs
    by_cases hu : (buildUsed graph.Edges).getD (segmentId s) false = true
    · exact ⟨[], by simp [hu]⟩
    · simp only [hu, if_false]
      apply dfsVisits_terminates graph hf graph.Segments.length [] (segmentId s)
      · simp
      · intro x hx
        simp only [List.nil_append, List.mem_singleton] at hx
        subst hx
        exact List.mem_map_of_mem segmentId hs
      · simp
  obtain ⟨vs, hvs⟩ := h
  exact ⟨vs, fun fuel hle => visits_mono graph _ fuel hle vs hvs⟩

/-! ## The store of an operation at the end of a chain -/

theorem chainParts_eq (c : List PathSegment) : chainParts c = c.map segmentPart := by
  unfold chainParts
  apply List.map_congr_left
  intro s _
  cases s <;> rfl

theorem foldl_segmentParams (c : List PathSegment) (inh : List Parameter) :
    c.foldl segmentParams inh = inh ++ chainPathParams c := by
  induction c generalizing inh with
  | nil => simp [chainPathParams]
  | cons s c ih =>
    rw [List.foldl_cons, ih]
    cases s with
    | Static st => simp [segmentParams, chainPathParams]
    | unset => simp [segmentParams, chainPathParams]
    | Param p => simp [segmentParams, chainPathParams, pathParameter]

/-- A call of `dfs` on the first segment of a chain executes the store of every
operation grouped under the last segment of the chain, with the path parts and
the parameters accumulated along the chain. -/
theorem dfsVisits_chain (idToSegment : GoMap String PathSegment)
    (graphMap : GoMap String (List String)) (opsBySegment : GoMap String (List Operation)) :
    ∀ (rest : List PathSegment) (s₀ : PathSegment) (fuel : Nat) (segments : List String)
      (inh : List Parameter) (vs : List Visit),
      List.Chain' (fun a b => segmentId b ∈ graphMap.getD (segmentId a) []) (s₀ :: rest) →
      (∀ x ∈ s₀ :: rest, idToSegment.get? (segmentId x) = some x) →
      dfsVisits idToSegment graphMap opsBySegment fuel (segmentId s₀) segments inh = .ok vs →
      ∀ t ops op, (s₀ :: rest).getLast? = some t → opsBySegment.get? (segmentId t) = some ops →
        op ∈ ops →
        ({ path := fullPath (segments ++ (s₀ :: rest).map segmentPart),
           newParams := (s₀ :: rest).foldl segmentParams inh, op := op } : Visit) ∈ vs := by
  intro rest
  induction rest with
  | nil =>
    intro s₀ fuel segments inh vs _ hget h t ops op ht hops hop
    cases fuel with
    | zero => simp [dfsVisits] at h
    | succ fuel =>
      simp only [dfsVisits, hget s₀ (List.mem_cons_self _ _)] at h
      obtain ⟨more, hr, -, -, -⟩ := forEach_collect_ok _ _ _ _ h
      simp only [List.getLast?_singleton, Option.some.injEq] at ht
      subst ht
      rw [hr]
      exact List.mem_append_left _ ((mem_ownVisits _ _ _ _).mpr ⟨ops, op, hops, hop, rfl⟩)
  | cons s₁ rest ih =>
    intro s₀ fuel segments inh vs hchain hget h t ops op ht hops hop
    cases fuel with
    | zero => simp [dfsVisits] at h
    | succ fuel =>
      simp only [dfsVisits, hget s₀ (List.mem_cons_self _ _)] at h
      obtain ⟨more, hr, -, hsup, -⟩ := forEach_collect_ok _ _ _ _ h
      obtain ⟨hedge, hchain'⟩ := List.chain'_cons.mp hchain
      obtain ⟨l, hl, hsub⟩ := hsup (segmentId s₁) hedge
      rw [List.getLast?_cons_cons] at ht
      have hv := ih s₁ fuel _ _ l hchain' (fun x hx => hget x (List.mem_cons_of_mem _ hx)) hl
        t ops op ht hops hop
      rw [hr]
      apply List.mem_append_right
      have := hsub _ hv
      simpa [List.append_assoc] using this

theorem visits_chain (graph : APIGraph) (hf : Forest graph) (c : List PathSegment)
    (s : PathSegment) (hc : RootChain graph c s) (op : Operation)
    (hop : op ∈ graph.Operations) (hseg : op.PathSegmentId = segmentId s) (fuel : Nat)
    (vs : List Visit) (h : visits fuel graph = .ok vs) :
    ({ path := fullPath (chainParts c), newParams := chainPathParams c, op := op } : Visit)
      ∈ vs := by
  obtain ⟨hchain, hmem, ⟨r, hhead, hroot⟩, hlast⟩ := hc
  cases c with
  | nil => simp at hhead
  | cons r' rest =>
    simp only [List.head?_cons, Option.some.injEq] at hhead
    subst hhead
    unfold visits at h
    obtain ⟨more, hr, -, hsup, -⟩ := forEach_collect_ok _ _ _ _ h
    obtain ⟨l, hl, hsub⟩ := hsup r' (hmem r' (List.mem_cons_self _ _))
    have hu : ¬ (buildUsed graph.Edges).getD (segmentId r') false = true := by
      rw [used_getD]; exact hroot
    simp only [hu, if_false] at hl
    obtain ⟨ops, hops, hopmem⟩ := opsBySegment_get?_of_mem graph.Operations op hop
    rw [hseg] at hops
    have hv := dfsVisits_chain _ _ _ rest r' fuel [] [] l
      (List.Chain'.imp (fun a b hab => (mem_graphMap_getD graph.Edges _ _).mpr hab) hchain)
      (fun x hx => idToSegment_get?_of_mem graph.Segments hf.uniqueIds x (hmem x hx)
        (hf.variants x (hmem x hx)))
      hl s ops op hlast hops hopmem
    rw [hr, List.nil_append]
    have hv' := hsub _ hv
    simp only [List.nil_append, foldl_segmentParams, ← chainParts_eq] at hv'
    exact hv'

/-- In a forest every listed segment is at the end of a chain from a root. -/
theorem exists_rootChain (graph : APIGraph) (hf : Forest graph) (s : PathSegment)
    (hs : s ∈ graph.Segments) : ∃ c, RootChain graph c s := by
  have hstep : ∀ k : Nat, (∃ c, RootChain graph c s) ∨
      ∃ c : List PathSegment, c.length = k + 1 ∧
        List.Chain' (fun a b => EdgeRel graph (segmentId a) (segmentId b)) c ∧
        (∀ x ∈ c, x ∈ graph.Segments) ∧ c.getLast? = some s := by
    intro k
    induction k with
    | zero => exact Or.inr ⟨[s], rfl, List.chain'_singleton s, by simpa using hs, rfl⟩
    | succ k ih =>
      rcases ih with h | ⟨c, hlen, hchain, hmem, hlast⟩
      · exact Or.inl h
      · cases c with
        | nil => simp at hlen
        | cons x c =>
          by_cases hroot : segmentId x ∈ graph.Edges.map Edge.To
          · obtain ⟨e, he, hto⟩ := List.mem_map.mp hroot
            obtain ⟨y, hy, hyid⟩ := List.mem_map.mp (hf.endpoints e he).1
            refine Or.inr ⟨y :: x :: c, by simp [hlen], ?_, ?_, ?_⟩
            · refine List.chain'_cons.mpr ⟨?_, hchain⟩
              show ({ From := segmentId y, To := segmentId x } : Edge) ∈ graph.Edges
              rw [hyid, ← hto]
              exact he
            · intro z hz
              rcases List.mem_cons.mp hz with rfl | hz
              · exact hy
              · exact hmem z hz
            · rw [List.getLast?_cons_cons]; exact hlast
          · exact Or.inl ⟨x :: c, hchain, hmem, ⟨x, rfl, hroot⟩, hlast⟩
  rcases hstep graph.Segments.length with h | ⟨c, hlen, hchain, hmem, -⟩
  · exact h
  · exfalso
    have hchain' : List.Chain' (EdgeRel graph) (c.map segmentId) :=
      (List.chain'_map segmentId).mpr hchain
    have hnodup := chain_nodup hf.acyclic _ hchain'
    have hsub : c.map segmentId ⊆ graph.Segments.map segmentId := by
      intro id hid
      obtain ⟨x, hx, rfl⟩ := List.mem_map.mp hid
      exact List.mem_map_of_mem segmentId (hmem x hx)
    have hle := (List.subperm_of_subset hnodup hsub).length_le
    simp only [List.length_map] at hle
    omega

theorem lookupEntry_foldl_isSome (toLower : String → String) (vs : List Visit)
    (paths : GoMap String (GoMap String Path)) (p m : String)
    (h : (lookupEntry paths p m).isSome) :
    (lookupEntry (vs.foldl (applyVisit toLower) paths) p m).isSome := by
  induction vs generalizing paths with
  | nil => exact h
  | cons v vs ih =>
    apply ih
    rw [lookupEntry_applyVisit]
    split
    · rfl
    · exact h

theorem lookupEntry_foldl_of_mem (toLower : String → String) (vs : List Visit) (v : Visit)
    (hv : v ∈ vs) (paths : GoMap String (GoMap String Path)) :
    ∃ e, lookupEntry (vs.foldl (applyVisit toLower) paths) v.path (toLower v.op.Method) =
      some e := by
  obtain ⟨pre, post, rfl⟩ := List.append_of_mem hv
  rw [List.foldl_append, List.foldl_cons]
  apply Option.isSome_iff_exists.mp
  apply lookupEntry_foldl_isSome
  simp [lookupEntry_applyVisit]

theorem mem_keys_of_lookupEntry (paths : GoMap String (GoMap String Path)) (p m : String)
    (e : Path) (h : lookupEntry paths p m = some e) : p ∈ paths.keys := by
  rw [← GoMap.isSome_get?_iff]
  unfold lookupEntry at h
  cases hp : paths.get? p with
  | none => simp [hp] at h
  | some inner => rfl

theorem acyclic_of_rank (graph : APIGraph) (rank : String → Nat)
    (h : ∀ e ∈ graph.Edges, rank e.From < rank e.To) :
    ∀ id, ¬ Relation.TransGen (EdgeRel graph) id id := by
  have hlt : ∀ a b, Relation.TransGen (EdgeRel graph) a b → rank a < rank b := by
    intro a b hab
    induction hab with
    | single hab => exact h _ hab
    | tail _ hbc ih => exact Nat.lt_trans ih (h _ hbc)
  intro id hid
  exact Nat.lt_irrefl _ (hlt id id hid)

/-- On a forest every run with a recursion budget of at least the number of
segments returns, with the same sequence of stores. -/
theorem forest_run (toLower : String → String) (graph : APIGraph) (hf : Forest graph) :
    ∃ vs, ∀ fuel, graph.Segments.length ≤ fuel →
      visits fuel graph = .ok vs ∧
      buildOpenAPI toLower fuel graph =
        .ok (some { OpenAPI := "3.0.0",
                    Info := [("title", "Generated API"), ("version", "1.0.0")],
                    Paths := vs.foldl (applyVisit toLower) [] }, none) := by
  obtain ⟨vs, hvs⟩ := visits_terminates graph hf
  refine ⟨vs, fun fuel hle => ⟨hvs fuel hle, ?_⟩⟩
  exact (buildOpenAPI_ok_iff toLower fuel graph _).mpr ⟨vs, hvs fuel hle, rfl⟩

theorem chainGraph_forest : Forest chainGraph :=
  ⟨by decide, by decide, by decide, by decide, acyclic_of_rank chainGraph chainRank (by decide)⟩

theorem chainGraph_rootChain :
    RootChain chainGraph chainSegments (.Static ⟨"s2", "orders"⟩) :=
  ⟨List.chain'_cons.mpr ⟨by decide, List.chain'_cons.mpr ⟨by decide, List.chain'_singleton _⟩⟩,
    by decide, ⟨_, rfl, by decide⟩, rfl⟩

/-! ## Paths and parameters on forests -/

/-- C2: on a graph with unique segment ids whose edges form a forest over the
listed segments, for every operation attached to a listed segment `s`: a chain
from a root to `s` exists, every run with a recursion budget of at least the
number of segments returns a document, and for every chain from a root to `s`
the paths map has the key "/" followed by the "/"-joined parts of that chain
(the name of a `Static` segment, the name in braces of a `Param` segment) with an
entry at the lower-cased method; when no later store goes to the same path and
method, the summary of that entry is the operation's id.  The key is computed
from the chain of `s` alone. -/
theorem path_of_root_chain (toLower : String → String) (graph : APIGraph)
    (hf : Forest graph) (s : PathSegment) (hs : s ∈ graph.Segments) (op : Operation)
    (hop : op ∈ graph.Operations) (hseg : op.PathSegmentId = segmentId s) :
    (∃ c, RootChain graph c s) ∧
    ∃ vs, ∀ fuel, graph.Segments.length ≤ fuel →
      visits fuel graph = .ok vs ∧
      ∃ doc, buildOpenAPI toLower fuel graph = .ok (some doc, none) ∧
        ∀ c, RootChain graph c s →
          fullPath (chainParts c) = "/" ++ "/".intercalate (chainParts c) ∧
          fullPath (chainParts c) ∈ doc.Paths.keys ∧
          (∃ e, lookupEntry doc.Paths (fullPath (chainParts c)) (toLower op.Method) = some e) ∧
          (LastStore toLower vs
              { path := fullPath (chainParts c), newParams := chainPathParams c, op := op } →
            ∃ e, lookupEntry doc.Paths (fullPath (chainParts c)) (toLower op.Method) = some e ∧
              e.Summary = op.Id) := by
  refine ⟨exists_rootChain graph hf s hs, ?_⟩
  obtain ⟨vs, hrun⟩ := forest_run toLower graph hf
  refine ⟨vs, fun fuel hle => ⟨(hrun fuel hle).1, _, (hrun fuel hle).2, ?_⟩⟩
  intro c hc
  have hv := visits_chain graph hf c s hc op hop hseg fuel vs (hrun fuel hle).1
  obtain ⟨e, he⟩ := lookupEntry_foldl_of_mem toLower vs _ hv []
  refine ⟨rfl, mem_keys_of_lookupEntry _ _ _ e he, ⟨e, he⟩, ?_⟩
  rintro ⟨pre, post, rfl, hpost⟩
  exact ⟨_, lookupEntry_foldl_of_last toLower pre post _ hpost [], rfl⟩

theorem path_of_root_chain_witness :
    Forest chainGraph ∧ RootChain chainGraph chainSegments (.Static ⟨"s2", "orders"⟩) ∧
    "/users/\x7bid\x7d/orders" ∈ chainDoc.Paths.keys ∧
    ∃ e, lookupEntry chainDoc.Paths "/users/\x7bid\x7d/orders" "get" = some e := by
  refine ⟨chainGraph_forest, chainGraph_rootChain, ?_⟩
  obtain ⟨-, vs, hall⟩ := path_of_root_chain asciiLower chainGraph chainGraph_forest
    (.Static ⟨"s2", "orders"⟩) (by decide) chainOp (by decide) rfl
  obtain ⟨-, doc, hdoc, hc⟩ := hall 3 (by decide)
  have hrun : buildOpenAPI asciiLower 3 chainGraph = .ok (some chainDoc, none) := by decide
  rw [hrun] at hdoc
  simp only [Except.ok.injEq, Prod.mk.injEq, Option.some.injEq, and_true] at hdoc
  subst hdoc
  obtain ⟨-, hkey, hentry, -⟩ := hc chainSegments chainGraph_rootChain
  have hpath : fullPath (chainParts chainSegments) = "/users/\x7bid\x7d/orders" := by decide
  have hm : asciiLower chainOp.Method = "get" := by decide
  rw [hpath] at hkey hentry
  rw [hm] at hentry
  exact ⟨hkey, hentry⟩

/-- C1: on a graph with unique segment ids whose edges form a forest over the
listed segments, for every operation attached to a listed segment `s` and every
chain from a root to `s`: every run with a recursion budget of at least the
number of segments returns a document, and when no later store goes to the same
full path and lower-cased method, the parameters of the entry stored for the
operation are exactly one path parameter per `Param` segment of the chain in root
to leaf order (name of the segment, in = "path", required, schema by
`parameterSchema`, example copied) followed by one query parameter per query
parameter of the operation in declared order (in = "query", not required, schema
by `parameterSchema`, example copied); nothing of another branch appears. -/
theorem parameters_of_root_chain (toLower : String → String) (graph : APIGraph)
    (hf : Forest graph) (s : PathSegment) (hs : s ∈ graph.Segments) (op : Operation)
    (hop : op ∈ graph.Operations) (hseg : op.PathSegmentId = segmentId s) :
    (∃ c, RootChain graph c s) ∧
    ∃ vs, ∀ fuel, graph.Segments.length ≤ fuel →
      visits fuel graph = .ok vs ∧
      ∃ doc, buildOpenAPI toLower fuel graph = .ok (some doc, none) ∧
        ∀ c, RootChain graph c s →
          ({ path := fullPath (chainParts c), newParams := chainPathParams c, op := op } :
            Visit) ∈ vs ∧
          (LastStore toLower vs
              { path := fullPath (chainParts c), newParams := chainPathParams c, op := op } →
            ∃ e, lookupEntry doc.Paths (fullPath (chainParts c)) (toLower op.Method) = some e ∧
              e.Parameters = chainPathParams c ++ mappedQueryParams op) := by
  refine ⟨exists_rootChain graph hf s hs, ?_⟩
  obtain ⟨vs, hrun⟩ := forest_run toLower graph hf
  refine ⟨vs, fun fuel hle => ⟨(hrun fuel hle).1, _, (hrun fuel hle).2, ?_⟩⟩
  intro c hc
  refine ⟨visits_chain graph hf c s hc op hop hseg fuel vs (hrun fuel hle).1, ?_⟩
  rintro ⟨pre, post, rfl, hpost⟩
  exact ⟨_, lookupEntry_foldl_of_last toLower pre post _ hpost [], allParams_eq _ _⟩

theorem parameters_of_root_chain_witness :
    Forest chainGraph ∧ RootChain chainGraph chainSegments (.Static ⟨"s2", "orders"⟩) ∧
    ∃ e, lookupEntry chainDoc.Paths "/users/\x7bid\x7d/orders" "get" = some e ∧
      e.Parameters = [{ Name := "id", In := "path", Required := true,
                        Schema := { Type_ := "string", Format := "uuid" }, Example := "abc" }] := by
  refine ⟨chainGraph_forest, chainGraph_rootChain, ?_⟩
  obtain ⟨-, vs, hall⟩ := parameters_of_root_chain asciiLower chainGraph chainGraph_forest
    (.Static ⟨"s2", "orders"⟩) (by decide) chainOp (by decide) rfl
  obtain ⟨hvs, doc, hdoc, hc⟩ := hall 3 (by decide)
  have hrun : buildOpenAPI asciiLower 3 chainGraph = .ok (some chainDoc, none) := by decide
  rw [hrun] at hdoc
  simp only [Except.ok.injEq, Prod.mk.injEq, Option.some.injEq, and_true] at hdoc
  subst hdoc
  have hvs' : visits 3 chainGraph =
      .ok [{ path := fullPath (chainParts chainSegments),
             newParams := chainPathParams chainSegments, op := chainOp }] := by decide
  rw [hvs'] at hvs
  have hvs'' := Except.ok.inj hvs
  obtain ⟨-, hlast⟩ := hc chainSegments chainGraph_rootChain
  obtain ⟨e, he, hparams⟩ := hlast ⟨[], [], hvs''.symm, by simp⟩
  have hpath : fullPath (chainParts chainSegments) = "/users/\x7bid\x7d/orders" := by decide
  have hm : asciiLower chainOp.Method = "get" := by decide
  have hp : chainPathParams chainSegments ++ mappedQueryParams chainOp =
      [{ Name := "id", In := "path", Required := true,
         Schema := { Type_ := "string", Format := "uuid" }, Example := "abc" }] := by decide
  rw [hpath, hm] at he
  rw [hp] at hparams
  exact ⟨e, he, hparams⟩

/-! ## Disjoint graphs side by side -/

/-- Two triples of lookup maps that agree on a set of ids closed under children
give the same result to a call of `dfs` on an id of that set. -/
theorem dfsVisits_agree (I : GoMap String PathSegment) (G : GoMap String (List String))
    (O : GoMap String (List Operation)) (I' : GoMap String PathSegment)
    (G' : GoMap String (List String)) (O' : GoMap String (List Operation))
    (S : String → Prop)
    (hI : ∀ id, S id → I'.get? id = I.get? id)
    (hG : ∀ id, S id → G'.getD id [] = G.getD id [])
    (hO : ∀ id, S id → O'.get? id = O.get? id)
    (hclosed : ∀ id, S id → ∀ c ∈ G.getD id [], S c) :
    ∀ (fuel : Nat) (id : String) (segments : List String) (inh : List Parameter)
      (l : List Visit), S id →
      dfsVisits I G O fuel id segments inh = .ok l →
      dfsVisits I' G' O' fuel id segments inh = .ok l := by
  intro fuel
  induction fuel with
  | zero => intro id segments inh l _ h; simp [dfsVisits] at h
  | succ fuel ih =>
    intro id segments inh l hid h
    rw [dfsVisits] at h ⊢
    rw [hI id hid, hG id hid, hO id hid]
    cases hseg : I.get? id with
    | none => simp [hseg] at h
    | some seg =>
      simp only [hseg] at h ⊢
      exact forEach_collect_congr _ _ _
        (fun child hchild l' hl' => ih child _ _ l' (hclosed id hid child hchild) hl') _ _ h

theorem idToSegment_append_left (xs ys : List PathSegment) (id : String)
    (h : id ∉ ys.map segmentId) :
    (buildIdToSegment (xs ++ ys)).get? id = (buildIdToSegment xs).get? id := by
  unfold buildIdToSegment
  rw [List.foldl_append]
  generalize List.foldl _ [] xs = m
  induction ys using List.reverseRecOn with
  | nil => rfl
  | append_singleton ys y ih =>
    rw [List.foldl_append, List.foldl_cons, List.foldl_nil, idToSegment_step]
    simp only [List.map_append, List.map_cons, List.map_nil, List.mem_append,
      List.mem_singleton, not_or] at h
    have hne : ¬ segmentId y = id := fun hh => h.2 hh.symm
    simp only [hne, and_false, if_false]
    exact ih h.1

theorem idToSegment_append_right (xs ys : List PathSegment) (id : String)
    (h : id ∉ xs.map segmentId) :
    (buildIdToSegment (xs ++ ys)).get? id = (buildIdToSegment ys).get? id := by
  have hx := idToSegment_get?_none xs id h
  unfold buildIdToSegment at hx ⊢
  rw [List.foldl_append]
  generalize List.foldl _ [] xs = m at hx
  induction ys using List.reverseRecOn with
  | nil => simpa [GoMap.get?] using hx
  | append_singleton ys y ih =>
    rw [List.foldl_append, List.foldl_append, List.foldl_cons, List.foldl_nil,
      List.foldl_cons, List.foldl_nil, idToSegment_step, idToSegment_step, ih]

theorem graphMap_append_left (xs ys : List Edge) (id : String)
    (h : ∀ e ∈ ys, e.From ≠ id) :
    (buildGraphMap (xs ++ ys)).getD id [] = (buildGraphMap xs).getD id [] := by
  rw [graphMap_getD, graphMap_getD, List.filter_append]
  have : ys.filter (fun e => e.From = id) = [] := by
    rw [List.filter_eq_nil_iff]
    intro e he
    simpa using h e he
  rw [this, List.append_nil]

theorem graphMap_append_right (xs ys : List Edge) (id : String)
    (h : ∀ e ∈ xs, e.From ≠ id) :
    (buildGraphMap (xs ++ ys)).getD id [] = (buildGraphMap ys).getD id [] := by
  rw [graphMap_getD, graphMap_getD, List.filter_append]
  have : xs.filter (fun e => e.From = id) = [] := by
    rw [List.filter_eq_nil_iff]
    intro e he
    simpa using h e he
  rw [this, List.nil_append]

theorem opsBySegment_append_left (xs ys : List Operation) (id : String)
    (h : ∀ op ∈ ys, op.PathSegmentId ≠ id) :
    (buildOpsBySegment (xs ++ ys)).get? id = (buildOpsBySegment xs).get? id := by
  rw [opsBySegment_get?, opsBySegment_get?, List.filter_append]
  have : ys.filter (fun op => op.PathSegmentId = id) = [] := by
    rw [List.filter_eq_nil_iff]
    intro op hop
    simpa using h op hop
  rw [this, List.append_nil]

theorem opsBySegment_append_right (xs ys : List Operation) (id : String)
    (h : ∀ op ∈ xs, op.PathSegmentId ≠ id) :
    (buildOpsBySegment (xs ++ ys)).get? id = (buildOpsBySegment ys).get? id := by
  rw [opsBySegment_get?, opsBySegment_get?, List.filter_append]
  have : xs.filter (fun op => op.PathSegmentId = id) = [] := by
    rw [List.filter_eq_nil_iff]
    intro op hop
    simpa using h op hop
  rw [this, List.nil_append]

theorem used_append (xs ys : List Edge) (id : String) :
    (buildUsed (xs ++ ys)).getD id false = true ↔
      (buildUsed xs).getD id false = true ∨ (buildUsed ys).getD id false = true := by
  simp only [used_getD, List.map_append, List.mem_append]

/-- The stores of a run on two disjoint graphs side by side are the stores of a
run on the first followed by those of a run on the second. -/
theorem visits_join (g₁ g₂ : APIGraph)
    (hdisj : ∀ id ∈ g₁.Segments.map segmentId, id ∉ g₂.Segments.map segmentId)
    (he₁ : ∀ e ∈ g₁.Edges,
      e.From ∈ g₁.Segments.map segmentId ∧ e.To ∈ g₁.Segments.map segmentId)
    (he₂ : ∀ e ∈ g₂.Edges,
      e.From ∈ g₂.Segments.map segmentId ∧ e.To ∈ g₂.Segments.map segmentId)
    (hops₁ : ∀ op ∈ g₁.Operations, op.PathSegmentId ∈ g₁.Segments.map segmentId)
    (hops₂ : ∀ op ∈ g₂.Operations, op.PathSegmentId ∈ g₂.Segments.map segmentId)
    (fuel : Nat) (vs₁ vs₂ : List Visit)
    (h₁ : visits fuel g₁ = .ok vs₁) (h₂ : visits fuel g₂ = .ok vs₂) :
    visits fuel (joinGraphs g₁ g₂) = .ok (vs₁ ++ vs₂) := by
  have hdisj' : ∀ id ∈ g₂.Segments.map segmentId, id ∉ g₁.Segments.map segmentId :=
    fun id h₂' h₁' => hdisj id h₁' h₂'
  unfold visits at h₁ h₂ ⊢
  simp only [joinGraphs]
  rw [forEach_append]
  have hA := forEach_collect_congr _
    (fun s => if (buildUsed (g₁.Edges ++ g₂.Edges)).getD (segmentId s) false = true then .ok []
      else dfsVisits (buildIdToSegment (g₁.Segments ++ g₂.Segments))
        (buildGraphMap (g₁.Edges ++ g₂.Edges))
        (buildOpsBySegment (g₁.Operations ++ g₂.Operations)) fuel (segmentId s) [] [])
    g₁.Segments ?_ [] vs₁ h₁
  · rw [hA]
    obtain ⟨rest, hr, -, -, hall⟩ := forEach_collect_ok _ _ _ _ h₂
    rw [List.nil_append] at hr
    subst hr
    refine forEach_collect_congr _ _ g₂.Segments ?_ vs₁ (vs₁ ++ vs₂) (hall vs₁)
    intro s hs l hl
    have hid : segmentId s ∈ g₂.Segments.map segmentId := List.mem_map_of_mem segmentId hs
    have hnot : ¬ (buildUsed g₁.Edges).getD (segmentId s) false = true := by
      rw [used_getD]
      intro hmem
      obtain ⟨e, he, hto⟩ := List.mem_map.mp hmem
      exact hdisj' _ hid (hto ▸ (he₁ e he).2)
    by_cases hu : (buildUsed g₂.Edges).getD (segmentId s) false = true
    · have huj : (buildUsed (g₁.Edges ++ g₂.Edges)).getD (segmentId s) false = true :=
        (used_append _ _ _).mpr (Or.inr hu)
      simp only [hu, if_true] at hl
      simp only [huj, if_true]
      exact hl
    · have huj : ¬ (buildUsed (g₁.Edges ++ g₂.Edges)).getD (segmentId s) false = true := by
        rw [used_append]; exact fun h => h.elim hnot hu
      simp only [hu, if_false] at hl
      simp only [huj, if_false]
      refine dfsVisits_agree _ _ _ _ _ _ (fun id => id ∈ g₂.Segments.map segmentId)
        ?_ ?_ ?_ ?_ fuel _ _ _ l hid hl
      · intro id hid'
        exact idToSegment_append_right _ _ id (hdisj' id hid')
      · intro id hid'
        apply graphMap_append_right
        intro e he hfrom
        exact hdisj' id hid' (hfrom ▸ (he₁ e he).1)
      · intro id hid'
        apply opsBySegment_append_right
        intro op hop hseg
        exact hdisj' id hid' (hseg ▸ hops₁ op hop)
      · intro id _ c hc
        exact (he₂ _ ((mem_graphMap_getD g₂.Edges id c).mp hc)).2
  · intro s hs l hl
    have hid : segmentId s ∈ g₁.Segments.map segmentId := List.mem_map_of_mem segmentId hs
    have hnot : ¬ (buildUsed g₂.Edges).getD (segmentId s) false = true := by
      rw [used_getD]
      intro hmem
      obtain ⟨e, he, hto⟩ := List.mem_map.mp hmem
      exact hdisj _ hid (hto ▸ (he₂ e he).2)
    by_cases hu : (buildUsed g₁.Edges).getD (segmentId s) false = true
    · have huj : (buildUsed (g₁.Edges ++ g₂.Edges)).getD (segmentId s) false = true :=
        (used_append _ _ _).mpr (Or.inl hu)
      simp only [hu, if_true] at hl
      simp only [huj, if_true]
      exact hl
    · have huj : ¬ (buildUsed (g₁.Edges ++ g₂.Edges)).getD (segmentId s) false = true := by
        rw [used_append]; exact fun h => h.elim hu hnot
      simp only [hu, if_false] at hl
      simp only [huj, if_false]
      refine dfsVisits_agree _ _ _ _ _ _ (fun id => id ∈ g₁.Segments.map segmentId)
        ?_ ?_ ?_ ?_ fuel _ _ _ l hid hl
      · intro id hid'
        exact idToSegment_append_left _ _ id (hdisj id hid')
      · intro id hid'
        apply graphMap_append_left
        intro e he hfrom
        exact hdisj id hid' (hfrom ▸ (he₂ e he).1)
      · intro id hid'
        apply opsBySegment_append_left
        intro op hop hseg
        exact hdisj id hid' (hseg ▸ hops₂ op hop)
      · intro id _ c hc
        exact (he₁ _ ((mem_graphMap_getD g₁.Edges id c).mp hc)).2

/-- A lookup after a sequence of stores on top of a map `q` yields what the stores
alone yield, and what `q` holds where they yield nothing. -/
theorem lookupEntry_foldl_base (toLower : String → String) (vs : List Visit)
    (q : GoMap String (GoMap String Path)) (p m : String) :
    lookupEntry (vs.foldl (applyVisit toLower) q) p m =
      match lookupEntry (vs.foldl (applyVisit toLower) []) p m with
      | some e => some e
      | none => lookupEntry q p m := by
  induction vs using List.reverseRecOn with
  | nil => rfl
  | append_singleton vs w ih =>
    simp only [List.foldl_append, List.foldl_cons, List.foldl_nil, lookupEntry_applyVisit]
    by_cases hk : w.path = p ∧ toLower w.op.Method = m
    · simp only [hk, and_self, if_true]
    · simp only [hk, if_false]
      exact ih

theorem usersTree_forest : Forest usersTree :=
  ⟨by decide, by decide, by decide, by decide, acyclic_of_rank usersTree usersRank (by decide)⟩

theorem ordersTree_forest : Forest ordersTree :=
  ⟨by decide, by decide, by decide, by decide,
    acyclic_of_rank ordersTree (fun _ => 0) (by decide)⟩

/-- C5: roots are traversed independently.  For two forest-shaped graphs with
disjoint segment ids, each one's edges and operations mentioning only its own
segments, every run with a recursion budget of at least the number of segments
returns a document for each graph and for the graph made of the first followed by
the second; the paths of the latter hold every entry of the second graph's
document unchanged, every entry of the first graph's document whose path and
method the second does not produce unchanged, and nothing else. -/
theorem roots_traversed_independently (toLower : String → String) (g₁ g₂ : APIGraph)
    (hf₁ : Forest g₁) (hf₂ : Forest g₂)
    (hdisj : ∀ id ∈ g₁.Segments.map segmentId, id ∉ g₂.Segments.map segmentId)
    (hops₁ : ∀ op ∈ g₁.Operations, op.PathSegmentId ∈ g₁.Segments.map segmentId)
    (hops₂ : ∀ op ∈ g₂.Operations, op.PathSegmentId ∈ g₂.Segments.map segmentId)
    (fuel : Nat) (hfuel : g₁.Segments.length + g₂.Segments.length ≤ fuel) :
    ∃ d₁ d₂ d, buildOpenAPI toLower fuel g₁ = .ok (some d₁, none) ∧
      buildOpenAPI toLower fuel g₂ = .ok (some d₂, none) ∧
      buildOpenAPI toLower fuel (joinGraphs g₁ g₂) = .ok (some d, none) ∧
      (∀ p m e, lookupEntry d₂.Paths p m = some e → lookupEntry d.Paths p m = some e) ∧
      (∀ p m e, lookupEntry d₁.Paths p m = some e → lookupEntry d₂.Paths p m = none →
        lookupEntry d.Paths p m = some e) ∧
      (∀ p m e, lookupEntry d.Paths p m = some e →
        lookupEntry d₂.Paths p m = some e ∨
          (lookupEntry d₂.Paths p m = none ∧ lookupEntry d₁.Paths p m = some e)) := by
  obtain ⟨vs₁, hrun₁⟩ := forest_run toLower g₁ hf₁
  obtain ⟨vs₂, hrun₂⟩ := forest_run toLower g₂ hf₂
  obtain ⟨hv₁, hb₁⟩ := hrun₁ fuel (by omega)
  obtain ⟨hv₂, hb₂⟩ := hrun₂ fuel (by omega)
  have hv := visits_join g₁ g₂ hdisj hf₁.endpoints hf₂.endpoints hops₁ hops₂ fuel vs₁ vs₂ hv₁ hv₂
  have hb := (buildOpenAPI_ok_iff toLower fuel (joinGraphs g₁ g₂) _).mpr ⟨_, hv, rfl⟩
  refine ⟨_, _, _, hb₁, hb₂, hb, ?_, ?_, ?_⟩
  · intro p m e h
    simp only at h ⊢
    rw [List.foldl_append, lookupEntry_foldl_base, h]
  · intro p m e h hnone
    simp only at h hnone ⊢
    rw [List.foldl_append, lookupEntry_foldl_base, hnone]
    exact h
  · intro p m e h
    simp only at h ⊢
    rw [List.foldl_append, lookupEntry_foldl_base] at h
    cases h₂ : lookupEntry (List.foldl (applyVisit toLower) [] vs₂) p m with
    | none =>
      rw [h₂] at h
      exact Or.inr ⟨rfl, h⟩
    | some e' =>
      rw [h₂] at h
      exact Or.inl h

theorem roots_traversed_independently_witness :
    Forest usersTree ∧ Forest ordersTree ∧
    ∃ d, buildOpenAPI asciiLower 3 (joinGraphs usersTree ordersTree) = .ok (some d, none) ∧
      (∃ e, lookupEntry d.Paths "/users" "get" = some e ∧ e.Summary = "listUsers") ∧
      (∃ e, lookupEntry d.Paths "/orders" "post" = some e ∧ e.Summary = "addOrder") := by
  refine ⟨usersTree_forest, ordersTree_forest, ?_⟩
  obtain ⟨d₁, d₂, d, h₁, h₂, h, hsecond, hfirst, -⟩ :=
    roots_traversed_independently asciiLower usersTree ordersTree usersTree_forest
      ordersTree_forest (by decide) (by decide) (by decide) 3 (by decide)
  have hu : buildOpenAPI asciiLower 3 usersTree = .ok (some usersDoc, none) := by decide
  have ho : buildOpenAPI asciiLower 3 ordersTree = .ok (some ordersDoc, none) := by decide
  rw [hu] at h₁
  rw [ho] at h₂
  simp only [Except.ok.injEq, Prod.mk.injEq, Option.some.injEq, and_true] at h₁ h₂
  subst h₁ h₂
  exact ⟨d, h,
    ⟨_, hfirst "/users" "get" _ (by decide : lookupEntry usersDoc.Paths "/users" "get" =
        some { Summary := "listUsers", Parameters := [],
               Responses := [("200", [("description", "response")])] }) (by decide), rfl⟩,
    ⟨_, hsecond "/orders" "post" _ (by decide : lookupEntry ordersDoc.Paths "/orders" "post" =
        some { Summary := "addOrder", Parameters := [],
               Responses := [("201", [("description", "response")])] }), rfl⟩⟩

/-! ## Order and location of parameters -/

/-- C12: in a returned document every parameter of every entry has either
in = "path" and required = true, or in = "query" and required = false; and the
parameters list of each entry is a run of path parameters followed by a run of
query parameters, so every path parameter precedes every query parameter. -/
theorem parameter_locations (toLower : String → String) (fuel : Nat) (graph : APIGraph)
    (doc : OpenAPI) (h : buildOpenAPI toLower fuel graph = .ok (some doc, none))
    (p m : String) (e : Path) (he : lookupEntry doc.Paths p m = some e) :
    (∀ q ∈ e.Parameters,
      (q.In = "path" ∧ q.Required = true) ∨ (q.In = "query" ∧ q.Required = false)) ∧
    (∃ ps qs, e.Parameters = ps ++ qs ∧
      (∀ q ∈ ps, q.In = "path" ∧ q.Required = true) ∧
      (∀ q ∈ qs, q.In = "query" ∧ q.Required = false)) ∧
    (∀ (i j : Nat) (a b : Parameter), e.Parameters[i]? = some a → e.Parameters[j]? = some b →
      a.In = "path" → b.In = "query" → i < j) := by
  obtain ⟨vs, v, hvs, hlast, -, -, rfl⟩ := entry_is_last_store toLower fuel graph doc h p m e he
  obtain ⟨-, hparams⟩ := visits_sound fuel graph vs hvs v hlast.mem
  have hps : ∀ q ∈ v.newParams, q.In = "path" ∧ q.Required = true := by
    intro q hq
    obtain ⟨sp, rfl⟩ := hparams q hq
    exact ⟨rfl, rfl⟩
  have hqs : ∀ q ∈ mappedQueryParams v.op, q.In = "query" ∧ q.Required = false := by
    intro q hq
    simp only [mappedQueryParams, List.mem_map] at hq
    obtain ⟨qp, -, rfl⟩ := hq
    exact ⟨rfl, rfl⟩
  have hall : (opEntry v.newParams v.op).Parameters = v.newParams ++ mappedQueryParams v.op :=
    allParams_eq _ _
  refine ⟨?_, ⟨_, _, hall, hps, hqs⟩, ?_⟩
  · intro q hq
    rw [hall] at hq
    rcases List.mem_append.mp hq with hq | hq
    · exact Or.inl (hps q hq)
    · exact Or.inr (hqs q hq)
  · intro i j a b hi hj ha hb
    rw [hall] at hi hj
    by_contra hij
    have hji : j ≤ i := Nat.le_of_not_lt hij
    by_cases hjl : j < v.newParams.length
    · rw [List.getElem?_append_left hjl] at hj
      have hmem : b ∈ v.newParams := List.getElem?_mem hj
      have := (hps b hmem).1
      rw [hb] at this
      exact absurd this (by decide)
    · have hil : v.newParams.length ≤ i := by omega
      rw [List.getElem?_append_right hil] at hi
      have hmem : a ∈ mappedQueryParams v.op := List.getElem?_mem hi
      have := (hqs a hmem).1
      rw [ha] at this
      exact absurd this (by decide)

theorem parameter_locations_witness :
    buildOpenAPI asciiLower 3 chainGraph = .ok (some chainDoc, none) ∧
    ∀ q ∈ [({ Name := "id", In := "path", Required := true,
              Schema := { Type_ := "string", Format := "uuid" }, Example := "abc" } : Parameter)],
      (q.In = "path" ∧ q.Required = true) ∨ (q.In = "query" ∧ q.Required = false) :=
  ⟨by decide,
    (parameter_locations asciiLower 3 chainGraph chainDoc (by decide)
      "/users/\x7bid\x7d/orders" "get"
      { Summary := "op",
        Parameters := [{ Name := "id", In := "path", Required := true,
                         Schema := { Type_ := "string", Format := "uuid" }, Example := "abc" }],
        Responses := [("200", [("description", "response")])] } (by decide)).1⟩

/-! ## Independence from the recursion budget and from map contents order -/

theorem forEach_congr {σ α : Type} (f f' : σ → α → Except Fault σ) (xs : List α)
    (h : ∀ a ∈ xs, ∀ s, f s a = f' s a) (s : σ) : forEach f s xs = forEach f' s xs := by
  induction xs generalizing s with
  | nil => rfl
  | cons a xs ih =>
    simp only [forEach, h a (List.mem_cons_self a xs) s]
    cases f' s a with
    | error e => rfl
    | ok s' => exact ih (fun b hb => h b (List.mem_cons_of_mem a hb)) s'

/-- The closure `dfs` reads its three lookup maps through lookups only. -/
theorem dfs_lookup_only (toLower : String → String)
    (I I' : GoMap String PathSegment) (G G' : GoMap String (List String))
    (O O' : GoMap String (List Operation))
    (hI : ∀ id, I'.get? id = I.get? id) (hG : ∀ id, G'.get? id = G.get? id)
    (hO : ∀ id, O'.get? id = O.get? id) :
    ∀ (fuel : Nat) (id : String) (segments : List String) (inh : List Parameter)
      (paths : GoMap String (GoMap String Path)),
      dfs toLower I' G' O' fuel id segments inh paths =
        dfs toLower I G O fuel id segments inh paths := by
  intro fuel
  induction fuel with
  | zero => intro id segments inh paths; rfl
  | succ fuel ih =>
    intro id segments inh paths
    rw [dfs, dfs, hI id, hO id]
    have hGd : G'.getD id [] = G.getD id [] := by simp only [GoMap.getD, hG id]
    rw [hGd]
    cases I.get? id with
    | none => rfl
    | some seg =>
      simp only
      exact forEach_congr _ _ _ (fun child _ s => ih child _ _ s) _

/-- Two runs on the same graph that return give the same result, whatever their
recursion budgets. -/
theorem buildOpenAPI_budget_independent (toLower : String → String) (graph : APIGraph)
    (fuel₁ fuel₂ : Nat) (r₁ r₂ : Option OpenAPI × Option String)
    (h₁ : buildOpenAPI toLower fuel₁ graph = .ok r₁)
    (h₂ : buildOpenAPI toLower fuel₂ graph = .ok r₂) : r₁ = r₂ := by
  obtain ⟨vs₁, hv₁, rfl⟩ := (buildOpenAPI_ok_iff toLower fuel₁ graph r₁).mp h₁
  obtain ⟨vs₂, hv₂, rfl⟩ := (buildOpenAPI_ok_iff toLower fuel₂ graph r₂).mp h₂
  have h₁' := visits_mono graph fuel₁ (max fuel₁ fuel₂) (Nat.le_max_left _ _) vs₁ hv₁
  have h₂' := visits_mono graph fuel₂ (max fuel₁ fuel₂) (Nat.le_max_right _ _) vs₂ hv₂
  rw [h₁'] at h₂'
  rw [Except.ok.inj h₂']

/-! ## Where the entries come from -/

/-- Every store of a call of `dfs` is for an operation grouped under the last
segment of a chain of looked-up segments that starts at the segment of the call
and follows the child lists, and its path is made of the parts of that chain. -/
theorem dfsVisits_origin (idToSegment : GoMap String PathSegment)
    (graphMap : GoMap String (List String)) (opsBySegment : GoMap String (List Operation))
    (hid : ∀ id seg, idToSegment.get? id = some seg → segmentId seg = id) :
    ∀ (fuel : Nat) (id : String) (segments : List String) (inh : List Parameter)
      (vs : List Visit),
      dfsVisits idToSegment graphMap opsBySegment fuel id segments inh = .ok vs →
      ∀ v ∈ vs, ∃ (c : List PathSegment) (r t : PathSegment) (ops : List Operation),
        c.head? = some r ∧ segmentId r = id ∧
        List.Chain' (fun a b => segmentId b ∈ graphMap.getD (segmentId a) []) c ∧
        (∀ x ∈ c, idToSegment.get? (segmentId x) = some x) ∧
        c.getLast? = some t ∧ opsBySegment.get? (segmentId t) = some ops ∧ v.op ∈ ops ∧
        v.path = fullPath (segments ++ c.map segmentPart) := by
  intro fuel
  induction fuel with
  | zero => intro id segments inh vs h; simp [dfsVisits] at h
  | succ fuel ih =>
    intro id segments inh vs h v hv
    simp only [dfsVisits] at h
    cases hseg : idToSegment.get? id with
    | none => simp [hseg] at h
    | some seg =>
      simp only [hseg] at h
      have hsid := hid id seg hseg
      obtain ⟨rest, hr, hsub, -, -⟩ := forEach_collect_ok _ _ _ _ h
      rw [hr] at hv
      rcases List.mem_append.mp hv with hv | hv
      · obtain ⟨l, op, hl, hop, rfl⟩ := (mem_ownVisits _ _ _ _).mp hv
        refine ⟨[seg], seg, seg, l, rfl, hsid, List.chain'_singleton seg, ?_, rfl, ?_, hop, rfl⟩
        · intro x hx
          simp only [List.mem_singleton] at hx
          subst hx
          rw [hsid]; exact hseg
        · rw [hsid]; exact hl
      · obtain ⟨child, hchild, l, hl, hvl⟩ := hsub v hv
        obtain ⟨c, r, t, ops, hhead, hrid, hchain, hget, hlast, hops, hop, hpath⟩ :=
          ih child _ _ l hl v hvl
        cases c with
        | nil => simp at hhead
        | cons r' c' =>
          simp only [List.head?_cons, Option.some.injEq] at hhead
          subst hhead
          refine ⟨seg :: r' :: c', seg, t, ops, rfl, hsid, ?_, ?_, ?_, hops, hop, ?_⟩
          · refine List.chain'_cons.mpr ⟨?_, hchain⟩
            rw [hsid, hrid]
            exact hchild
          · intro x hx
            rcases List.mem_cons.mp hx with rfl | hx
            · rw [hsid]; exact hseg
            · exact hget x hx
          · rw [List.getLast?_cons_cons]; exact hlast
          · rw [hpath]
            simp [List.append_assoc]

/-- Every store of a run is for an operation of the graph attached to the last
segment of a chain from a root, at the path made of the parts of that chain. -/
theorem visits_origin (fuel : Nat) (graph : APIGraph) (vs : List Visit)
    (h : visits fuel graph = .ok vs) :
    ∀ v ∈ vs, ∃ c s, RootChain graph c s ∧ v.op ∈ graph.Operations ∧
      v.op.PathSegmentId = segmentId s ∧ v.path = fullPath (chainParts c) := by
  intro v hv
  unfold visits at h
  obtain ⟨rest, hr, hsub, -, -⟩ := forEach_collect_ok _ _ _ _ h
  rw [hr, List.nil_append] at hv
  obtain ⟨s₀, -, l, hl, hvl⟩ := hsub v hv
  by_cases hu : (buildUsed graph.Edges).getD (segmentId s₀) false = true
  · simp only [hu, if_true, Except.ok.injEq] at hl
    rw [← hl] at hvl
    simp at hvl
  · simp only [hu, if_false] at hl
    obtain ⟨c, r, t, ops, hhead, hrid, hchain, hget, hlast, hops, hop, hpath⟩ :=
      dfsVisits_origin _ _ _
        (fun id seg hs => (idToSegment_get?_some graph.Segments id seg hs).2.1)
        fuel _ _ _ l hl v hvl
    have hopmem := (opsBySegment_mem graph.Operations _ ops hops v.op).mp hop
    refine ⟨c, t, ⟨?_, ?_, ⟨r, hhead, ?_⟩, hlast⟩, hopmem.1, hopmem.2, ?_⟩
    · exact List.Chain'.imp (fun a b hab => (mem_graphMap_getD graph.Edges _ _).mp hab) hchain
    · intro x hx
      exact (idToSegment_get?_some graph.Segments _ x (hget x hx)).1
    · rw [hrid, ← used_getD]; exact hu
    · rw [hpath, List.nil_append, chainParts_eq]

theorem GoMap.set_ne_nil {κ ν : Type} [DecidableEq κ] (m : GoMap κ ν) (k : κ) (v : ν) :
    GoMap.set m k v ≠ [] := by
  cases m with
  | nil => simp [GoMap.set]
  | cons kv m =>
    obtain ⟨k₁, v₁⟩ := kv
    by_cases h : k₁ = k <;> simp [GoMap.set, h]

theorem foldl_applyVisit_nonempty_from (toLower : String → String) (vs : List Visit) :
    ∀ (q : GoMap String (GoMap String Path)),
      (∀ p inner, q.get? p = some inner → inner ≠ []) →
      ∀ p inner, (vs.foldl (applyVisit toLower) q).get? p = some inner → inner ≠ [] := by
  induction vs with
  | nil => intro q hq; exact hq
  | cons v vs ih =>
    intro q hq
    apply ih
    intro p inner hp
    simp only [applyVisit, storeEntry, GoMap.get?_set] at hp
    by_cases hpath : v.path = p
    · simp only [hpath, if_true, Option.some.injEq] at hp
      rw [← hp]
      exact GoMap.set_ne_nil _ _ _
    · simp only [hpath, if_false] at hp
      exact hq p inner hp

theorem foldl_applyVisit_nonempty (toLower : String → String) (vs : List Visit)
    (p : String) (inner : GoMap String Path)
    (h : (vs.foldl (applyVisit toLower) []).get? p = some inner) : inner ≠ [] :=
  foldl_applyVisit_nonempty_from toLower vs [] (by simp [GoMap.get?]) p inner h

/-- C15: every entry of a returned document is produced by an operation of the
graph attached to a root-reachable segment: for the entry at a path and a method
key there is an operation with that lower-cased method and with the entry's
summary as id, and a chain of listed segments from a root along edges to the
segment of the operation, such that the path is "/" followed by the "/"-joined
parts of the chain.  Every store of the run is of that kind, so a segment that no
chain from a root reaches contributes nothing; and every path key holds at least
one method entry. -/
theorem entries_come_from_root_chains (toLower : String → String) (fuel : Nat)
    (graph : APIGraph) (doc : OpenAPI)
    (h : buildOpenAPI toLower fuel graph = .ok (some doc, none)) :
    (∀ p m e, lookupEntry doc.Paths p m = some e →
      ∃ op ∈ graph.Operations, toLower op.Method = m ∧ op.Id = e.Summary ∧
        ∃ c s, RootChain graph c s ∧ op.PathSegmentId = segmentId s ∧
          p = "/" ++ "/".intercalate (chainParts c)) ∧
    (∃ vs, visits fuel graph = .ok vs ∧
      ∀ v ∈ vs, ∃ c s, RootChain graph c s ∧ v.op.PathSegmentId = segmentId s) ∧
    (∀ p ∈ doc.Paths.keys, ∃ m e, lookupEntry doc.Paths p m = some e) := by
  obtain ⟨vs, hvs, hpaths⟩ := buildOpenAPI_doc toLower fuel graph doc h
  refine ⟨?_, ⟨vs, hvs, ?_⟩, ?_⟩
  · intro p m e he
    obtain ⟨vs', v, hvs', hlast, hp, hm, rfl⟩ :=
      entry_is_last_store toLower fuel graph doc h p m e he
    obtain ⟨c, s, hc, hop, hseg, hpath⟩ := visits_origin fuel graph vs' hvs' v hlast.mem
    exact ⟨v.op, hop, hm, rfl, c, s, hc, hseg, by rw [← hp, hpath]; rfl⟩
  · intro v hv
    obtain ⟨c, s, hc, -, hseg, -⟩ := visits_origin fuel graph vs hvs v hv
    exact ⟨c, s, hc, hseg⟩
  · intro p hp
    rw [hpaths] at hp ⊢
    have hsome := (GoMap.isSome_get?_iff _ p).mpr hp
    obtain ⟨inner, hinner⟩ := Option.isSome_iff_exists.mp hsome
    have hne := foldl_applyVisit_nonempty toLower vs p inner hinner
    cases inner with
    | nil => exact absurd rfl hne
    | cons kv inner' =>
      obtain ⟨m, e⟩ := kv
      refine ⟨m, e, ?_⟩
      simp [lookupEntry, hinner, GoMap.get?]

theorem entries_come_from_root_chains_witness :
    buildOpenAPI asciiLower 3 chainGraph = .ok (some chainDoc, none) ∧
    ∀ p ∈ chainDoc.Paths.keys, ∃ m e, lookupEntry chainDoc.Paths p m = some e :=
  ⟨by decide,
    (entries_come_from_root_chains asciiLower 3 chainGraph chainDoc (by decide)).2.2⟩

/-! ## Operations attached to unlisted segments -/

/-- The closure `dfs` reads `opsBySegment` only at ids that hit in `idToSegment`. -/
theorem dfs_ops_agree (toLower : String → String) (I : GoMap String PathSegment)
    (G : GoMap String (List String)) (O O' : GoMap String (List Operation))
    (hO : ∀ id, (I.get? id).isSome → O'.get? id = O.get? id) :
    ∀ (fuel : Nat) (id : String) (segments : List String) (inh : List Parameter)
      (paths : GoMap String (GoMap String Path)),
      dfs toLower I G O' fuel id segments inh paths =
        dfs toLower I G O fuel id segments inh paths := by
  intro fuel
  induction fuel with
  | zero => intro id segments inh paths; rfl
  | succ fuel ih =>
    intro id segments inh paths
    rw [dfs, dfs]
    cases hseg : I.get? id with
    | none => rfl
    | some seg =>
      simp only
      rw [hO id (by simp [hseg])]
      exact forEach_congr _ _ _ (fun child _ s => ih child _ _ s) _

theorem opsBySegment_withoutOrphans (graph : APIGraph) (id : String)
    (hid : id ∈ graph.Segments.map segmentId) :
    (buildOpsBySegment (withoutOrphans graph).Operations).get? id =
      (buildOpsBySegment graph.Operations).get? id := by
  have hfilter : (withoutOrphans graph).Operations.filter (fun op => op.PathSegmentId = id) =
      graph.Operations.filter (fun op => op.PathSegmentId = id) := by
    simp only [withoutOrphans, List.filter_filter]
    apply List.filter_congr
    intro op _
    by_cases h : op.PathSegmentId = id
    · simp [h, hid]
    · simp [h]
  rw [opsBySegment_get?, opsBySegment_get?, hfilter]

theorem buildOpenAPI_withoutOrphans (toLower : String → String) (fuel : Nat)
    (graph : APIGraph) :
    buildOpenAPI toLower fuel (withoutOrphans graph) = buildOpenAPI toLower fuel graph := by
  have hrun : runRoots toLower fuel (withoutOrphans graph) = runRoots toLower fuel graph := by
    unfold runRoots
    simp only
    refine forEach_congr _ _ _ ?_ _
    intro s _ paths
    show (if (buildUsed graph.Edges).getD (segmentId s) false = true then Except.ok paths
      else dfs toLower (buildIdToSegment graph.Segments) (buildGraphMap graph.Edges)
        (buildOpsBySegment (withoutOrphans graph).Operations) fuel (segmentId s) [] [] paths) = _
    by_cases hu : (buildUsed graph.Edges).getD (segmentId s) false = true
    · simp [hu]
    · simp only [hu, if_false]
      apply dfs_ops_agree
      intro id hsome
      obtain ⟨seg, hseg⟩ := Option.isSome_iff_exists.mp hsome
      obtain ⟨hmem, hid, -⟩ := idToSegment_get?_some graph.Segments id seg hseg
      exact opsBySegment_withoutOrphans graph id (hid ▸ List.mem_map_of_mem segmentId hmem)
  unfold buildOpenAPI
  rw [hrun]

/-- C11, as stated, fails: on the graph with the one segment `a` and one `GET`
operation attached to the unlisted id `x`, every run with a positive recursion
budget returns a document (with empty paths) and a nil error, and none returns a
malformed-graph error. -/
theorem orphan_operation_counterexample :
    ({ Id := "op", PathSegmentId := "x", Method := "GET", QueryParameters := [],
       StatusCodes := [200] } : Operation) ∈ orphanGraph.Operations ∧
    "x" ∉ orphanGraph.Segments.map segmentId ∧
    (∀ fuel, buildOpenAPI asciiLower (fuel + 1) orphanGraph = .ok (some emptyDoc, none)) ∧
    ¬ ∃ fuel err, buildOpenAPI asciiLower fuel orphanGraph = .ok (none, some err) := by
  refine ⟨by decide, by decide, fun fuel => rfl, ?_⟩
  rintro ⟨fuel, err, h⟩
  have := (buildOpenAPI_error_nil asciiLower fuel orphanGraph _ h).1
  simp at this

/-- C11, amended: `buildOpenAPI` has no malformed-graph error, its error result is
nil whenever it returns; an operation whose pathSegmentId is not the id of a
listed segment is ignored: every run gives the same result as on the graph
without such operations, and every store of a run is for an operation attached
to a listed segment. -/
theorem orphan_operation_ignored (toLower : String → String) (graph : APIGraph)
    (op : Operation) (hop : op ∈ graph.Operations)
    (hseg : op.PathSegmentId ∉ graph.Segments.map segmentId) :
    (∀ fuel r, buildOpenAPI toLower fuel graph = .ok r → r.2 = none ∧ ∃ doc, r.1 = some doc) ∧
    (op ∈ graph.Operations ∧ op ∉ (withoutOrphans graph).Operations) ∧
    (∀ fuel, buildOpenAPI toLower fuel graph = buildOpenAPI toLower fuel (withoutOrphans graph)) ∧
    (∀ fuel vs, visits fuel graph = .ok vs → ∀ v ∈ vs, v.op ≠ op) := by
  refine ⟨fun fuel r h => buildOpenAPI_error_nil toLower fuel graph r h, ?_,
    fun fuel => (buildOpenAPI_withoutOrphans toLower fuel graph).symm, ?_⟩
  · refine ⟨hop, ?_⟩
    intro hmem
    simp only [withoutOrphans, List.mem_filter, decide_eq_true_eq] at hmem
    exact hseg hmem.2
  · intro fuel vs hvs v hv heq
    obtain ⟨c, s, ⟨-, hmem, -, hlast⟩, -, hps, -⟩ := visits_origin fuel graph vs hvs v hv
    apply hseg
    rw [← heq, hps]
    exact List.mem_map_of_mem segmentId (hmem s (List.mem_of_mem_getLast? hlast))

theorem orphan_operation_ignored_witness :
    ({ Id := "op", PathSegmentId := "x", Method := "GET", QueryParameters := [],
       StatusCodes := [200] } : Operation) ∈ orphanGraph.Operations ∧
    "x" ∉ orphanGraph.Segments.map segmentId ∧
    ∀ fuel, buildOpenAPI asciiLower fuel orphanGraph =
      buildOpenAPI asciiLower fuel (withoutOrphans orphanGraph) :=
  ⟨by decide, by decide,
    (orphan_operation_ignored asciiLower orphanGraph ⟨"op", "x", "GET", [], [200]⟩
      (by decide) (by decide)).2.2.1⟩

/-! ## The calls of the traversal -/

theorem forEach_collect_ok_iff {α ω : Type} (g : α → Except Fault (List ω)) (xs : List α)
    (acc : List ω) :
    (∃ r, forEach (fun acc a => collect acc (g a)) acc xs = .ok r) ↔
      ∀ a ∈ xs, ∃ l, g a = .ok l := by
  constructor
  · rintro ⟨r, hr⟩ a ha
    obtain ⟨rest, -, -, hsup, -⟩ := forEach_collect_ok g xs acc r hr
    obtain ⟨l, hl, -⟩ := hsup a ha
    exact ⟨l, hl⟩
  · intro h
    exact forEach_collect_total g xs h acc

/-- A call of `dfs` returns exactly when its sequence of calls is defined. -/
theorem dfsCalls_ok_iff (idToSegment : GoMap String PathSegment)
    (graphMap : GoMap String (List String)) (opsBySegment : GoMap String (List Operation)) :
    ∀ (fuel : Nat) (parents : List String) (id : String) (segments : List String)
      (inh : List Parameter),
      (∃ cs, dfsCalls idToSegment graphMap fuel parents id = .ok cs) ↔
        ∃ vs, dfsVisits idToSegment graphMap opsBySegment fuel id segments inh = .ok vs := by
  intro fuel
  induction fuel with
  | zero => intro parents id segments inh; simp [dfsCalls, dfsVisits]
  | succ fuel ih =>
    intro parents id segments inh
    simp only [dfsCalls, dfsVisits]
    cases hseg : idToSegment.get? id with
    | none => simp
    | some seg =>
      simp only
      rw [forEach_collect_ok_iff, forEach_collect_ok_iff]
      exact forall₂_congr (fun child _ => ih _ child _ _)

theorem calls_ok_iff (fuel : Nat) (graph : APIGraph) :
    (∃ cs, calls fuel graph = .ok cs) ↔ ∃ vs, visits fuel graph = .ok vs := by
  unfold calls visits
  simp only
  rw [forEach_collect_ok_iff, forEach_collect_ok_iff]
  refine forall₂_congr (fun s _ => ?_)
  by_cases hu : (buildUsed graph.Edges).getD (segmentId s) false = true
  · simp [hu]
  · simp only [hu, if_false]
    exact dfsCalls_ok_iff _ _ _ fuel [] (segmentId s) [] []

theorem dfsCalls_succ (idToSegment : GoMap String PathSegment)
    (graphMap : GoMap String (List String)) :
    ∀ (fuel : Nat) (parents : List String) (id : String) (cs : List Call),
      dfsCalls idToSegment graphMap fuel parents id = .ok cs →
      dfsCalls idToSegment graphMap (fuel + 1) parents id = .ok cs := by
  intro fuel
  induction fuel with
  | zero => intro parents id cs h; simp [dfsCalls] at h
  | succ fuel ih =>
    intro parents id cs h
    rw [dfsCalls] at h ⊢
    cases hseg : idToSegment.get? id with
    | none => simp [hseg] at h
    | some seg =>
      simp only [hseg] at h ⊢
      exact forEach_collect_congr _ _ _ (fun child _ l hl => ih _ child l hl) _ _ h

theorem calls_mono (graph : APIGraph) (fuel fuel' : Nat) (hle : fuel ≤ fuel')
    (cs : List Call) (h : calls fuel graph = .ok cs) : calls fuel' graph = .ok cs := by
  induction hle with
  | refl => exact h
  | step _ ih =>
    unfold calls at ih ⊢
    refine forEach_collect_congr _ _ _ ?_ _ _ ih
    intro s _ l hl
    by_cases hu : (buildUsed graph.Edges).getD (segmentId s) false = true
    · simpa [hu] using hl
    · simp only [hu, if_false] at hl ⊢
      exact dfsCalls_succ _ _ _ _ _ l hl

/-- Every call made by a call of `dfs` carries a chain that extends the chain of
that call along the child lists, through ids that hit in `idToSegment`. -/
theorem dfsCalls_spec (idToSegment : GoMap String PathSegment)
    (graphMap : GoMap String (List String)) :
    ∀ (fuel : Nat) (parents : List String) (id : String) (cs : List Call),
      dfsCalls idToSegment graphMap fuel parents id = .ok cs →
      ∀ c ∈ cs, ∃ tail, c.parents ++ [c.id] = parents ++ id :: tail ∧
        List.Chain' (fun a b => b ∈ graphMap.getD a []) (id :: tail) ∧
        ∀ x ∈ id :: tail, (idToSegment.get? x).isSome := by
  intro fuel
  induction fuel with
  | zero => intro parents id cs h; simp [dfsCalls] at h
  | succ fuel ih =>
    intro parents id cs h c hc
    simp only [dfsCalls] at h
    cases hseg : idToSegment.get? id with
    | none => simp [hseg] at h
    | some seg =>
      simp only [hseg] at h
      obtain ⟨rest, hr, hsub, -, -⟩ := forEach_collect_ok _ _ _ _ h
      rw [hr] at hc
      rcases List.mem_append.mp hc with hc | hc
      · simp only [List.mem_singleton] at hc
        subst hc
        exact ⟨[], rfl, List.chain'_singleton id, by simp [hseg]⟩
      · obtain ⟨child, hchild, l, hl, hcl⟩ := hsub c hc
        obtain ⟨tail, heq, hchain, hget⟩ := ih _ child l hl c hcl
        refine ⟨child :: tail, by simp [heq], List.chain'_cons.mpr ⟨hchild, hchain⟩, ?_⟩
        intro x hx
        rcases List.mem_cons.mp hx with rfl | hx
        · simp [hseg]
        · exact hget x hx

theorem rootPath_snoc (graph : APIGraph) (p : List String) (y x : String)
    (h : RootPath graph (p ++ [y] ++ [x])) : RootPath graph (p ++ [y]) ∧ EdgeRel graph y x := by
  obtain ⟨hchain, hmem, hroot⟩ := h
  obtain ⟨h₁, -, h₃⟩ := List.chain'_append.mp hchain
  refine ⟨⟨h₁, fun z hz => hmem z (List.mem_append_left _ hz), ?_⟩, ?_⟩
  · intro r hr
    apply hroot r
    rw [List.head?_append_of_ne_nil _ (by simp)]
    exact hr
  · exact h₃ y (by simp) x (by simp)

theorem rootPath_extend (graph : APIGraph) (p : List String) (y x : String)
    (h : RootPath graph (p ++ [y])) (hedge : EdgeRel graph y x)
    (hx : x ∈ graph.Segments.map segmentId) : RootPath graph (p ++ [y] ++ [x]) := by
  obtain ⟨hchain, hmem, hroot⟩ := h
  refine ⟨List.Chain'.append hchain (List.chain'_singleton x) ?_, ?_, ?_⟩
  · intro a ha b hb
    rw [List.getLast?_concat] at ha
    simp only [Option.mem_def, Option.some.injEq, List.head?_cons] at ha hb
    subst ha hb
    exact hedge
  · intro z hz
    rcases List.mem_append.mp hz with hz | hz
    · exact hmem z hz
    · simp only [List.mem_singleton] at hz
      subst hz
      exact hx
  · intro r hr
    apply hroot r
    rw [List.head?_append_of_ne_nil _ (by simp)] at hr
    exact hr

/-- A call of `dfs` at the end of a path from a root returns when the recursion
budget covers what a bound on the length of such paths leaves below the call. -/
theorem dfsCalls_terminates (graph : APIGraph)
    (hI : ∀ id ∈ graph.Segments.map segmentId,
      ((buildIdToSegment graph.Segments).get? id).isSome)
    (hE : ∀ e ∈ graph.Edges, e.From ∈ graph.Segments.map segmentId →
      e.To ∈ graph.Segments.map segmentId)
    (D : Nat) (hD : ∀ l, RootPath graph l → l.length ≤ D) :
    ∀ (fuel : Nat) (parents : List String) (id : String),
      RootPath graph (parents ++ [id]) → D ≤ parents.length + fuel →
      ∃ cs, dfsCalls (buildIdToSegment graph.Segments) (buildGraphMap graph.Edges)
        fuel parents id = .ok cs := by
  intro fuel
  induction fuel with
  | zero =>
    intro parents id hpath hlen
    have := hD _ hpath
    simp only [List.length_append, List.length_singleton] at this
    omega
  | succ fuel ih =>
    intro parents id hpath hlen
    have hid : id ∈ graph.Segments.map segmentId := hpath.2.1 id (by simp)
    obtain ⟨seg, hseg⟩ := Option.isSome_iff_exists.mp (hI id hid)
    simp only [dfsCalls, hseg]
    apply forEach_collect_total
    intro child hchild
    have hedge : EdgeRel graph id child := (mem_graphMap_getD graph.Edges id child).mp hchild
    apply ih (parents ++ [id]) child
    · exact rootPath_extend graph parents id child hpath hedge (hE _ hedge hid)
    · simp only [List.length_append, List.length_singleton]
      omega

theorem calls_terminates (graph : APIGraph)
    (hI : ∀ id ∈ graph.Segments.map segmentId,
      ((buildIdToSegment graph.Segments).get? id).isSome)
    (hE : ∀ e ∈ graph.Edges, e.From ∈ graph.Segments.map segmentId →
      e.To ∈ graph.Segments.map segmentId)
    (D : Nat) (hD : ∀ l, RootPath graph l → l.length ≤ D) :
    ∃ cs, calls D graph = .ok cs := by
  unfold calls
  apply forEach_collect_total
  intro s hs
  by_cases hu : (buildUsed graph.Edges).getD (segmentId s) false = true
  · exact ⟨[], by simp [hu]⟩
  · simp only [hu, if_false]
    apply dfsCalls_terminates graph hI hE D hD D [] (segmentId s)
    · refine ⟨List.chain'_singleton _, ?_, ?_⟩
      · intro x hx
        simp only [List.nil_append, List.mem_singleton] at hx
        subst hx
        exact List.mem_map_of_mem segmentId hs
      · intro r hr
        simp only [List.nil_append, List.head?_cons, Option.some.injEq] at hr
        subst hr
        rw [← used_getD]
        exact hu
    · simp

theorem forest_lookup (graph : APIGraph) (hf : Forest graph) :
    ∀ id ∈ graph.Segments.map segmentId,
      ((buildIdToSegment graph.Segments).get? id).isSome := by
  intro id hid
  obtain ⟨seg, -, -, hget⟩ := mem_segmentIds graph hf id hid
  simp [hget]

/-- In a forest no path from a root is longer than the number of segments. -/
theorem forest_rootPath_length (graph : APIGraph) (hf : Forest graph) (l : List String)
    (h : RootPath graph l) : l.length ≤ graph.Segments.length := by
  have hnodup := chain_nodup hf.acyclic l h.1
  have hle := (List.subperm_of_subset hnodup h.2.1).length_le
  simpa using hle

/-- A loop that appends lists without repetition, those of different iterations
told apart by a key, appends a list without repetition. -/
theorem forEach_collect_nodup {α ω κ : Type} (g : α → Except Fault (List ω)) (tag : α → κ)
    (key : ω → κ) (xs : List α) (hxs : (xs.map tag).Nodup)
    (hg : ∀ a ∈ xs, ∀ l, g a = .ok l → l.Nodup ∧ ∀ v ∈ l, key v = tag a)
    (acc r : List ω) (h : forEach (fun acc a => collect acc (g a)) acc xs = .ok r) :
    ∃ rest, r = acc ++ rest ∧ rest.Nodup ∧ ∀ v ∈ rest, key v ∈ xs.map tag := by
  induction xs generalizing acc r with
  | nil =>
    simp only [forEach, Except.ok.injEq] at h
    exact ⟨[], by simp [h], List.nodup_nil, by simp⟩
  | cons a xs ih =>
    simp only [forEach] at h
    cases hga : g a with
    | error e => simp [hga, collect_error] at h
    | ok l =>
      simp only [hga, collect_ok] at h
      rw [List.map_cons, List.nodup_cons] at hxs
      obtain ⟨rest, hr, hnodup, hkeys⟩ :=
        ih hxs.2 (fun b hb => hg b (List.mem_cons_of_mem a hb)) _ _ h
      obtain ⟨hl, hlkey⟩ := hg a (List.mem_cons_self a xs) l hga
      refine ⟨l ++ rest, by simp [hr], ?_, ?_⟩
      · refine List.Nodup.append hl hnodup ?_
        intro v hv₁ hv₂
        have h₁ := hlkey v hv₁
        have h₂ := hkeys v hv₂
        rw [h₁] at h₂
        exact hxs.1 h₂
      · intro v hv
        rcases List.mem_append.mp hv with hv | hv
        · rw [hlkey v hv]; simp
        · exact List.mem_cons_of_mem _ (hkeys v hv)

/-- No call is repeated in the sequence of calls of a call of `dfs` when the
child lists repeat no id. -/
theorem dfsCalls_nodup (idToSegment : GoMap String PathSegment)
    (graphMap : GoMap String (List String)) (hch : ∀ id, (graphMap.getD id []).Nodup) :
    ∀ (fuel : Nat) (parents : List String) (id : String) (cs : List Call),
      dfsCalls idToSegment graphMap fuel parents id = .ok cs → cs.Nodup := by
  intro fuel
  induction fuel with
  | zero => intro parents id cs h; simp [dfsCalls] at h
  | succ fuel ih =>
    intro parents id cs h
    simp only [dfsCalls] at h
    cases hseg : idToSegment.get? id with
    | none => simp [hseg] at h
    | some seg =>
      simp only [hseg] at h
      have hg : ∀ child ∈ graphMap.getD id [], ∀ l,
          dfsCalls idToSegment graphMap fuel (parents ++ [id]) child = .ok l →
          l.Nodup ∧ ∀ c ∈ l,
            ((c.parents ++ [c.id]).drop (parents.length + 1)).head? = some child := by
        intro child _ l hl
        refine ⟨ih _ child l hl, ?_⟩
        intro c hc
        obtain ⟨tail, heq, -, -⟩ := dfsCalls_spec _ _ fuel _ child l hl c hc
        rw [heq]
        have hlen : (parents ++ [id]).length = parents.length + 1 := by simp
        rw [List.drop_left' hlen]
        rfl
      obtain ⟨rest, hr, hnodup, hkeys⟩ := forEach_collect_nodup _ (fun child => some child)
        (fun c : Call => ((c.parents ++ [c.id]).drop (parents.length + 1)).head?)
        (graphMap.getD id [])
        ((hch id).map (fun a b hab => Option.some.inj hab)) hg _ _ h
      rw [hr]
      refine List.Nodup.append (List.nodup_singleton _) hnodup ?_
      intro c hc₁ hc₂
      simp only [List.mem_singleton] at hc₁
      subst hc₁
      have := hkeys _ hc₂
      simp at this

theorem graphMap_nodup (edges : List Edge) (h : (edges.map Edge.To).Nodup) (id : String) :
    ((buildGraphMap edges).getD id []).Nodup := by
  rw [graphMap_getD]
  exact List.Nodup.sublist (List.Sublist.map _ (List.filter_sublist _)) h

theorem calls_nodup (graph : APIGraph) (hids : (graph.Segments.map segmentId).Nodup)
    (hone : (graph.Edges.map Edge.To).Nodup) (fuel : Nat) (cs : List Call)
    (h : calls fuel graph = .ok cs) : cs.Nodup := by
  unfold calls at h
  have hxs : (graph.Segments.map (fun s => some (segmentId s))).Nodup := by
    have := hids.map (fun a b hab => Option.some.inj hab)
    simpa [List.map_map] using this
  have hg : ∀ s ∈ graph.Segments, ∀ l,
      (if (buildUsed graph.Edges).getD (segmentId s) false = true then Except.ok []
        else dfsCalls (buildIdToSegment graph.Segments) (buildGraphMap graph.Edges) fuel []
          (segmentId s)) = .ok l →
      l.Nodup ∧ ∀ c ∈ l, (c.parents ++ [c.id]).head? = some (segmentId s) := by
    intro s _ l hl
    by_cases hu : (buildUsed graph.Edges).getD (segmentId s) false = true
    · simp only [hu, if_true, Except.ok.injEq] at hl
      subst hl
      exact ⟨List.nodup_nil, by simp⟩
    · simp only [hu, if_false] at hl
      refine ⟨dfsCalls_nodup _ _ (graphMap_nodup graph.Edges hone) fuel _ _ l hl, ?_⟩
      intro c hc
      obtain ⟨tail, heq, -, -⟩ := dfsCalls_spec _ _ fuel _ _ l hl c hc
      rw [heq]
      rfl
  obtain ⟨rest, hr, hnodup, -⟩ := forEach_collect_nodup _ (fun s => some (segmentId s))
    (fun c : Call => (c.parents ++ [c.id]).head?) graph.Segments hxs hg _ _ h
  rw [hr, List.nil_append]
  exact hnodup

/-- The chain of every call of a run is a path from a root. -/
theorem calls_rootPath (graph : APIGraph) (fuel : Nat) (cs : List Call)
    (h : calls fuel graph = .ok cs) : ∀ c ∈ cs, RootPath graph (c.parents ++ [c.id]) := by
  intro c hc
  unfold calls at h
  obtain ⟨rest, hr, hsub, -, -⟩ := forEach_collect_ok _ _ _ _ h
  rw [hr, List.nil_append] at hc
  obtain ⟨s, -, l, hl, hcl⟩ := hsub c hc
  by_cases hu : (buildUsed graph.Edges).getD (segmentId s) false = true
  · simp only [hu, if_true, Except.ok.injEq] at hl
    rw [← hl] at hcl
    simp at hcl
  · simp only [hu, if_false] at hl
    obtain ⟨tail, heq, hchain, hget⟩ := dfsCalls_spec _ _ fuel _ _ l hl c hcl
    rw [heq, List.nil_append]
    refine ⟨?_, ?_, ?_⟩
    · exact List.Chain'.imp (fun a b hab => (mem_graphMap_getD graph.Edges a b).mp hab) hchain
    · intro x hx
      obtain ⟨seg, hseg⟩ := Option.isSome_iff_exists.mp (hget x hx)
      obtain ⟨hmem, hid, -⟩ := idToSegment_get?_some graph.Segments x seg hseg
      exact hid ▸ List.mem_map_of_mem segmentId hmem
    · intro r hr'
      simp only [List.head?_cons, Option.some.injEq] at hr'
      subst hr'
      rw [← used_getD]
      exact hu

theorem edge_from_unique (graph : APIGraph) (hone : (graph.Edges.map Edge.To).Nodup)
    (a b x : String) (ha : EdgeRel graph a x) (hb : EdgeRel graph b x) : a = b := by
  have := List.inj_on_of_nodup_map hone ha hb rfl
  exact congrArg Edge.From this

/-- When no segment has two incoming edges, at most one path from a root ends at
a given id. -/
theorem rootPath_unique (graph : APIGraph) (hone : (graph.Edges.map Edge.To).Nodup) :
    ∀ (p₁ p₂ : List String) (x : String),
      RootPath graph (p₁ ++ [x]) → RootPath graph (p₂ ++ [x]) → p₁ = p₂ := by
  intro p₁
  induction p₁ using List.reverseRecOn with
  | nil =>
    intro p₂ x h₁ h₂
    cases p₂ using List.reverseRecOn with
    | nil => rfl
    | append_singleton p₂ y =>
      exfalso
      have hedge := (rootPath_snoc graph p₂ y x h₂).2
      exact h₁.2.2 x rfl (List.mem_map.mpr ⟨_, hedge, rfl⟩)
  | append_singleton p₁ y₁ ih =>
    intro p₂ x h₁ h₂
    obtain ⟨hp₁, he₁⟩ := rootPath_snoc graph p₁ y₁ x h₁
    cases p₂ using List.reverseRecOn with
    | nil =>
      exfalso
      exact h₂.2.2 x rfl (List.mem_map.mpr ⟨_, he₁, rfl⟩)
    | append_singleton p₂ y₂ =>
      obtain ⟨hp₂, he₂⟩ := rootPath_snoc graph p₂ y₂ x h₂
      have hy := edge_from_unique graph hone y₁ y₂ x he₁ he₂
      subst hy
      rw [ih p₂ y₁ hp₁ hp₂]

/-- A call of `dfs` on the first id of a chain along the child lists calls `dfs`
on the last id of the chain. -/
theorem dfsCalls_chain (idToSegment : GoMap String PathSegment)
    (graphMap : GoMap String (List String)) :
    ∀ (rest : List String) (id₀ : String) (fuel : Nat) (parents : List String)
      (cs : List Call),
      List.Chain' (fun a b => b ∈ graphMap.getD a []) (id₀ :: rest) →
      dfsCalls idToSegment graphMap fuel parents id₀ = .ok cs →
      ∀ t, (id₀ :: rest).getLast? = some t → ∃ c ∈ cs, c.id = t := by
  intro rest
  induction rest with
  | nil =>
    intro id₀ fuel parents cs _ h t ht
    cases fuel with
    | zero => simp [dfsCalls] at h
    | succ fuel =>
      simp only [dfsCalls] at h
      cases hseg : idToSegment.get? id₀ with
      | none => simp [hseg] at h
      | some seg =>
        simp only [hseg] at h
        obtain ⟨more, hr, -, -, -⟩ := forEach_collect_ok _ _ _ _ h
        simp only [List.getLast?_singleton, Option.some.injEq] at ht
        exact ⟨⟨parents, id₀⟩, by simp [hr], ht⟩
  | cons id₁ rest ih =>
    intro id₀ fuel parents cs hchain h t ht
    cases fuel with
    | zero => simp [dfsCalls] at h
    | succ fuel =>
      simp only [dfsCalls] at h
      cases hseg : idToSegment.get? id₀ with
      | none => simp [hseg] at h
      | some seg =>
        simp only [hseg] at h
        obtain ⟨more, hr, -, hsup, -⟩ := forEach_collect_ok _ _ _ _ h
        obtain ⟨hedge, hchain'⟩ := List.chain'_cons.mp hchain
        obtain ⟨l, hl, hsub⟩ := hsup id₁ hedge
        rw [List.getLast?_cons_cons] at ht
        obtain ⟨c, hc, hct⟩ := ih id₁ fuel _ l hchain' hl t ht
        exact ⟨c, by rw [hr]; exact List.mem_append_right _ (hsub c hc), hct⟩

theorem getLast?_map_segmentId (c : List PathSegment) (s : PathSegment)
    (h : c.getLast? = some s) : (c.map segmentId).getLast? = some (segmentId s) := by
  induction c with
  | nil => simp at h
  | cons a c ih =>
    cases c with
    | nil =>
      simp only [List.getLast?_singleton, Option.some.injEq] at h
      subst h
      rfl
    | cons b c =>
      rw [List.getLast?_cons_cons] at h
      simp only [List.map_cons] at ih ⊢
      rw [List.getLast?_cons_cons]
      exact ih h

/-- On a forest a run calls `dfs` on every listed segment id. -/
theorem calls_cover (graph : APIGraph) (hf : Forest graph) (fuel : Nat) (cs : List Call)
    (h : calls fuel graph = .ok cs) :
    ∀ id ∈ graph.Segments.map segmentId, ∃ c ∈ cs, c.id = id := by
  intro id hid
  obtain ⟨seg, hseg, rfl⟩ := List.mem_map.mp hid
  obtain ⟨c, hchain, hmem, ⟨r, hhead, hroot⟩, hlast⟩ := exists_rootChain graph hf seg hseg
  cases c with
  | nil => simp at hhead
  | cons r' rest =>
    simp only [List.head?_cons, Option.some.injEq] at hhead
    subst hhead
    unfold calls at h
    obtain ⟨more, hr, -, hsup, -⟩ := forEach_collect_ok _ _ _ _ h
    obtain ⟨l, hl, hsub⟩ := hsup r' (hmem r' (List.mem_cons_self _ _))
    have hu : ¬ (buildUsed graph.Edges).getD (segmentId r') false = true := by
      rw [used_getD]; exact hroot
    simp only [hu, if_false] at hl
    have hchain' : List.Chain' (fun a b => b ∈ (buildGraphMap graph.Edges).getD a [])
        (segmentId r' :: rest.map segmentId) := by
      have h₁ : List.Chain' (EdgeRel graph) ((r' :: rest).map segmentId) :=
        (List.chain'_map segmentId).mpr hchain
      exact List.Chain'.imp (fun a b hab => (mem_graphMap_getD graph.Edges a b).mpr hab) h₁
    obtain ⟨call, hcall, hcid⟩ := dfsCalls_chain _ _ (rest.map segmentId) (segmentId r') fuel []
      l hchain' hl (segmentId seg) (getLast?_map_segmentId (r' :: rest) seg hlast)
    exact ⟨call, by rw [hr, List.nil_append]; exact hsub call hcall, hcid⟩

theorem build_of_calls (toLower : String → String) (fuel : Nat) (graph : APIGraph)
    (cs : List Call) (h : calls fuel graph = .ok cs) :
    ∃ doc, buildOpenAPI toLower fuel graph = .ok (some doc, none) := by
  obtain ⟨vs, hvs⟩ := (calls_ok_iff fuel graph).mp ⟨cs, h⟩
  exact ⟨_, (buildOpenAPI_ok_iff toLower fuel graph _).mpr ⟨vs, hvs, rfl⟩⟩

/-! ## Termination and depth on forests -/

/-! ## Edges from unlisted ids -/

theorem rootChain_rootPath (graph : APIGraph) (c : List PathSegment) (s : PathSegment)
    (h : RootChain graph c s) : RootPath graph (c.map segmentId) := by
  obtain ⟨hchain, hmem, ⟨r, hhead, hroot⟩, -⟩ := h
  refine ⟨(List.chain'_map segmentId).mpr hchain, ?_, ?_⟩
  · intro x hx
    obtain ⟨y, hy, rfl⟩ := List.mem_map.mp hx
    exact List.mem_map_of_mem segmentId (hmem y hy)
  · intro r' hr'
    rw [List.head?_map, hhead] at hr'
    simp only [Option.map_some', Option.some.injEq] at hr'
    subst hr'
    exact hroot

/-- No path from a root goes through a segment whose only incoming edges come
from an unlisted id. -/
theorem rootPath_avoids (graph : APIGraph) (x t : String)
    (he : ({ From := x, To := t } : Edge) ∈ graph.Edges)
    (hx : x ∉ graph.Segments.map segmentId)
    (honly : ∀ e ∈ graph.Edges, e.To = t → e.From = x)
    (l : List String) (h : RootPath graph l) : t ∉ l := by
  intro ht
  obtain ⟨pre, post, rfl⟩ := List.append_of_mem ht
  obtain ⟨hchain, hmem, hroot⟩ := h
  cases pre using List.reverseRecOn with
  | nil =>
    exact hroot t rfl (List.mem_map.mpr ⟨_, he, rfl⟩)
  | append_singleton pre y =>
    have hsplit : pre ++ [y] ++ t :: post = pre ++ y :: (t :: post) := by simp
    rw [hsplit] at hchain
    have hyt : EdgeRel graph y t := (List.chain'_cons.mp (List.chain'_split.mp hchain).2).1
    have hyx : y = x := honly _ hyt rfl
    apply hx
    rw [← hyx]
    exact hmem y (by simp)

/-- C16, as stated, fails: on the graph with the listed segment `t`, whose only
incoming edge `x -> t` comes from an unlisted id, and a second segment `a` with
the edge `a -> y` to an unlisted id, no run returns a document. -/
theorem hidden_target_counterexample :
    ({ From := "x", To := "t" } : Edge) ∈ hiddenFaultGraph.Edges ∧
    "x" ∉ hiddenFaultGraph.Segments.map segmentId ∧
    "t" ∈ hiddenFaultGraph.Segments.map segmentId ∧
    (∀ e ∈ hiddenFaultGraph.Edges, e.To = "t" → e.From = "x") ∧
    (∀ fuel r, buildOpenAPI asciiLower fuel hiddenFaultGraph ≠ .ok r) ∧
    ∀ fuel, buildOpenAPI asciiLower (fuel + 2) hiddenFaultGraph = .error .nilDereference := by
  refine ⟨by decide, by decide, by decide, by decide, ?_, fun fuel => rfl⟩
  intro fuel r
  refine buildOpenAPI_bad asciiLower hiddenFaultGraph (fun n => n = "a" ∨ n = "y") ?_
    (.Static ⟨"a", "orders"⟩) (by decide) (by decide) (Or.inl rfl) fuel r
  rintro n (rfl | rfl)
  · exact Or.inr ⟨"y", by decide, Or.inr rfl⟩
  · exact Or.inl (idToSegment_get?_none _ _ (by decide))

/-- C16, amended: an edge whose `from` id is not the id of a listed segment raises
no error (the error result of `buildOpenAPI` is nil whenever it returns) and hides
a listed target `t` that has no other incoming edge: `t` is an edge target, so it
is not used as a root; no path from a root reaches `t`; in every run that returns
`dfs` is never called on `t` nor below it, and every store is for an operation
attached to the end of a chain from a root that avoids `t`, so no operation
attached to `t` or to a segment reached only through `t` appears in the output;
and when the other edges form a forest over the listed segments, every run with a
recursion budget of at least the number of segments returns a document. -/
theorem hidden_target (toLower : String → String) (graph : APIGraph) (x t : String)
    (he : ({ From := x, To := t } : Edge) ∈ graph.Edges)
    (hx : x ∉ graph.Segments.map segmentId)
    (ht : t ∈ graph.Segments.map segmentId)
    (honly : ∀ e ∈ graph.Edges, e.To = t → e.From = x) :
    (∀ fuel r, buildOpenAPI toLower fuel graph = .ok r → r.2 = none ∧ ∃ doc, r.1 = some doc) ∧
    (t ∈ graph.Segments.map segmentId ∧ (buildUsed graph.Edges).getD t false = true) ∧
    (∀ l, RootPath graph l → t ∉ l) ∧
    (∀ fuel cs, calls fuel graph = .ok cs → ∀ c ∈ cs, c.id ≠ t ∧ t ∉ c.parents) ∧
    (∀ fuel vs, visits fuel graph = .ok vs → ∀ v ∈ vs,
      v.op.PathSegmentId ≠ t ∧
      ∃ c s, RootChain graph c s ∧ v.op.PathSegmentId = segmentId s ∧
        v.path = fullPath (chainParts c) ∧ t ∉ c.map segmentId) ∧
    (Forest (withoutEdge graph { From := x, To := t }) →
      ∀ fuel, graph.Segments.length ≤ fuel →
        ∃ doc, buildOpenAPI toLower fuel graph = .ok (some doc, none)) := by
  have havoid := rootPath_avoids graph x t he hx honly
  refine ⟨fun fuel r h => buildOpenAPI_error_nil toLower fuel graph r h,
    ⟨ht, (used_getD graph.Edges t).mpr (List.mem_map.mpr ⟨_, he, rfl⟩)⟩, havoid, ?_, ?_, ?_⟩
  · intro fuel cs hcs c hc
    have h := havoid _ (calls_rootPath graph fuel cs hcs c hc)
    simp only [List.mem_append, List.mem_singleton, not_or] at h
    exact ⟨fun heq => h.2 heq.symm, h.1⟩
  · intro fuel vs hvs v hv
    obtain ⟨c, s, hc, -, hseg, hpath⟩ := visits_origin fuel graph vs hvs v hv
    have h := havoid _ (rootChain_rootPath graph c s hc)
    refine ⟨?_, c, s, hc, hseg, hpath, h⟩
    intro heq
    apply h
    rw [← heq, hseg]
    exact List.mem_map_of_mem segmentId (List.mem_of_mem_getLast? hc.2.2.2)
  · intro hf fuel hle
    have hI : ∀ id ∈ graph.Segments.map segmentId,
        ((buildIdToSegment graph.Segments).get? id).isSome :=
      forest_lookup (withoutEdge graph { From := x, To := t }) hf
    have hkeep : ∀ e ∈ graph.Edges, e.From ∈ graph.Segments.map segmentId →
        e ∈ (withoutEdge graph { From := x, To := t }).Edges := by
      intro e hmem hfrom
      simp only [withoutEdge, List.mem_filter, decide_not, Bool.not_eq_true',
        decide_eq_false_iff_not]
      refine ⟨hmem, ?_⟩
      intro heq
      apply hx
      rw [heq] at hfrom
      exact hfrom
    have hE : ∀ e ∈ graph.Edges, e.From ∈ graph.Segments.map segmentId →
        e.To ∈ graph.Segments.map segmentId :=
      fun e hmem hfrom => (hf.endpoints e (hkeep e hmem hfrom)).2
    have hD : ∀ l, RootPath graph l → l.length ≤ graph.Segments.length := by
      intro l hl
      have hchain : List.Chain' (EdgeRel (withoutEdge graph { From := x, To := t })) l := by
        refine List.Chain'.imp ?_ (List.Chain'.iff_mem.mp hl.1)
        intro a b hab
        exact hkeep _ hab.2.2 (hl.2.1 a hab.1)
      have hnodup := chain_nodup hf.acyclic l hchain
      have hlen := (List.subperm_of_subset hnodup hl.2.1).length_le
      simpa using hlen
    obtain ⟨cs, hcs⟩ := calls_terminates graph hI hE graph.Segments.length hD
    exact build_of_calls toLower fuel graph cs (calls_mono graph _ fuel hle cs hcs)

theorem hiddenGraph_rest_forest :
    Forest (withoutEdge hiddenGraph { From := "x", To := "t" }) :=
  ⟨by decide, by decide, by decide, by decide,
    acyclic_of_rank _ (fun _ => 0) (by decide)⟩

theorem hidden_target_witness :
    ({ From := "x", To := "t" } : Edge) ∈ hiddenGraph.Edges ∧
    "x" ∉ hiddenGraph.Segments.map segmentId ∧
    "t" ∈ hiddenGraph.Segments.map segmentId ∧
    (∀ e ∈ hiddenGraph.Edges, e.To = "t" → e.From = "x") ∧
    buildOpenAPI asciiLower 1 hiddenGraph = .ok (some emptyDoc, none) ∧
    ∃ doc, buildOpenAPI asciiLower 1 hiddenGraph = .ok (some doc, none) :=
  ⟨by decide, by decide, by decide, by decide, by decide,
    (hidden_target asciiLower hiddenGraph "x" "t" (by decide) (by decide) (by decide)
      (by decide)).2.2.2.2.2 hiddenGraph_rest_forest 1 (by decide)⟩

/-! ## The code follows the visiting order of the spec -/

theorem idToSegment_get?_eq_segmentOf (graph : APIGraph) (id : String) :
    (buildIdToSegment graph.Segments).get? id = segmentOf graph id := by
  unfold buildIdToSegment segmentOf
  generalize graph.Segments = segments
  induction segments using List.reverseRecOn with
  | nil => rfl
  | append_singleton xs s ih =>
    rw [List.foldl_append, List.foldl_cons, List.foldl_nil, idToSegment_step, ih,
      List.filter_append, List.getLast?_append]
    by_cases hs : s ≠ PathSegment.unset ∧ segmentId s = id
    · simp [hs]
    · simp [hs]

theorem ownVisits_eq_operationsOf (graph : APIGraph) (id : String) (segments : List String)
    (newParams : List Parameter) :
    ownVisits segments newParams ((buildOpsBySegment graph.Operations).get? id) =
      (operationsOf graph id).map (fun op =>
        { path := fullPath segments, newParams := newParams, op := op }) := by
  rw [opsBySegment_get?]
  unfold operationsOf
  cases hf : graph.Operations.filter (fun op => op.PathSegmentId = id) with
  | nil => simp [ownVisits]
  | cons a as => simp [ownVisits]

theorem dfsVisits_eq_descend (graph : APIGraph) :
    ∀ (fuel : Nat) (id : String) (segments : List String) (inh : List Parameter),
      dfsVisits (buildIdToSegment graph.Segments) (buildGraphMap graph.Edges)
        (buildOpsBySegment graph.Operations) fuel id segments inh =
        descend graph fuel id segments inh := by
  intro fuel
  induction fuel with
  | zero => intro id segments inh; rfl
  | succ fuel ih =>
    intro id segments inh
    rw [dfsVisits, descend, idToSegment_get?_eq_segmentOf]
    cases segmentOf graph id with
    | none => rfl
    | some seg =>
      simp only
      rw [ownVisits_eq_operationsOf, graphMap_getD]
      exact forEach_congr _ _ _ (fun child _ acc => by rw [ih]) _

theorem forEach_collect_skip {α ω : Type} (p : α → Prop) [DecidablePred p]
    (g : α → Except Fault (List ω)) (xs : List α) :
    ∀ acc : List ω,
      forEach (fun acc a => collect acc (if p a then .ok [] else g a)) acc xs =
        forEach (fun acc a => collect acc (g a)) acc (xs.filter (fun a => ¬ p a)) := by
  induction xs with
  | nil => intro acc; rfl
  | cons a xs ih =>
    intro acc
    by_cases hp : p a
    · rw [List.filter_cons_of_neg (by simpa using hp)]
      rw [forEach, if_pos hp, collect_ok, List.append_nil]
      exact ih acc
    · rw [List.filter_cons_of_pos (by simpa using hp)]
      rw [forEach, forEach, if_neg hp]
      cases collect acc (g a) with
      | error e => rfl
      | ok acc' => exact ih acc'

/-- The stores of a run are executed in the visiting order of the spec. -/
theorem visits_eq_visitOrder (fuel : Nat) (graph : APIGraph) :
    visits fuel graph = visitOrder fuel graph := by
  unfold visits visitOrder rootsOf
  simp only
  have hstep : ∀ s ∈ graph.Segments, ∀ acc : List Visit,
      collect acc
        (if (buildUsed graph.Edges).getD (segmentId s) false = true then .ok []
         else dfsVisits (buildIdToSegment graph.Segments) (buildGraphMap graph.Edges)
          (buildOpsBySegment graph.Operations) fuel (segmentId s) [] []) =
      collect acc
        (if (buildUsed graph.Edges).getD (segmentId s) false = true then .ok []
         else descend graph fuel (segmentId s) [] []) := by
    intro s _ acc
    rw [dfsVisits_eq_descend]
  rw [forEach_congr _ _ _ hstep,
    forEach_collect_skip (fun s => (buildUsed graph.Edges).getD (segmentId s) false = true)]
  congr 1
  apply List.filter_congr
  intro s _
  by_cases hu : (buildUsed graph.Edges).getD (segmentId s) false = true
  · have := (used_getD graph.Edges (segmentId s)).mp hu
    simp [hu, this]
  · have : segmentId s ∉ graph.Edges.map Edge.To :=
      fun hm => hu ((used_getD graph.Edges (segmentId s)).mpr hm)
    simp [hu, this]

/-! ## Collisions -/

/-- C9: when several stores go to the same full path and lower-cased method, the
returned document holds one entry for that path and method (keys are not
repeated), and it is entirely the entry of the store visited last, where the
visiting order is the one of the spec, `visitOrder`: roots in segment-list order,
children in edge-list order depth first, operations of one segment in
operation-list order.  The stores of the code are executed in exactly that
order. -/
theorem later_store_wins (toLower : String → String) (fuel : Nat) (graph : APIGraph)
    (doc : OpenAPI) (h : buildOpenAPI toLower fuel graph = .ok (some doc, none)) :
    ∃ vs, visitOrder fuel graph = .ok vs ∧ visits fuel graph = .ok vs ∧
      (∀ v, LastStore toLower vs v →
        lookupEntry doc.Paths v.path (toLower v.op.Method) = some (opEntry v.newParams v.op)) ∧
      (∀ pre v mid w post, vs = pre ++ v :: (mid ++ w :: post) →
        w.path = v.path → toLower w.op.Method = toLower v.op.Method →
        (∀ u ∈ post, ¬ (u.path = w.path ∧ toLower u.op.Method = toLower w.op.Method)) →
        lookupEntry doc.Paths v.path (toLower v.op.Method) =
          some (opEntry w.newParams w.op)) ∧
      doc.Paths.keys.Nodup ∧
      ∀ p inner, doc.Paths.get? p = some inner → inner.keys.Nodup := by
  obtain ⟨vs, hvs, hpaths⟩ := buildOpenAPI_doc toLower fuel graph doc h
  have hlast : ∀ v, LastStore toLower vs v →
      lookupEntry doc.Paths v.path (toLower v.op.Method) = some (opEntry v.newParams v.op) := by
    rintro v ⟨pre, post, rfl, hpost⟩
    rw [hpaths]
    exact lookupEntry_foldl_of_last toLower pre post v hpost []
  refine ⟨vs, by rw [← visits_eq_visitOrder]; exact hvs, hvs, hlast, ?_, ?_⟩
  · intro pre v mid w post hsplit hp hm hpost
    rw [← hp, ← hm]
    exact hlast w ⟨pre ++ v :: mid, post, by simp [hsplit], hpost⟩
  · rw [hpaths]
    exact foldl_applyVisit_keys toLower vs

theorem later_store_wins_witness :
    (buildOpenAPI asciiLower 1 collisionGraph = .ok (some collisionDoc, none) ∧
      lookupEntry collisionDoc.Paths "/users" "get" =
        some { Summary := "op2", Parameters := [],
               Responses := [("404", [("description", "response")])] }) ∧
    (buildOpenAPI asciiLower 2 orderGraph = .ok (some orderDoc, none) ∧
      visitOrder 2 orderGraph = .ok orderVisits ∧
      lookupEntry orderDoc.Paths "/api" "get" =
        some { Summary := "op2", Parameters := [],
               Responses := [("204", [("description", "response")])] } ∧
      lookupEntry orderDoc.Paths "/api/users" "get" =
        some { Summary := "opB", Parameters := [],
               Responses := [("404", [("description", "response")])] }) := by
  refine ⟨⟨by decide, ?_⟩, ⟨by decide, by decide, ?_⟩⟩
  · obtain ⟨vs, hvs, -, -, hlater, -⟩ :=
      later_store_wins asciiLower 1 collisionGraph collisionDoc (by decide)
    have hvs' : visitOrder 1 collisionGraph =
        .ok [{ path := "/users", newParams := [],
               op := ⟨"op1", "a", "GET", [⟨"", "q", .PARAMETER_TYPE_INTEGER, "1"⟩], [200]⟩ },
             { path := "/users", newParams := [], op := ⟨"op2", "b", "GET", [], [404]⟩ }] := by
      decide
    rw [hvs'] at hvs
    have hvs'' := Except.ok.inj hvs
    exact hlater [] _ [] _ [] hvs''.symm rfl rfl (by simp)
  · obtain ⟨vs, hvs, -, -, hlater, -⟩ :=
      later_store_wins asciiLower 2 orderGraph orderDoc (by decide)
    have hvs' : visitOrder 2 orderGraph = .ok orderVisits := by decide
    rw [hvs'] at hvs
    have hvs'' : orderVisits = vs := Except.ok.inj hvs
    refine ⟨?_, ?_⟩
    · exact hlater [] _ [] _
        [{ path := "/api/users", newParams := [], op := ⟨"opA", "a", "GET", [], [200]⟩ },
         { path := "/api/users", newParams := [], op := ⟨"opB", "b", "GET", [], [404]⟩ }]
        hvs''.symm rfl rfl (by decide)
    · exact hlater
        [{ path := "/api", newParams := [], op := ⟨"op1", "r", "GET", [], [200]⟩ },
         { path := "/api", newParams := [], op := ⟨"op2", "r", "get", [], [204]⟩ }]
        _ [] _ [] hvs''.symm rfl rfl (by simp)

/-! ## The stores, call by call -/

theorem forEach_collect_map {α ω ω' : Type} (φ : List ω' → List ω)
    (hφ : ∀ a b, φ (a ++ b) = φ a ++ φ b) (g : α → Except Fault (List ω))
    (g' : α → Except Fault (List ω')) (xs : List α)
    (h : ∀ a ∈ xs, g a = (g' a).map φ) :
    ∀ acc : List ω',
      forEach (fun acc a => collect acc (g a)) (φ acc) xs =
        (forEach (fun acc a => collect acc (g' a)) acc xs).map φ := by
  induction xs with
  | nil => intro acc; rfl
  | cons a xs ih =>
    intro acc
    rw [forEach, forEach, h a (List.mem_cons_self a xs)]
    cases g' a with
    | error e => rfl
    | ok l =>
      simp only [Except.map, collect_ok]
      rw [← hφ]
      exact ih (fun b hb => h b (List.mem_cons_of_mem a hb)) (acc ++ l)

/-- The stores of a call of `dfs` are, call by call in the order of the calls it
makes, the stores each call executes for its own segment. -/
theorem dfsVisits_eq_calls (idToSegment : GoMap String PathSegment)
    (graphMap : GoMap String (List String)) (opsBySegment : GoMap String (List Operation)) :
    ∀ (fuel : Nat) (parents : List String) (id : String),
      dfsVisits idToSegment graphMap opsBySegment fuel id
          ((parents.filterMap (fun x => idToSegment.get? x)).map segmentPart)
          ((parents.filterMap (fun x => idToSegment.get? x)).foldl segmentParams []) =
        (dfsCalls idToSegment graphMap fuel parents id).map
          (fun cs => cs.flatMap (callVisits idToSegment opsBySegment)) := by
  intro fuel
  induction fuel with
  | zero => intro parents id; rfl
  | succ fuel ih =>
    intro parents id
    rw [dfsVisits, dfsCalls]
    cases hseg : idToSegment.get? id with
    | none => rfl
    | some seg =>
      simp only
      have hP : (parents ++ [id]).filterMap (fun x => idToSegment.get? x) =
          parents.filterMap (fun x => idToSegment.get? x) ++ [seg] := by
        simp [List.filterMap_append, hseg]
      have hown : ownVisits
          ((parents.filterMap (fun x => idToSegment.get? x)).map segmentPart ++
            [segmentPart seg])
          (segmentParams
            ((parents.filterMap (fun x => idToSegment.get? x)).foldl segmentParams []) seg)
          (opsBySegment.get? id) =
          ([{ parents := parents, id := id }] : List Call).flatMap
            (callVisits idToSegment opsBySegment) := by
        simp [callVisits, hP]
      rw [hown]
      refine forEach_collect_map (fun cs => cs.flatMap (callVisits idToSegment opsBySegment))
        (fun a b => List.flatMap_append a b _) _ _ _ ?_ _
      intro child _
      have := ih (parents ++ [id]) child
      rw [hP] at this
      simpa using this

theorem visits_eq_calls (fuel : Nat) (graph : APIGraph) :
    visits fuel graph =
      (calls fuel graph).map (fun cs => cs.flatMap
        (callVisits (buildIdToSegment graph.Segments) (buildOpsBySegment graph.Operations))) := by
  unfold visits calls
  simp only
  refine forEach_collect_map (fun cs => cs.flatMap
    (callVisits (buildIdToSegment graph.Segments) (buildOpsBySegment graph.Operations)))
    (fun a b => List.flatMap_append a b _) _ _ _ ?_ []
  intro s _
  by_cases hu : (buildUsed graph.Edges).getD (segmentId s) false = true
  · simp [hu, Except.map]
  · simp only [hu, if_false]
    exact dfsVisits_eq_calls _ _ _ fuel [] (segmentId s)

/-! ## Termination, visits and depth on forests -/

/-- C13: on a graph with unique segment ids whose edges form a forest over the
listed segments, `buildOpenAPI` returns for every recursion budget of at least
the number of segments, and the paths of the returned document are the replay of
the stores of its calls of `dfs`, call by call; the traversal calls `dfs` on
every listed segment exactly once (the ids of the calls are a rearrangement of
the ids of the segments, each occurring once); the chain of every call is a path
from a root, so the recursion depth of a call is at most the number of segments,
and for every bound on the length of the paths from a root (the depth of the
forest) the recursion depth stays within that bound and a recursion budget equal
to it is enough. -/
theorem forest_traversal (toLower : String → String) (graph : APIGraph) (hf : Forest graph) :
    ∃ cs,
      (∀ fuel, graph.Segments.length ≤ fuel →
        calls fuel graph = .ok cs ∧
        visits fuel graph = .ok (cs.flatMap
          (callVisits (buildIdToSegment graph.Segments)
            (buildOpsBySegment graph.Operations))) ∧
        buildOpenAPI toLower fuel graph =
          .ok (some { OpenAPI := "3.0.0",
                      Info := [("title", "Generated API"), ("version", "1.0.0")],
                      Paths := (cs.flatMap
                        (callVisits (buildIdToSegment graph.Segments)
                          (buildOpsBySegment graph.Operations))).foldl
                        (applyVisit toLower) [] }, none) ∧
        ∃ doc, buildOpenAPI toLower fuel graph = .ok (some doc, none)) ∧
      List.Perm (cs.map Call.id) (graph.Segments.map segmentId) ∧
      (∀ s ∈ graph.Segments, (cs.map Call.id).count (segmentId s) = 1) ∧
      (∀ c ∈ cs, RootPath graph (c.parents ++ [c.id]) ∧
        c.parents.length + 1 ≤ graph.Segments.length) ∧
      (∀ D, (∀ l, RootPath graph l → l.length ≤ D) →
        calls D graph = .ok cs ∧
        buildOpenAPI toLower D graph =
          .ok (some { OpenAPI := "3.0.0",
                      Info := [("title", "Generated API"), ("version", "1.0.0")],
                      Paths := (cs.flatMap
                        (callVisits (buildIdToSegment graph.Segments)
                          (buildOpsBySegment graph.Operations))).foldl
                        (applyVisit toLower) [] }, none) ∧
        (∃ doc, buildOpenAPI toLower D graph = .ok (some doc, none)) ∧
        ∀ c ∈ cs, c.parents.length + 1 ≤ D) := by
  have hI := forest_lookup graph hf
  have hE : ∀ e ∈ graph.Edges, e.From ∈ graph.Segments.map segmentId →
      e.To ∈ graph.Segments.map segmentId := fun e he _ => (hf.endpoints e he).2
  obtain ⟨cs, hcs⟩ := calls_terminates graph hI hE graph.Segments.length
    (forest_rootPath_length graph hf)
  have hpaths := calls_rootPath graph _ cs hcs
  have hstores : ∀ fuel, calls fuel graph = .ok cs →
      visits fuel graph = .ok (cs.flatMap
        (callVisits (buildIdToSegment graph.Segments)
          (buildOpsBySegment graph.Operations))) := by
    intro fuel h
    rw [visits_eq_calls, h]
    rfl
  have hbuild : ∀ fuel, calls fuel graph = .ok cs →
      buildOpenAPI toLower fuel graph =
        .ok (some { OpenAPI := "3.0.0",
                    Info := [("title", "Generated API"), ("version", "1.0.0")],
                    Paths := (cs.flatMap
                      (callVisits (buildIdToSegment graph.Segments)
                        (buildOpsBySegment graph.Operations))).foldl
                      (applyVisit toLower) [] }, none) :=
    fun fuel h => (buildOpenAPI_ok_iff toLower fuel graph _).mpr ⟨_, hstores fuel h, rfl⟩
  have hnodup : (cs.map Call.id).Nodup := by
    refine List.Nodup.map_on ?_ (calls_nodup graph hf.uniqueIds hf.oneIncoming _ cs hcs)
    intro c₁ hc₁ c₂ hc₂ heq
    have h₁ := hpaths c₁ hc₁
    have h₂ := hpaths c₂ hc₂
    rw [heq] at h₁
    have hp := rootPath_unique graph hf.oneIncoming c₁.parents c₂.parents c₂.id h₁ h₂
    cases c₁
    cases c₂
    simp only at heq hp
    rw [heq, hp]
  refine ⟨cs, ?_, ?_, ?_, ?_, ?_⟩
  · intro fuel hle
    have h := calls_mono graph _ fuel hle cs hcs
    exact ⟨h, hstores fuel h, hbuild fuel h, _, hbuild fuel h⟩
  · rw [List.perm_ext_iff_of_nodup hnodup hf.uniqueIds]
    intro id
    constructor
    · intro hid
      obtain ⟨c, hc, rfl⟩ := List.mem_map.mp hid
      exact (hpaths c hc).2.1 c.id (by simp)
    · intro hid
      obtain ⟨c, hc, hcid⟩ := calls_cover graph hf _ cs hcs id hid
      exact List.mem_map.mpr ⟨c, hc, hcid⟩
  · intro s hs
    obtain ⟨c, hc, hcid⟩ := calls_cover graph hf _ cs hcs (segmentId s)
      (List.mem_map_of_mem segmentId hs)
    exact List.count_eq_one_of_mem hnodup (List.mem_map.mpr ⟨c, hc, hcid⟩)
  · intro c hc
    refine ⟨hpaths c hc, ?_⟩
    have := forest_rootPath_length graph hf _ (hpaths c hc)
    simpa using this
  · intro D hD
    obtain ⟨cs', hcs'⟩ := calls_terminates graph hI hE D hD
    have h₁ := calls_mono graph _ (max D graph.Segments.length) (Nat.le_max_left _ _) cs' hcs'
    have h₂ := calls_mono graph _ (max D graph.Segments.length) (Nat.le_max_right _ _) cs hcs
    rw [h₁] at h₂
    have heq : cs' = cs := Except.ok.inj h₂
    subst heq
    refine ⟨hcs', hbuild D hcs', ⟨_, hbuild D hcs'⟩, ?_⟩
    intro c hc
    have := hD _ (hpaths c hc)
    simpa using this

theorem forest_traversal_witness :
    Forest chainGraph ∧
    calls 3 chainGraph = .ok chainCalls ∧
    List.Perm (chainCalls.map Call.id) (chainGraph.Segments.map segmentId) ∧
    buildOpenAPI asciiLower 3 chainGraph = .ok (some chainDoc, none) := by
  obtain ⟨cs, hrun, hperm, -⟩ := forest_traversal asciiLower chainGraph chainGraph_forest
  obtain ⟨hcalls, -, hbuild, -⟩ := hrun 3 (by decide)
  have hc : calls 3 chainGraph = .ok chainCalls := by decide
  rw [hc] at hcalls
  have heq : chainCalls = cs := Except.ok.inj hcalls
  subst heq
  refine ⟨chainGraph_forest, hc, hperm, ?_⟩
  rw [hbuild]
  decide

end Controller
